import Mathlib

/-!
Verification of the TOON codec specification against a shallow embedding.

The repository ships a CLI layer (`packages/cli/src/conversion.ts`) on top of a
TOON codec (`packages/toon/src`).  The codec itself is not among the available
source files, so, as the specification prescribes for such components, the
codec here is modelled from the specification (sections 3 and 4): the Value
model, the grammar, the tabular-array detector, the key-folding/path-expansion
transform, the encoder, the streaming line producer and the decoder.  The CLI
conversion functions (`encodeToToon`, `decodeToJson`, `writeStreamingToon`) are
embedded from their TypeScript source.

All definitions are computable (structural recursion, explicit fuel where the
recursion is not structural) so that every claim can be checked on concrete
inputs by kernel evaluation.
-/

namespace Toon

/-- Modelled from the spec (section 3, Value): the shared in-memory value tree.
Numbers are modelled as integers: the spec requires only that numeric
serialization round-trips ("shortest round-trip decimal"), which the integer
printer/parser below realises exactly; float-specific behaviour is out of the
shallow embedding. Objects are insertion-ordered key/value lists. -/
inductive Value where
  | null : Value
  | bool (b : Bool) : Value
  | num (n : Int) : Value
  | str (s : String) : Value
  | arr (elems : List Value) : Value
  | obj (entries : List (String × Value)) : Value

mutual
/-- Boolean structural equality on values (used to derive decidable equality,
which the nested inductive does not get automatically). -/
def beqV : Value → Value → Bool
  | .null, .null => true
  | .bool a, .bool b => a == b
  | .num a, .num b => a == b
  | .str a, .str b => a == b
  | .arr a, .arr b => beqL a b
  | .obj a, .obj b => beqE a b
  | _, _ => false
def beqL : List Value → List Value → Bool
  | [], [] => true
  | a :: as, b :: bs => beqV a b && beqL as bs
  | _, _ => false
def beqE : List (String × Value) → List (String × Value) → Bool
  | [], [] => true
  | (k, a) :: as, (k2, b) :: bs => k == k2 && beqV a b && beqE as bs
  | _, _ => false
end

mutual
theorem beqV_iff : ∀ a b : Value, beqV a b = true ↔ a = b
  | .null, b => by cases b <;> simp [beqV]
  | .bool x, b => by cases b <;> simp [beqV]
  | .num x, b => by cases b <;> simp [beqV]
  | .str x, b => by cases b <;> simp [beqV]
  | .arr xs, b => by
      cases b <;> simp [beqV]
      exact beqL_iff xs _
  | .obj xs, b => by
      cases b <;> simp [beqV]
      exact beqE_iff xs _
theorem beqL_iff : ∀ a b : List Value, beqL a b = true ↔ a = b
  | [], b => by cases b <;> simp [beqL]
  | x :: xs, b => by
      cases b with
      | nil => simp [beqL]
      | cons y ys => simp [beqL, beqV_iff x y, beqL_iff xs ys]
theorem beqE_iff : ∀ a b : List (String × Value), beqE a b = true ↔ a = b
  | [], b => by cases b <;> simp [beqE]
  | (k, x) :: xs, b => by
      cases b with
      | nil => simp [beqE]
      | cons y ys =>
        cases y with
        | mk k2 v2 => simp [beqE, beqV_iff x v2, beqE_iff xs ys, and_assoc]
end

instance : DecidableEq Value := fun a b => decidable_of_iff _ (beqV_iff a b)

/-- Modelled from the spec (section 3, EncodeOptions).  The delimiter is kept
as a raw character and the indent as a raw integer so that invalid options are
representable; `encode` validates them first, as section 4.4 requires. -/
structure EncodeOptions where
  indent : Int := 2
  delimiter : Char := ','
  keyFolding : Bool := false
  flattenDepth : Option Nat := none

/-- Modelled from the spec (section 3, DecodeOptions). -/
structure DecodeOptions where
  indent : Nat := 2
  strict : Bool := true
  expandPaths : Bool := false

/-- Modelled from the spec (section 4.6): the decode error taxonomy.
`pathConflict` is the fatal structural conflict of path expansion
(section 4.3). -/
inductive DecErr where
  | unterminatedString
  | indentMismatch
  | lengthMismatch
  | duplicateKey
  | unexpectedToken
  | pathConflict
deriving DecidableEq

/-- Modelled from the spec (section 4.6): the encode-side validation errors. -/
inductive EncErr where
  | invalidDelimiter
  | invalidIndent
deriving DecidableEq

/-- Modelled from the spec (section 4.1): the closed delimiter set. -/
def validDelims : List Char := [',', '\t', '|']

/-! ### Decimal numerals -/

/-- One decimal digit as a character. -/
def digitChar (d : Nat) : Char := Char.ofNat (48 + d)

/-- Decimal digit test. -/
def isDigit (c : Char) : Bool := 48 ≤ c.toNat && c.toNat ≤ 57

/-- Digits of `n`, most significant first; `fuel` bounds the recursion and any
`fuel > n` is enough. -/
def natCharsAux : Nat → Nat → List Char
  | 0, _ => []
  | fuel + 1, n => if n < 10 then [digitChar n] else natCharsAux fuel (n / 10) ++ [digitChar (n % 10)]

/-- Decimal digits of a natural number. -/
def natChars (n : Nat) : List Char := natCharsAux (n + 1) n

/-- Modelled from the spec (section 4.1): the number serialization, specialised
to the integer value model (shortest decimal form). -/
def intChars (i : Int) : List Char :=
  if i < 0 then '-' :: natChars i.natAbs else natChars i.toNat

/-- Numeric value of a digit string. -/
def parseNat (ds : List Char) : Nat := ds.foldl (fun a c => a * 10 + (c.toNat - 48)) 0

/-- Modelled from the spec (section 4.6 step 4): the bare-token numeric
pattern, an optional minus sign followed by one or more digits. -/
def isNumericToken : List Char → Bool
  | [] => false
  | c :: cs => if c = '-' then !cs.isEmpty && cs.all isDigit else (c :: cs).all isDigit

/-- Numeric coercion of a bare token matching `isNumericToken`. -/
def parseIntChars : List Char → Int
  | [] => 0
  | c :: cs => if c = '-' then -(parseNat cs : Int) else (parseNat (c :: cs) : Int)

theorem digitChar_toNat {d : Nat} (h : d < 10) : (digitChar d).toNat = 48 + d := by
  interval_cases d <;> decide

theorem isDigit_digitChar {d : Nat} (h : d < 10) : isDigit (digitChar d) = true := by
  interval_cases d <;> decide

theorem parseNat_append (ds : List Char) (c : Char) :
    parseNat (ds ++ [c]) = parseNat ds * 10 + (c.toNat - 48) := by
  simp [parseNat, List.foldl_append]

theorem natCharsAux_spec : ∀ fuel n, n < fuel →
    parseNat (natCharsAux fuel n) = n ∧ natCharsAux fuel n ≠ [] ∧
      ∀ c ∈ natCharsAux fuel n, isDigit c = true := by
  intro fuel
  induction fuel with
  | zero => omega
  | succ f ih =>
    intro n hn
    by_cases h10 : n < 10
    · simp only [natCharsAux, if_pos h10]
      refine ⟨?_, by simp, ?_⟩
      · simp [parseNat, digitChar_toNat h10]
      · intro c hc
        simp only [List.mem_singleton] at hc
        subst hc; exact isDigit_digitChar h10
    · have hdiv : n / 10 < f := by omega
      obtain ⟨h1, h2, h3⟩ := ih (n / 10) hdiv
      simp only [natCharsAux, if_neg h10]
      refine ⟨?_, by simp, ?_⟩
      · rw [parseNat_append, h1, digitChar_toNat (by omega)]
        omega
      · intro c hc
        rcases List.mem_append.mp hc with h | h
        · exact h3 c h
        · simp only [List.mem_singleton] at h
          subst h; exact isDigit_digitChar (by omega)

theorem parseNat_natChars (n : Nat) : parseNat (natChars n) = n :=
  (natCharsAux_spec (n + 1) n (by omega)).1

theorem natChars_ne_nil (n : Nat) : natChars n ≠ [] :=
  (natCharsAux_spec (n + 1) n (by omega)).2.1

theorem natChars_all_digits (n : Nat) : ∀ c ∈ natChars n, isDigit c = true :=
  (natCharsAux_spec (n + 1) n (by omega)).2.2

theorem isDigit_ne_minus {c : Char} (h : isDigit c = true) : c ≠ '-' := by
  intro he; subst he; simp [isDigit] at h

theorem isNumericToken_intChars (i : Int) : isNumericToken (intChars i) = true := by
  by_cases h : i < 0
  · have hne : (natChars i.natAbs).isEmpty = false := by
      simpa [List.isEmpty_iff] using natChars_ne_nil i.natAbs
    have hall : (natChars i.natAbs).all isDigit = true :=
      List.all_eq_true.mpr (natChars_all_digits i.natAbs)
    simp [intChars, if_pos h, isNumericToken, hne, hall]
  · simp only [intChars, if_neg h]
    obtain ⟨c, cs, hc⟩ := List.exists_cons_of_ne_nil (natChars_ne_nil i.toNat)
    rw [hc]
    have hd : ∀ x ∈ c :: cs, isDigit x = true := by rw [← hc]; exact natChars_all_digits i.toNat
    have hcne : c ≠ '-' := isDigit_ne_minus (hd c (by simp))
    have hall : (c :: cs).all isDigit = true := List.all_eq_true.mpr hd
    simp [isNumericToken, if_neg hcne, hall]

theorem parseIntChars_intChars (i : Int) : parseIntChars (intChars i) = i := by
  by_cases h : i < 0
  · have h1 : parseIntChars ('-' :: natChars i.natAbs) = -(parseNat (natChars i.natAbs) : Int) := by
      simp [parseIntChars]
    rw [intChars, if_pos h, h1, parseNat_natChars]
    omega
  · simp only [intChars, if_neg h]
    obtain ⟨c, cs, hc⟩ := List.exists_cons_of_ne_nil (natChars_ne_nil i.toNat)
    have hd : ∀ x ∈ c :: cs, isDigit x = true := by rw [← hc]; exact natChars_all_digits i.toNat
    have hcne : c ≠ '-' := isDigit_ne_minus (hd c (by simp))
    rw [hc]
    simp only [parseIntChars, if_neg hcne, ← hc, parseNat_natChars]
    omega

/-! ### Quoted strings -/

/-- Modelled from the spec (section 4.1): the escape translation for one
character inside a quoted string.  The quote, the backslash and the control
characters that interact with the line/indent grammar get dedicated escapes;
the spec leaves the exact escape set open (section 9), and every other
character passes through unchanged, which keeps quoting lossless. -/
def escChar (c : Char) : List Char :=
  if c = '"' then ['\\', '"']
  else if c = '\\' then ['\\', '\\']
  else if c = '\n' then ['\\', 'n']
  else if c = '\t' then ['\\', 't']
  else if c = '\r' then ['\\', 'r']
  else [c]

/-- Escape a whole character sequence. -/
def escChars : List Char → List Char
  | [] => []
  | c :: cs => escChar c ++ escChars cs

/-- Serialize a string as a double-quoted, escaped token. -/
def quoteChars (s : List Char) : List Char := '"' :: (escChars s ++ ['"'])

/-- Reverse translation of one escape letter. -/
def unescChar (c : Char) : Option Char :=
  if c = '"' then some '"'
  else if c = '\\' then some '\\'
  else if c = 'n' then some '\n'
  else if c = 't' then some '\t'
  else if c = 'r' then some '\r'
  else none

/-- Modelled from the spec (sections 4.1 and 4.6): parse the body of a quoted
string after the opening quote, returning the unescaped content and the rest
of the line.  Running out of input is the always-fatal `unterminatedString`. -/
def parseQuotedBody : List Char → Except DecErr (List Char × List Char)
  | [] => .error .unterminatedString
  | [c] => if c = '"' then .ok ([], []) else .error .unterminatedString
  | c :: e :: rest =>
    if c = '"' then .ok ([], e :: rest)
    else if c = '\\' then
      match unescChar e with
      | some u => (parseQuotedBody rest).map (fun p => (u :: p.1, p.2))
      | none => .error .unexpectedToken
    else (parseQuotedBody (e :: rest)).map (fun p => (c :: p.1, p.2))

theorem parseQuotedBody_cons_ne (c : Char) (e : Char) (rest : List Char)
    (h1 : c ≠ '"') (h2 : c ≠ '\\') :
    parseQuotedBody (c :: e :: rest) =
      (parseQuotedBody (e :: rest)).map (fun p => (c :: p.1, p.2)) := by
  simp [parseQuotedBody, h1, h2]

theorem parseQuotedBody_quote (rest : List Char) :
    parseQuotedBody ('"' :: rest) = .ok ([], rest) := by
  cases rest <;> simp [parseQuotedBody]

theorem parseQuotedBody_esc : ∀ (s rest : List Char),
    parseQuotedBody (escChars s ++ '"' :: rest) = .ok (s, rest) := by
  intro s
  induction s with
  | nil => intro rest; simp [escChars, parseQuotedBody_quote]
  | cons c cs ih =>
    intro rest
    by_cases h1 : c = '"'
    · subst h1
      simp [escChars, escChar, parseQuotedBody, unescChar, ih, Except.map]
    · by_cases h2 : c = '\\'
      · subst h2
        simp [escChars, escChar, parseQuotedBody, unescChar, ih, Except.map]
      · by_cases h3 : c = '\n'
        · subst h3
          simp [escChars, escChar, parseQuotedBody, unescChar, ih, Except.map]
        · by_cases h4 : c = '\t'
          · subst h4
            simp [escChars, escChar, parseQuotedBody, unescChar, ih, Except.map]
          · by_cases h5 : c = '\r'
            · subst h5
              simp [escChars, escChar, parseQuotedBody, unescChar, ih, Except.map]
            · have hl : escChar c = [c] := by simp [escChar, h1, h2, h3, h4, h5]
              have hcons : ∃ e l, escChars cs ++ '"' :: rest = e :: l := by
                cases hx : escChars cs ++ '"' :: rest with
                | nil => simp at hx
                | cons a b => exact ⟨a, b, rfl⟩
              obtain ⟨e, l, hel⟩ := hcons
              rw [escChars, hl, List.singleton_append, List.cons_append, hel,
                parseQuotedBody_cons_ne c e l h1 h2, ← hel, ih]
              simp [Except.map]

theorem parseQuotedBody_unterminated : ∀ (s : List Char),
    (∀ c ∈ s, c ≠ '"' ∧ c ≠ '\\') → parseQuotedBody s = .error .unterminatedString := by
  intro s
  induction s with
  | nil => intro _; simp [parseQuotedBody]
  | cons c cs ih =>
    intro h
    obtain ⟨h1, h2⟩ := h c (by simp)
    cases cs with
    | nil => simp [parseQuotedBody, h1]
    | cons e l =>
      rw [parseQuotedBody_cons_ne c e l h1 h2, ih (fun x hx => h x (by simp [hx]))]
      simp [Except.map]

/-! ### Scalar tokens -/

/-- The literal `true` token. -/
def litTrue : List Char := ['t', 'r', 'u', 'e']
/-- The literal `false` token. -/
def litFalse : List Char := ['f', 'a', 'l', 's', 'e']
/-- The literal `null` token. -/
def litNull : List Char := ['n', 'u', 'l', 'l']

/-- Whether the first character is horizontal whitespace. -/
def headIsWs : List Char → Bool
  | [] => false
  | c :: _ => c = ' ' || c = '\t'

/-- Whether the last character is horizontal whitespace. -/
def lastIsWs (s : List Char) : Bool :=
  match s.getLast? with
  | some c => c = ' ' || c = '\t'
  | none => false

/-- Whether the token starts with the list-item marker `- `. -/
def startsDashSpace : List Char → Bool
  | '-' :: c :: _ => c = ' '
  | _ => false

/-- Membership in the closed delimiter class (spec 4.1): the decoder owns no
delimiter option, so bare tokens must avoid every possible delimiter, which is
exactly why the spec keeps `delimiter` a closed enum ("a chosen delimiter
character must not appear unescaped inside bare scalars"). -/
def isDelimClass (c : Char) : Bool := c = ',' || c = '\t' || c = '|'

/-- Modelled from the spec (section 4.1): a String serializes as a bare token
when it has no delimiter-class character, colon or newline, no leading or
trailing whitespace, and does not collide with the literal tokens or the
numeric pattern.  A leading double quote would be read back as a quoted
string, so it also forces quoting (the spec's own round-trip property demands
it; section 9 leaves the exact quoting set open). -/
def bareScalarSafe (s : List Char) : Bool :=
  !s.isEmpty && decide (s.head? ≠ some '"') &&
  s.all (fun c => !isDelimClass c && decide (c ≠ ':') && decide (c ≠ '\n')) &&
  !headIsWs s && !lastIsWs s &&
  decide (s ≠ litTrue) && decide (s ≠ litFalse) && decide (s ≠ litNull) &&
  !isNumericToken s

/-- Modelled from the spec (sections 4.1 and 9): object keys and tabular
column names use the same bare/quoted scheme as String scalars; a key is bare
when it cannot be confused with the line grammar (no delimiter, colon,
bracket, closing brace or newline, no edge whitespace, no leading quote, and
not shaped like a list-item marker).  Keys are never type-coerced, so the
literal/numeric collisions do not apply to them. -/
def bareKeySafe (k : List Char) : Bool :=
  !k.isEmpty &&
  k.all (fun c => !isDelimClass c && decide (c ≠ ':') && decide (c ≠ '[') &&
    decide (c ≠ '}') && decide (c ≠ '"') && decide (c ≠ '\n')) &&
  !headIsWs k && !lastIsWs k &&
  !startsDashSpace k

/-- Scalar test on values. -/
def isScalar : Value → Bool
  | .null => true
  | .bool _ => true
  | .num _ => true
  | .str _ => true
  | _ => false

/-- Modelled from the spec (section 4.1): scalar serialization.  Containers
never reach this function (the encoder guards every call with `isScalar`). -/
def encScalarChars : Value → List Char
  | .null => litNull
  | .bool true => litTrue
  | .bool false => litFalse
  | .num n => intChars n
  | .str s => if bareScalarSafe s.data then s.data else quoteChars s.data
  | .arr _ => []
  | .obj _ => []

/-- Key serialization: bare when safe, quoted otherwise. -/
def encKeyChars (k : String) : List Char :=
  if bareKeySafe k.data then k.data else quoteChars k.data

/-- Modelled from the spec (section 4.6 step 4): scalar-position parsing.
Quoted strings are unescaped and never coerced; bare tokens matching the
literal grammar coerce; everything else stays a String. -/
def parseScalar (cs : List Char) : Except DecErr Value :=
  match cs with
  | [] => .ok (.str "")
  | c :: rest =>
    if c = '"' then
      match parseQuotedBody rest with
      | .ok (s, []) => .ok (.str (String.mk s))
      | .ok (_, _ :: _) => .error .unexpectedToken
      | .error e => .error e
    else if c :: rest = litNull then .ok .null
    else if c :: rest = litTrue then .ok (.bool true)
    else if c :: rest = litFalse then .ok (.bool false)
    else if isNumericToken (c :: rest) then .ok (.num (parseIntChars (c :: rest)))
    else .ok (.str (String.mk (c :: rest)))

theorem isDigit_val {c : Char} (h : isDigit c = true) : 48 ≤ c.toNat ∧ c.toNat ≤ 57 := by
  simpa [isDigit] using h

theorem isDigit_ne_of_val {c : Char} (h : isDigit c = true) {d : Char}
    (hd : d.toNat < 48 ∨ 57 < d.toNat) : c ≠ d := by
  obtain ⟨h1, h2⟩ := isDigit_val h
  intro he
  subst he
  omega

theorem intChars_head (i : Int) :
    ∃ c rest, intChars i = c :: rest ∧ (c = '-' ∨ isDigit c = true) := by
  by_cases h : i < 0
  · exact ⟨'-', natChars i.natAbs, by simp [intChars, h], Or.inl rfl⟩
  · obtain ⟨c, cs, hc⟩ := List.exists_cons_of_ne_nil (natChars_ne_nil i.toNat)
    refine ⟨c, cs, by simp [intChars, h, hc], Or.inr ?_⟩
    have := natChars_all_digits i.toNat
    rw [hc] at this
    exact this c (by simp)

theorem intChars_ne_lits (i : Int) :
    intChars i ≠ litNull ∧ intChars i ≠ litTrue ∧ intChars i ≠ litFalse ∧
      (intChars i).head? ≠ some '"' := by
  obtain ⟨c, rest, hc, hd⟩ := intChars_head i
  have hcn : c ≠ 'n' ∧ c ≠ 't' ∧ c ≠ 'f' ∧ c ≠ '"' := by
    rcases hd with h | h
    · subst h; refine ⟨by decide, by decide, by decide, by decide⟩
    · exact ⟨isDigit_ne_of_val h (by decide), isDigit_ne_of_val h (by decide),
        isDigit_ne_of_val h (by decide), isDigit_ne_of_val h (by decide)⟩
  rw [hc]
  refine ⟨?_, ?_, ?_, ?_⟩
  · simp [litNull]; intro h; exact absurd h hcn.1
  · simp [litTrue]; intro h; exact absurd h hcn.2.1
  · simp [litFalse]; intro h; exact absurd h hcn.2.2.1
  · simp; exact hcn.2.2.2

theorem string_mk_data (s : String) : String.mk s.data = s := rfl

/-- Scalar round trip: parsing the serialization of any scalar value yields
the value back, for any delimiter. -/
theorem parseScalar_enc : ∀ (v : Value), isScalar v = true →
    parseScalar (encScalarChars v) = .ok v := by
  intro v hv
  cases v with
  | null => rfl
  | bool b => cases b <;> rfl
  | num n =>
    obtain ⟨c, rest, hc, hd⟩ := intChars_head n
    obtain ⟨hn, ht, hf, hq⟩ := intChars_ne_lits n
    have hq2 : c ≠ '"' := by
      rw [hc] at hq; simpa using hq
    have hnum := isNumericToken_intChars n
    have hval := parseIntChars_intChars n
    simp only [encScalarChars]
    rw [hc]
    rw [hc] at hn ht hf hnum hval
    simp [parseScalar, hq2, hn, ht, hf, hnum, hval]
  | str s =>
    by_cases hb : bareScalarSafe s.data
    · have hb' := hb
      simp only [bareScalarSafe, Bool.and_eq_true, Bool.not_eq_true', decide_eq_true_eq,
        List.all_eq_true] at hb'
      obtain ⟨⟨⟨⟨⟨⟨⟨⟨hne, hhq⟩, _⟩, _⟩, _⟩, hlT⟩, hlF⟩, hlN⟩, hnum⟩ := hb'
      obtain ⟨c, rest, hc⟩ := List.exists_cons_of_ne_nil (by
        simpa [List.isEmpty_iff] using hne)
      have hq2 : c ≠ '"' := by
        rw [hc] at hhq; simpa using hhq
      simp only [encScalarChars, if_pos hb]
      rw [hc]
      rw [hc] at hlT hlF hlN hnum
      have hps : parseScalar (c :: rest) = .ok (.str (String.mk (c :: rest))) := by
        simp [parseScalar, hq2, hlN, hlT, hlF, hnum]
      rw [hps, ← hc, string_mk_data]
    · simp only [encScalarChars, if_neg hb, quoteChars]
      have : escChars s.data ++ ['"'] = escChars s.data ++ '"' :: [] := rfl
      simp [parseScalar, this, parseQuotedBody_esc, string_mk_data]
  | arr es => simp [isScalar] at hv
  | obj es => simp [isScalar] at hv

/-! ### Delimited fields -/

/-- Join tokens with the active delimiter (inline arrays, tabular rows and
column lists; spec section 4.1). -/
def joinDelim (delim : Char) : List (List Char) → List Char
  | [] => []
  | [x] => x
  | x :: y :: rest => x ++ delim :: joinDelim delim (y :: rest)

/-- Prepend a character to the first field of a field list. -/
def consHead (c : Char) : List (List Char) → List (List Char)
  | [] => [[c]]
  | f :: fs => (c :: f) :: fs

/-- Prepend a token to the first field of a field list. -/
def prependTok (t : List Char) : List (List Char) → List (List Char)
  | [] => [t]
  | f :: fs => (t ++ f) :: fs

mutual
/-- Modelled from the spec (section 4.1): split a delimited value list into
raw fields.  A field that starts with a double quote is scanned through its
quoted body, so delimiters inside quotes do not split; in any other field the
delimiter always splits. -/
def splitStart (delim : Char) : List Char → Except DecErr (List (List Char))
  | [] => .ok [[]]
  | c :: rest =>
    if c = delim then (splitStart delim rest).map (fun fs => [] :: fs)
    else if c = '"' then (splitQ delim rest).map (consHead c)
    else (splitRaw delim rest).map (consHead c)
/-- Inside an unquoted field. -/
def splitRaw (delim : Char) : List Char → Except DecErr (List (List Char))
  | [] => .ok [[]]
  | c :: rest =>
    if c = delim then (splitStart delim rest).map (fun fs => [] :: fs)
    else (splitRaw delim rest).map (consHead c)
/-- Inside a quoted field body; escapes pass through verbatim. -/
def splitQ (delim : Char) : List Char → Except DecErr (List (List Char))
  | [] => .error .unterminatedString
  | [c] =>
    if c = '"' then (splitAfterQ delim []).map (consHead c)
    else .error .unterminatedString
  | c :: e :: rest =>
    if c = '"' then (splitAfterQ delim (e :: rest)).map (consHead c)
    else if c = '\\' then (splitQ delim rest).map (fun fs => consHead c (consHead e fs))
    else (splitQ delim (e :: rest)).map (consHead c)
/-- Just after a closing quote: only a delimiter or the end may follow. -/
def splitAfterQ (delim : Char) : List Char → Except DecErr (List (List Char))
  | [] => .ok [[]]
  | c :: rest =>
    if c = delim then (splitStart delim rest).map (fun fs => [] :: fs)
    else .error .unexpectedToken
end

/-- Split a delimited list into its raw fields. -/
def splitFields (delim : Char) (cs : List Char) : Except DecErr (List (List Char)) :=
  splitStart delim cs

/-- A token the splitter passes through unchanged: either a full quoted token
or a nonempty unquoted token free of the delimiter. -/
def GoodToken (delim : Char) (t : List Char) : Prop :=
  (∃ s, t = quoteChars s) ∨ (t ≠ [] ∧ t.head? ≠ some '"' ∧ delim ∉ t)

theorem consHead_prependTok (c : Char) (t : List Char) (fs : List (List Char)) :
    consHead c (prependTok t fs) = prependTok (c :: t) fs := by
  cases fs <;> simp [consHead, prependTok]

theorem consHead_ne_nil (c : Char) (fs : List (List Char)) : consHead c fs ≠ [] := by
  cases fs <;> simp [consHead]

theorem splitStart_ne_nil (delim : Char) (cs : List Char) (fs : List (List Char))
    (h : splitStart delim cs = .ok fs) : fs ≠ [] := by
  cases cs with
  | nil => simp [splitStart] at h; simp [← h]
  | cons c rest =>
    by_cases h1 : c = delim
    · simp only [splitStart, if_pos h1] at h
      cases hx : splitStart delim rest with
      | ok gs => rw [hx] at h; simp [Except.map] at h; simp [← h]
      | error e => rw [hx] at h; simp [Except.map] at h
    · by_cases h2 : c = '"'
      · simp only [splitStart, if_neg h1, if_pos h2] at h
        cases hx : splitQ delim rest with
        | ok gs =>
          rw [hx] at h; simp [Except.map] at h
          rw [← h]; exact consHead_ne_nil c gs
        | error e => rw [hx] at h; simp [Except.map] at h
      · simp only [splitStart, if_neg h1, if_neg h2] at h
        cases hx : splitRaw delim rest with
        | ok gs =>
          rw [hx] at h; simp [Except.map] at h
          rw [← h]; exact consHead_ne_nil c gs
        | error e => rw [hx] at h; simp [Except.map] at h

theorem splitRaw_ne_nil (delim : Char) (cs : List Char) (fs : List (List Char))
    (h : splitRaw delim cs = .ok fs) : fs ≠ [] := by
  cases cs with
  | nil => simp [splitRaw] at h; simp [← h]
  | cons c rest =>
    by_cases h1 : c = delim
    · simp only [splitRaw, if_pos h1] at h
      cases hx : splitStart delim rest with
      | ok gs => rw [hx] at h; simp [Except.map] at h; simp [← h]
      | error e => rw [hx] at h; simp [Except.map] at h
    · simp only [splitRaw, if_neg h1] at h
      cases hx : splitRaw delim rest with
      | ok gs =>
        rw [hx] at h; simp [Except.map] at h
        rw [← h]; exact consHead_ne_nil c gs
      | error e => rw [hx] at h; simp [Except.map] at h

theorem splitAfterQ_ne_nil (delim : Char) (cs : List Char) (fs : List (List Char))
    (h : splitAfterQ delim cs = .ok fs) : fs ≠ [] := by
  cases cs with
  | nil => simp [splitAfterQ] at h; simp [← h]
  | cons c rest =>
    by_cases h1 : c = delim
    · simp only [splitAfterQ, if_pos h1] at h
      cases hx : splitStart delim rest with
      | ok gs => rw [hx] at h; simp [Except.map] at h; simp [← h]
      | error e => rw [hx] at h; simp [Except.map] at h
    · simp [splitAfterQ, if_neg h1] at h

theorem splitRaw_chunk (delim : Char) : ∀ (t cs : List Char), delim ∉ t →
    splitRaw delim (t ++ cs) = (splitRaw delim cs).map (prependTok t) := by
  intro t
  induction t with
  | nil =>
    intro cs _
    cases hx : splitRaw delim cs with
    | ok fs =>
      cases fs with
      | nil => exact absurd hx (fun h => splitRaw_ne_nil delim cs [] h rfl)
      | cons f fs => simp [hx, Except.map, prependTok]
    | error e => simp [hx, Except.map]
  | cons c t ih =>
    intro cs hmem
    have hcd : c ≠ delim := by
      intro he; exact hmem (by simp [he])
    have hstep : splitRaw delim (c :: (t ++ cs)) = (splitRaw delim (t ++ cs)).map (consHead c) := by
      simp [splitRaw, hcd]
    rw [List.cons_append, hstep, ih cs (fun h => hmem (by simp [h]))]
    cases hx : splitRaw delim cs with
    | ok fs => simp [Except.map, consHead_prependTok]
    | error e => simp [Except.map]

theorem consHead_eq_prependTok (c : Char) (fs : List (List Char)) :
    consHead c fs = prependTok [c] fs := by
  cases fs <;> simp [consHead, prependTok]

theorem consHead2_eq_prependTok (a b : Char) (fs : List (List Char)) :
    consHead a (consHead b fs) = prependTok [a, b] fs := by
  cases fs <;> simp [consHead, prependTok]

theorem prependTok_prependTok (a b : List Char) (fs : List (List Char)) :
    prependTok a (prependTok b fs) = prependTok (a ++ b) fs := by
  cases fs <;> simp [prependTok]

theorem splitQ_escChar (delim : Char) (c : Char) (tail : List Char) :
    splitQ delim (escChar c ++ tail) = (splitQ delim tail).map (prependTok (escChar c)) := by
  by_cases h1 : c = '"'
  · subst h1
    have he : escChar '"' = ['\\', '"'] := rfl
    rw [he]
    have hs : splitQ delim ('\\' :: '"' :: tail) =
        (splitQ delim tail).map (fun fs => consHead '\\' (consHead '"' fs)) := by
      simp [splitQ]
    show splitQ delim ('\\' :: '"' :: tail) = _
    rw [hs]
    cases hx : splitQ delim tail with
    | ok fs => simp [Except.map, consHead2_eq_prependTok]
    | error e => simp [Except.map]
  · by_cases h2 : c = '\\'
    · subst h2
      have he : escChar '\\' = ['\\', '\\'] := rfl
      rw [he]
      have hs : splitQ delim ('\\' :: '\\' :: tail) =
          (splitQ delim tail).map (fun fs => consHead '\\' (consHead '\\' fs)) := by
        simp [splitQ]
      show splitQ delim ('\\' :: '\\' :: tail) = _
      rw [hs]
      cases hx : splitQ delim tail with
      | ok fs => simp [Except.map, consHead2_eq_prependTok]
      | error e => simp [Except.map]
    · by_cases h3 : c = '\n'
      · subst h3
        have he : escChar '\n' = ['\\', 'n'] := rfl
        rw [he]
        have hs : splitQ delim ('\\' :: 'n' :: tail) =
            (splitQ delim tail).map (fun fs => consHead '\\' (consHead 'n' fs)) := by
          simp [splitQ]
        show splitQ delim ('\\' :: 'n' :: tail) = _
        rw [hs]
        cases hx : splitQ delim tail with
        | ok fs => simp [Except.map, consHead2_eq_prependTok]
        | error e => simp [Except.map]
      · by_cases h4 : c = '\t'
        · subst h4
          have he : escChar '\t' = ['\\', 't'] := rfl
          rw [he]
          have hs : splitQ delim ('\\' :: 't' :: tail) =
              (splitQ delim tail).map (fun fs => consHead '\\' (consHead 't' fs)) := by
            simp [splitQ]
          show splitQ delim ('\\' :: 't' :: tail) = _
          rw [hs]
          cases hx : splitQ delim tail with
          | ok fs => simp [Except.map, consHead2_eq_prependTok]
          | error e => simp [Except.map]
        · by_cases h5 : c = '\r'
          · subst h5
            have he : escChar '\r' = ['\\', 'r'] := rfl
            rw [he]
            have hs : splitQ delim ('\\' :: 'r' :: tail) =
                (splitQ delim tail).map (fun fs => consHead '\\' (consHead 'r' fs)) := by
              simp [splitQ]
            show splitQ delim ('\\' :: 'r' :: tail) = _
            rw [hs]
            cases hx : splitQ delim tail with
            | ok fs => simp [Except.map, consHead2_eq_prependTok]
            | error e => simp [Except.map]
          · have he : escChar c = [c] := by simp [escChar, h1, h2, h3, h4, h5]
            rw [he]
            have hs : splitQ delim (c :: tail) =
                (splitQ delim tail).map (consHead c) := by
              cases tail <;> simp [splitQ, h1, h2, Except.map]
            show splitQ delim (c :: tail) = _
            rw [hs]
            cases hx : splitQ delim tail with
            | ok fs => simp [Except.map, consHead_eq_prependTok]
            | error e => simp [Except.map]

theorem splitQ_esc (delim : Char) : ∀ (s cs : List Char),
    splitQ delim (escChars s ++ '"' :: cs) =
      (splitAfterQ delim cs).map (prependTok (escChars s ++ ['"'])) := by
  intro s
  induction s with
  | nil =>
    intro cs
    have hq : splitQ delim ('"' :: cs) = (splitAfterQ delim cs).map (consHead '"') := by
      cases cs <;> simp [splitQ]
    rw [escChars, List.nil_append, hq]
    cases hx : splitAfterQ delim cs with
    | ok fs => simp [Except.map, consHead_eq_prependTok]
    | error e => simp [Except.map]
  | cons c s ih =>
    intro cs
    have h0 : escChars (c :: s) ++ '"' :: cs = escChar c ++ (escChars s ++ '"' :: cs) := by
      simp [escChars]
    rw [h0, splitQ_escChar, ih cs]
    cases hx : splitAfterQ delim cs with
    | ok fs =>
      simp only [Except.map]
      rw [prependTok_prependTok]
      have h2 : escChar c ++ (escChars s ++ ['"']) = escChars (c :: s) ++ ['"'] := by
        simp [escChars]
      rw [h2]
    | error e => simp [Except.map]

/-- A lone good token is one whole field. -/
theorem splitStart_tok_nil (delim : Char) (t : List Char) (hqd : delim ≠ '"')
    (hg : GoodToken delim t) : splitStart delim t = .ok [t] := by
  rcases hg with ⟨s, hq⟩ | ⟨hne, hhd, hd⟩
  · subst hq
    have h0 : quoteChars s = '"' :: (escChars s ++ '"' :: []) := by
      simp [quoteChars]
    rw [h0]
    have h1 : splitStart delim ('"' :: (escChars s ++ '"' :: [])) =
        (splitQ delim (escChars s ++ '"' :: [])).map (consHead '"') := by
      have hne2 : ('"' : Char) ≠ delim := fun h => hqd h.symm
      simp [splitStart, hne2]
    rw [h1, splitQ_esc]
    simp [splitAfterQ, Except.map, consHead, prependTok]
  · obtain ⟨c, t', hct⟩ := List.exists_cons_of_ne_nil hne
    subst hct
    have hcd : c ≠ delim := fun he => hd (by simp [he])
    have hcq : c ≠ '"' := by simpa using hhd
    have h1 : splitStart delim (c :: t') = (splitRaw delim t').map (consHead c) := by
      simp [splitStart, hcd, hcq]
    rw [h1, ← List.append_nil t', splitRaw_chunk delim t' [] (fun h => hd (by simp [h]))]
    simp [splitRaw, Except.map, consHead, prependTok]

/-- A good token followed by the delimiter contributes one field. -/
theorem splitStart_tok_delim (delim : Char) (t cs2 : List Char) (hqd : delim ≠ '"')
    (hg : GoodToken delim t) :
    splitStart delim (t ++ delim :: cs2) = (splitStart delim cs2).map (fun fs => t :: fs) := by
  rcases hg with ⟨s, hq⟩ | ⟨hne, hhd, hd⟩
  · subst hq
    have h0 : quoteChars s ++ delim :: cs2 = '"' :: (escChars s ++ '"' :: delim :: cs2) := by
      simp [quoteChars]
    rw [h0]
    have h1 : splitStart delim ('"' :: (escChars s ++ '"' :: delim :: cs2)) =
        (splitQ delim (escChars s ++ '"' :: delim :: cs2)).map (consHead '"') := by
      have hne2 : ('"' : Char) ≠ delim := fun h => hqd h.symm
      simp [splitStart, hne2]
    rw [h1, splitQ_esc]
    have h2 : splitAfterQ delim (delim :: cs2) =
        (splitStart delim cs2).map (fun fs => [] :: fs) := by
      simp [splitAfterQ]
    rw [h2]
    cases hx : splitStart delim cs2 with
    | ok fs => simp [Except.map, consHead, prependTok, quoteChars]
    | error e => simp [Except.map]
  · obtain ⟨c, t', hct⟩ := List.exists_cons_of_ne_nil hne
    subst hct
    have hcd : c ≠ delim := fun he => hd (by simp [he])
    have hcq : c ≠ '"' := by simpa using hhd
    have h1 : splitStart delim (c :: (t' ++ delim :: cs2)) =
        (splitRaw delim (t' ++ delim :: cs2)).map (consHead c) := by
      simp [splitStart, hcd, hcq]
    rw [List.cons_append, h1, splitRaw_chunk delim t' (delim :: cs2) (fun h => hd (by simp [h]))]
    have h2 : splitRaw delim (delim :: cs2) =
        (splitStart delim cs2).map (fun fs => [] :: fs) := by
      simp [splitRaw]
    rw [h2]
    cases hx : splitStart delim cs2 with
    | ok fs => simp [Except.map, consHead, prependTok]
    | error e => simp [Except.map]

/-- Round trip of the field splitter over the field joiner. -/
theorem splitFields_join (delim : Char) (hqd : delim ≠ '"') : ∀ (ts : List (List Char)),
    ts ≠ [] → (∀ t ∈ ts, GoodToken delim t) →
    splitFields delim (joinDelim delim ts) = .ok ts := by
  intro ts
  induction ts with
  | nil => intro h; exact absurd rfl h
  | cons t rest ih =>
    intro _ hg
    cases rest with
    | nil =>
      simp only [joinDelim, splitFields]
      exact splitStart_tok_nil delim t hqd (hg t (by simp))
    | cons t2 rest2 =>
      have hj : joinDelim delim (t :: t2 :: rest2) = t ++ delim :: joinDelim delim (t2 :: rest2) := by
        simp [joinDelim]
      have hih : splitStart delim (joinDelim delim (t2 :: rest2)) = .ok (t2 :: rest2) :=
        ih (by simp) (fun x hx => hg x (by simp [hx]))
      simp only [splitFields]
      rw [hj, splitStart_tok_delim delim t _ hqd (hg t (by simp)), hih]
      simp [Except.map]

/-! ### Encoder -/

/-- Leading spaces for nesting depth `d` at indent width `i` (spec 4.1). -/
def indentChars (i d : Nat) : List Char := List.replicate (d * i) ' '

/-- The keys of an entry list, in order. -/
def entryKeys (es : List (String × Value)) : List String := es.map (fun e => e.1)

/-- The values of an entry list, in order. -/
def entryVals (es : List (String × Value)) : List Value := es.map (fun e => e.2)

/-- Whether every element is a scalar. -/
def allScalars (vs : List Value) : Bool := vs.all isScalar

/-- One element's conformance to a tabular column list: an object with exactly
the given ordered keys and only scalar values (spec 4.2, clauses 1 and 3). -/
def rowMatches (cols : List String) : Value → Bool
  | .obj es => decide (entryKeys es = cols) && allScalars (entryVals es)
  | _ => false

/-- Modelled from the spec (section 4.2): the tabular-array detector.  A
non-empty array qualifies iff every element is an Object whose ordered key
set equals the first element's; elements with non-scalar values reject the
tabular form (clause 3). -/
def tabularCols : List Value → Option (List String)
  | [] => none
  | v :: rest =>
    match v with
    | .obj e0 =>
      if rowMatches (entryKeys e0) (.obj e0) && rest.all (rowMatches (entryKeys e0)) then
        some (entryKeys e0)
      else none
    | _ => none

/-- The optional key part of an array header line. -/
def keyPart : Option String → List Char
  | none => []
  | some k => encKeyChars k

/-- One tabular data row (spec 4.2 clause 2): the element's values in column
order, joined by the delimiter. -/
def encRow (i : Nat) (delim : Char) (d : Nat) : Value → List Char
  | .obj e => indentChars i d ++ joinDelim delim ((entryVals e).map encScalarChars)
  | _ => indentChars i d

/-- All tabular data rows. -/
def encRows (i : Nat) (delim : Char) (d : Nat) (es : List Value) : List (List Char) :=
  es.map (encRow i delim d)

/-- Inline scalar-array line `key[n]: v1<d>v2...` (spec 4.1). -/
def inlineLine (i : Nat) (delim : Char) (d : Nat) (k : Option String) (es : List Value) : List Char :=
  indentChars i d ++ keyPart k ++ '[' :: natChars es.length ++ ']' :: ':' ::
    (if es.isEmpty then [] else ' ' :: joinDelim delim (es.map encScalarChars))

/-- Tabular header line `key[n]{c1,c2,...}:` (spec 4.1/4.2). -/
def tabLine (i : Nat) (delim : Char) (d : Nat) (k : Option String) (cols : List String)
    (n : Nat) : List Char :=
  indentChars i d ++ keyPart k ++ '[' :: natChars n ++ ']' :: '{' ::
    joinDelim delim (cols.map encKeyChars) ++ ['}', ':']

/-- General list-form header line `key[n]:` (spec 4.2 clause 3 fallback). -/
def listLine (i : Nat) (d : Nat) (k : Option String) (n : Nat) : List Char :=
  indentChars i d ++ keyPart k ++ '[' :: natChars n ++ [']', ':']

/-- The encoded block of an array value: inline when all elements are scalars,
tabular when the detector accepts, list form otherwise.  `itemLines` is the
already-encoded list-form body (passed in so the mutual encoder stays
structural). -/
def arrBlock (i : Nat) (delim : Char) (d : Nat) (k : Option String) (es : List Value)
    (itemLines : List (List Char)) : List (List Char) :=
  if allScalars es then [inlineLine i delim d k es]
  else
    match tabularCols es with
    | some cols => tabLine i delim d k cols es.length :: encRows i delim (d + 1) es
    | none => listLine i d k es.length :: itemLines

mutual
/-- Modelled from the spec (section 4.4): the encoder's ordered line sequence
for a value block at depth `d` (used at the root and after a list-item
marker). -/
def encVal (i : Nat) (delim : Char) (d : Nat) : Value → List (List Char)
  | .arr es => arrBlock i delim d none es (encItems i delim (d + 1) es)
  | .obj es => encEntries i delim d es
  | v => [indentChars i d ++ encScalarChars v]
/-- The lines of an object body: each entry in insertion order. -/
def encEntries (i : Nat) (delim : Char) (d : Nat) : List (String × Value) → List (List Char)
  | [] => []
  | (k, v) :: rest => encEntry i delim d k v ++ encEntries i delim d rest
/-- The lines of one object entry (spec 4.1 content forms). -/
def encEntry (i : Nat) (delim : Char) (d : Nat) (k : String) : Value → List (List Char)
  | .obj es => (indentChars i d ++ encKeyChars k ++ [':']) :: encEntries i delim (d + 1) es
  | .arr es => arrBlock i delim d (some k) es (encItems i delim (d + 1) es)
  | v => [indentChars i d ++ encKeyChars k ++ ':' :: ' ' :: encScalarChars v]
/-- The lines of the elements of a list-form array: scalars inline after the
item marker, containers as a marker line followed by a nested block. -/
def encItems (i : Nat) (delim : Char) (d : Nat) : List Value → List (List Char)
  | [] => []
  | .obj es :: vs =>
      ((indentChars i d ++ ['-']) :: encEntries i delim (d + 1) es) ++ encItems i delim d vs
  | .arr es :: vs =>
      ((indentChars i d ++ ['-']) ::
        arrBlock i delim (d + 1) none es (encItems i delim (d + 2) es)) ++ encItems i delim d vs
  | v :: vs => (indentChars i d ++ '-' :: ' ' :: encScalarChars v) :: encItems i delim d vs
end

/-- The full encoded line sequence of a value (root block at depth 0). -/
def encTop (i : Nat) (delim : Char) (v : Value) : List (List Char) := encVal i delim 0 v

/-- Join lines with the newline separator. -/
def joinNl (ls : List (List Char)) : List Char := joinDelim '\n' ls

/-- Encoder sanity check: the spec's concrete scenario (section 8) with the
default options. -/
theorem encTop_example :
    encTop 2 ',' (.obj [("title", .str "TOON test"), ("count", .num 3),
      ("nested", .obj [("ok", .bool true)])]) =
      ["title: TOON test".data, "count: 3".data, "nested:".data, "  ok: true".data] := by
  decide

/-! ### Decoder: lines and delimiter detection -/

/-- Split a character stream into lines at `'\n'` (empty input has no lines). -/
def splitNlGo : List Char → List (List Char)
  | [] => [[]]
  | c :: cs => if c = '\n' then [] :: splitNlGo cs else consHead c (splitNlGo cs)

/-- The decoder's line list. -/
def splitNl (cs : List Char) : List (List Char) := if cs.isEmpty then [] else splitNlGo cs

/-- Space test for the indent prefix. -/
def isSpace (c : Char) : Bool := c = ' '

/-- Width of a line's leading space run. -/
def lineIndent (l : List Char) : Nat := (l.takeWhile isSpace).length

/-- A line's content after its indent. -/
def lineContent (l : List Char) : List Char := l.dropWhile isSpace

/-- Modelled from the spec (section 4.6, steps 1 and 5): nesting depth of an
indent width; strict mode rejects widths that are not a multiple of the
configured indent, non-strict mode rounds to the nearest level. -/
def depthOf (strict : Bool) (i : Nat) (w : Nat) : Except DecErr Nat :=
  if strict then
    if w % i = 0 then .ok (w / i) else .error .indentMismatch
  else .ok ((2 * w + i) / (2 * i))

/-- Delimiter detection inside an unquoted field: the first delimiter-class
character is the separator (bare tokens contain none). -/
def sniffBare : List Char → Option Char
  | [] => none
  | c :: cs => if isDelimClass c then some c else sniffBare cs

/-- Delimiter detection after an opening quote: skip the quoted body, then the
character right after the closing quote is the separator if it is
delimiter-class. -/
def sniffQBody : List Char → Option Char
  | [] => none
  | [_] => none
  | c :: e :: rest =>
    if c = '"' then (if isDelimClass e then some e else none)
    else if c = '\\' then sniffQBody rest
    else sniffQBody (e :: rest)

/-- Modelled from the spec (sections 3 and 4.1): `DecodeOptions` carries no
delimiter, so the decoder detects, per delimited chunk, which member of the
closed delimiter set separates the fields. -/
def sniffChunk : List Char → Option Char
  | [] => none
  | c :: cs => if c = '"' then sniffQBody cs else sniffBare (c :: cs)

/-- The detected delimiter of a chunk, the default comma when none occurs. -/
def sniffDelim (cs : List Char) : Char := (sniffChunk cs).getD ','

/-! ### Decoder: line classification -/

/-- The classified content of one line (spec 4.6 step 2). -/
inductive LineForm where
  | itemBlock : LineForm
  | itemScalar (sc : List Char) : LineForm
  | leaf (k : String) (sc : List Char) : LineForm
  | objOpen (k : String) : LineForm
  | arrInline (k : Option String) (n : Nat) (raw : List Char) : LineForm
  | arrList (k : Option String) (n : Nat) : LineForm
  | arrTab (k : Option String) (n : Nat) (cols : List String) : LineForm
deriving DecidableEq

/-- Digit run at the front of a line remainder. -/
def spanDigits : List Char → List Char × List Char
  | [] => ([], [])
  | c :: cs =>
    if isDigit c then
      match spanDigits cs with
      | (ds, rest) => (c :: ds, rest)
    else ([], c :: cs)

/-- One column name token: quoted names are unescaped, bare names taken
verbatim (keys are never coerced; spec 4.6 step 4). -/
def parseKeyToken : List Char → Except DecErr String
  | [] => .ok ""
  | c :: rest =>
    if c = '"' then
      match parseQuotedBody rest with
      | .error e => .error e
      | .ok p => if p.2.isEmpty then .ok (String.mk p.1) else .error .unexpectedToken
    else .ok (String.mk (c :: rest))

/-- All column name tokens. -/
def parseKeyTokens : List (List Char) → Except DecErr (List String)
  | [] => .ok []
  | f :: fs =>
    match parseKeyToken f with
    | .error e => .error e
    | .ok k =>
      match parseKeyTokens fs with
      | .error e => .error e
      | .ok ks => .ok (k :: ks)

/-- All scalar fields of a delimited list. -/
def parseScalars : List (List Char) → Except DecErr (List Value)
  | [] => .ok []
  | f :: fs =>
    match parseScalar f with
    | .error e => .error e
    | .ok v =>
      match parseScalars fs with
      | .error e => .error e
      | .ok vs => .ok (v :: vs)

mutual
/-- Scan the raw column chunk of a tabular header up to the closing brace,
skipping quoted column names. -/
def scanCols : List Char → Except DecErr (List Char × List Char)
  | [] => .error .unexpectedToken
  | c :: cs =>
    if c = '}' then .ok ([], cs)
    else if c = '"' then (scanColsQ cs).map (fun p => (c :: p.1, p.2))
    else (scanCols cs).map (fun p => (c :: p.1, p.2))
/-- Inside a quoted column name while scanning for the closing brace. -/
def scanColsQ : List Char → Except DecErr (List Char × List Char)
  | [] => .error .unterminatedString
  | [c] => if c = '"' then .error .unexpectedToken else .error .unterminatedString
  | c :: e :: rest =>
    if c = '"' then (scanCols (e :: rest)).map (fun p => (c :: p.1, p.2))
    else if c = '\\' then (scanColsQ rest).map (fun p => (c :: e :: p.1, p.2))
    else (scanColsQ (e :: rest)).map (fun p => (c :: p.1, p.2))
end

/-- The column list of a tabular header. -/
def parseCols (raw : List Char) : Except DecErr (List String) :=
  if raw.isEmpty then .ok []
  else
    match splitFields (sniffDelim raw) raw with
    | .error e => .error e
    | .ok fs => parseKeyTokens fs

/-- The part of an array header after the closing bracket of `[n]`. -/
def parseAfterBracket (k : Option String) (n : Nat) : List Char → Except DecErr LineForm
  | [] => .error .unexpectedToken
  | [c] => if c = ':' then .ok (.arrList k n) else .error .unexpectedToken
  | c :: c2 :: rest =>
    if c = ':' then
      if c2 = ' ' then .ok (.arrInline k n rest) else .error .unexpectedToken
    else if c = '{' then
      match scanCols (c2 :: rest) with
      | .error e => .error e
      | .ok (raw, rest3) =>
        if rest3 = [':'] then
          match parseCols raw with
          | .error e => .error e
          | .ok cols => .ok (.arrTab k n cols)
        else .error .unexpectedToken
    else .error .unexpectedToken

/-- An array header after the opening bracket: the declared element count. -/
def parseArrHead (k : Option String) (cs : List Char) : Except DecErr LineForm :=
  match spanDigits cs with
  | (ds, rest) =>
    if ds.isEmpty then .error .unexpectedToken
    else
      match rest with
      | ']' :: rest2 => parseAfterBracket k (parseNat ds) rest2
      | _ => .error .unexpectedToken

/-- The part of a keyed line after its key token (spec 4.1 content forms). -/
def parseAfterKey (k : String) : List Char → Except DecErr LineForm
  | [] => .error .unexpectedToken
  | [c] => if c = ':' then .ok (.objOpen k) else .error .unexpectedToken
  | c :: c2 :: rest =>
    if c = ':' then
      if c2 = ' ' then .ok (.leaf k rest) else .error .unexpectedToken
    else if c = '[' then parseArrHead (some k) (c2 :: rest)
    else .error .unexpectedToken

/-- Characters that may appear in a bare key (scan stops at `:` or `[`). -/
def notKeyStop (c : Char) : Bool := !(c = ':' || c = '[')

/-- A line led by a bare key. -/
def bareKeyLine (cs : List Char) : Except DecErr LineForm :=
  let k := cs.takeWhile notKeyStop
  if k.isEmpty then .error .unexpectedToken
  else parseAfterKey (String.mk k) (cs.dropWhile notKeyStop)

/-- Modelled from the spec (section 4.6 step 2): classify one line's content
by the grammar of section 4.1. -/
def parseLineContent : List Char → Except DecErr LineForm
  | [] => .error .unexpectedToken
  | [c] =>
    if c = '-' then .ok .itemBlock
    else if c = '[' then .error .unexpectedToken
    else if c = '"' then .error .unterminatedString
    else bareKeyLine [c]
  | c :: c2 :: rest =>
    if c = '-' then
      if c2 = ' ' then .ok (.itemScalar rest)
      else bareKeyLine (c :: c2 :: rest)
    else if c = '[' then parseArrHead none (c2 :: rest)
    else if c = '"' then
      match parseQuotedBody (c2 :: rest) with
      | .error e => .error e
      | .ok (kcs, rest2) => parseAfterKey (String.mk kcs) rest2
    else bareKeyLine (c :: c2 :: rest)

/-! ### Decoder: value assembly -/

/-- First value bound to a key. -/
def lookupV (k : String) : List (String × Value) → Option Value
  | [] => none
  | (k2, v) :: rest => if k = k2 then some v else lookupV k rest

/-- Drop every binding of a key. -/
def removeKey (k : String) : List (String × Value) → List (String × Value)
  | [] => []
  | (k2, v) :: rest => if k = k2 then removeKey k rest else (k2, v) :: removeKey k rest

/-- Modelled from the spec (section 4.6 step 5): prepend one parsed entry to
the entries parsed after it; a duplicate key is fatal in strict mode and
resolved last-write-wins (first position, latest value) otherwise. -/
def consEntry (strict : Bool) (k : String) (v : Value) (es : List (String × Value)) :
    Except DecErr (List (String × Value)) :=
  match lookupV k es with
  | none => .ok ((k, v) :: es)
  | some w => if strict then .error .duplicateKey else .ok ((k, w) :: removeKey k es)

/-- Assemble an object from key/value pairs with the duplicate policy. -/
def buildObj (strict : Bool) : List (String × Value) → Except DecErr (List (String × Value))
  | [] => .ok []
  | (k, v) :: rest =>
    match buildObj strict rest with
    | .error e => .error e
    | .ok es => consEntry strict k v es

/-! ### Decoder: the line machine -/

mutual
/-- Modelled from the spec (section 4.6): parse the entries of an object block
at depth `d`.  The machine consumes lines until the indentation decreases;
`fuel` only bounds the recursion and any `fuel ≥ lines.length` is exact. -/
def parseEntries (strict : Bool) (i : Nat) (d : Nat) :
    Nat → List (List Char) → Except DecErr (List (String × Value) × List (List Char))
  | _, [] => .ok ([], [])
  | 0, l :: ls => .ok ([], l :: ls)
  | fuel + 1, l :: ls =>
    match depthOf strict i (lineIndent l) with
    | .error e => .error e
    | .ok dl =>
      if dl < d then .ok ([], l :: ls)
      else if d < dl then .error .indentMismatch
      else
        match parseLineContent (lineContent l) with
        | .error e => .error e
        | .ok (.leaf k sc) =>
          match parseScalar sc with
          | .error e => .error e
          | .ok v =>
            match parseEntries strict i d fuel ls with
            | .error e => .error e
            | .ok (es, rest) =>
              match consEntry strict k v es with
              | .error e => .error e
              | .ok es2 => .ok (es2, rest)
        | .ok (.objOpen k) =>
          match parseEntries strict i (d + 1) fuel ls with
          | .error e => .error e
          | .ok (sub, rest1) =>
            match parseEntries strict i d fuel rest1 with
            | .error e => .error e
            | .ok (es, rest) =>
              match consEntry strict k (.obj sub) es with
              | .error e => .error e
              | .ok es2 => .ok (es2, rest)
        | .ok (.arrInline (some k) n raw) =>
          match splitFields (sniffDelim raw) raw with
          | .error e => .error e
          | .ok fs =>
            match parseScalars fs with
            | .error e => .error e
            | .ok vs =>
              if strict && !(vs.length == n) then .error .lengthMismatch
              else
                match parseEntries strict i d fuel ls with
                | .error e => .error e
                | .ok (es, rest) =>
                  match consEntry strict k (.arr vs) es with
                  | .error e => .error e
                  | .ok es2 => .ok (es2, rest)
        | .ok (.arrList (some k) n) =>
          match parseItems strict i (d + 1) fuel ls with
          | .error e => .error e
          | .ok (vs, rest1) =>
            if strict && !(vs.length == n) then .error .lengthMismatch
            else
              match parseEntries strict i d fuel rest1 with
              | .error e => .error e
              | .ok (es, rest) =>
                match consEntry strict k (.arr vs) es with
                | .error e => .error e
                | .ok es2 => .ok (es2, rest)
        | .ok (.arrTab (some k) n cols) =>
          match parseRows strict i (d + 1) cols fuel ls with
          | .error e => .error e
          | .ok (vs, rest1) =>
            if strict && !(vs.length == n) then .error .lengthMismatch
            else
              match parseEntries strict i d fuel rest1 with
              | .error e => .error e
              | .ok (es, rest) =>
                match consEntry strict k (.arr vs) es with
                | .error e => .error e
                | .ok es2 => .ok (es2, rest)
        | .ok _ => .error .unexpectedToken
/-- Modelled from the spec (section 4.6): parse the `- `-marked elements of a
list-form array block at depth `d`. -/
def parseItems (strict : Bool) (i : Nat) (d : Nat) :
    Nat → List (List Char) → Except DecErr (List Value × List (List Char))
  | _, [] => .ok ([], [])
  | 0, l :: ls => .ok ([], l :: ls)
  | fuel + 1, l :: ls =>
    match depthOf strict i (lineIndent l) with
    | .error e => .error e
    | .ok dl =>
      if dl < d then .ok ([], l :: ls)
      else if d < dl then .error .indentMismatch
      else
        match parseLineContent (lineContent l) with
        | .error e => .error e
        | .ok (.itemScalar sc) =>
          match parseScalar sc with
          | .error e => .error e
          | .ok v =>
            match parseItems strict i d fuel ls with
            | .error e => .error e
            | .ok (vs, rest) => .ok (v :: vs, rest)
        | .ok .itemBlock =>
          match ls with
          | [] => .ok ([.obj []], [])
          | l2 :: ls2 =>
            match depthOf strict i (lineIndent l2) with
            | .error e => .error e
            | .ok dl2 =>
              if dl2 ≤ d then
                match parseItems strict i d fuel (l2 :: ls2) with
                | .error e => .error e
                | .ok (vs, rest) => .ok (.obj [] :: vs, rest)
              else if dl2 ≠ d + 1 then .error .indentMismatch
              else
                match parseLineContent (lineContent l2) with
                | .error e => .error e
                | .ok (.arrInline none n raw) =>
                  match splitFields (sniffDelim raw) raw with
                  | .error e => .error e
                  | .ok fs =>
                    match parseScalars fs with
                    | .error e => .error e
                    | .ok vs0 =>
                      if strict && !(vs0.length == n) then .error .lengthMismatch
                      else
                        match parseItems strict i d fuel ls2 with
                        | .error e => .error e
                        | .ok (vs, rest) => .ok (.arr vs0 :: vs, rest)
                | .ok (.arrList none n) =>
                  match parseItems strict i (d + 2) fuel ls2 with
                  | .error e => .error e
                  | .ok (sub, rest1) =>
                    if strict && !(sub.length == n) then .error .lengthMismatch
                    else
                      match parseItems strict i d fuel rest1 with
                      | .error e => .error e
                      | .ok (vs, rest) => .ok (.arr sub :: vs, rest)
                | .ok (.arrTab none n cols) =>
                  match parseRows strict i (d + 2) cols fuel ls2 with
                  | .error e => .error e
                  | .ok (sub, rest1) =>
                    if strict && !(sub.length == n) then .error .lengthMismatch
                    else
                      match parseItems strict i d fuel rest1 with
                      | .error e => .error e
                      | .ok (vs, rest) => .ok (.arr sub :: vs, rest)
                | .ok _ =>
                  match parseEntries strict i (d + 1) fuel (l2 :: ls2) with
                  | .error e => .error e
                  | .ok (sub, rest1) =>
                    match parseItems strict i d fuel rest1 with
                    | .error e => .error e
                    | .ok (vs, rest) => .ok (.obj sub :: vs, rest)
        | .ok _ => .error .unexpectedToken
/-- Modelled from the spec (section 4.6 step 3): consume the data rows of a
tabular block at depth `d` until the indentation decreases. -/
def parseRows (strict : Bool) (i : Nat) (d : Nat) (cols : List String) :
    Nat → List (List Char) → Except DecErr (List Value × List (List Char))
  | _, [] => .ok ([], [])
  | 0, l :: ls => .ok ([], l :: ls)
  | fuel + 1, l :: ls =>
    match depthOf strict i (lineIndent l) with
    | .error e => .error e
    | .ok dl =>
      if dl < d then .ok ([], l :: ls)
      else if d < dl then .error .indentMismatch
      else
        if cols.isEmpty then
          if (lineContent l).isEmpty then
            match parseRows strict i d cols fuel ls with
            | .error e => .error e
            | .ok (vs, rest) => .ok (.obj [] :: vs, rest)
          else .error .unexpectedToken
        else
          match splitFields (sniffDelim (lineContent l)) (lineContent l) with
          | .error e => .error e
          | .ok fs =>
            match parseScalars fs with
            | .error e => .error e
            | .ok vs0 =>
              if strict && !(vs0.length == cols.length) then .error .lengthMismatch
              else
                match buildObj strict (cols.zip vs0) with
                | .error e => .error e
                | .ok es =>
                  match parseRows strict i d cols fuel ls with
                  | .error e => .error e
                  | .ok (vs, rest) => .ok (.obj es :: vs, rest)
end

/-- Modelled from the spec (section 4.6): the root of the decoder.  No lines
decode to the empty object; a leading array header opens a root array; a
single line that fits no structural form is a root scalar; otherwise the
lines form the root object's entries. -/
def decodeLines (strict : Bool) (i : Nat) (lines : List (List Char)) : Except DecErr Value :=
  match lines with
  | [] => .ok (.obj [])
  | l :: rest =>
    match depthOf strict i (lineIndent l) with
    | .error e => .error e
    | .ok d0 =>
      if d0 ≠ 0 then .error .indentMismatch
      else
        match parseLineContent (lineContent l) with
        | .ok (.arrInline none n raw) =>
          if rest.isEmpty then
            match splitFields (sniffDelim raw) raw with
            | .error e => .error e
            | .ok fs =>
              match parseScalars fs with
              | .error e => .error e
              | .ok vs =>
                if strict && !(vs.length == n) then .error .lengthMismatch
                else .ok (.arr vs)
          else .error .unexpectedToken
        | .ok (.arrList none n) =>
          match parseItems strict i 1 lines.length rest with
          | .error e => .error e
          | .ok (vs, rest1) =>
            if !rest1.isEmpty then .error .unexpectedToken
            else if strict && !(vs.length == n) then .error .lengthMismatch
            else .ok (.arr vs)
        | .ok (.arrTab none n cols) =>
          match parseRows strict i 1 cols lines.length rest with
          | .error e => .error e
          | .ok (vs, rest1) =>
            if !rest1.isEmpty then .error .unexpectedToken
            else if strict && !(vs.length == n) then .error .lengthMismatch
            else .ok (.arr vs)
        | .ok (.itemScalar _) =>
          if rest.isEmpty then parseScalar (lineContent l) else .error .unexpectedToken
        | .ok .itemBlock =>
          if rest.isEmpty then parseScalar (lineContent l) else .error .unexpectedToken
        | .ok (.leaf _ _) =>
          match parseEntries strict i 0 lines.length lines with
          | .error e => .error e
          | .ok (es, rest1) =>
            if rest1.isEmpty then .ok (.obj es) else .error .unexpectedToken
        | .ok (.objOpen _) =>
          match parseEntries strict i 0 lines.length lines with
          | .error e => .error e
          | .ok (es, rest1) =>
            if rest1.isEmpty then .ok (.obj es) else .error .unexpectedToken
        | .ok (.arrInline (some _) _ _) =>
          match parseEntries strict i 0 lines.length lines with
          | .error e => .error e
          | .ok (es, rest1) =>
            if rest1.isEmpty then .ok (.obj es) else .error .unexpectedToken
        | .ok (.arrList (some _) _) =>
          match parseEntries strict i 0 lines.length lines with
          | .error e => .error e
          | .ok (es, rest1) =>
            if rest1.isEmpty then .ok (.obj es) else .error .unexpectedToken
        | .ok (.arrTab (some _) _ _) =>
          match parseEntries strict i 0 lines.length lines with
          | .error e => .error e
          | .ok (es, rest1) =>
            if rest1.isEmpty then .ok (.obj es) else .error .unexpectedToken
        | .error e =>
          if rest.isEmpty then parseScalar (lineContent l) else .error e

instance : DecidableEq (Except DecErr Value) := fun a b =>
  match a, b with
  | .ok x, .ok y => decidable_of_iff (x = y) (by simp)
  | .error x, .error y => decidable_of_iff (x = y) (by simp)
  | .ok _, .error _ => isFalse (by simp)
  | .error _, .ok _ => isFalse (by simp)

/-- Decode a character stream without the path-expansion pass. -/
def decodeCore (strict : Bool) (i : Nat) (cs : List Char) : Except DecErr Value :=
  decodeLines strict i (splitNl cs)

/-- Decoder sanity check: the encoder example decodes back, in both modes. -/
theorem decodeCore_example :
    decodeCore true 2 (joinNl (encTop 2 ',' (.obj [("title", .str "TOON test"),
      ("count", .num 3), ("nested", .obj [("ok", .bool true)])]))) =
      .ok (.obj [("title", .str "TOON test"), ("count", .num 3),
        ("nested", .obj [("ok", .bool true)])]) := by
  decide

/-- Decoder sanity check: array forms (inline, tabular, list) decode back. -/
theorem decodeCore_example2 :
    decodeCore true 2 (joinNl (encTop 2 ',' (.obj [
      ("xs", .arr [.num 1, .num 2]),
      ("tab", .arr [.obj [("a", .num 1), ("b", .str "x")],
                    .obj [("a", .num 2), ("b", .str "y")]]),
      ("mix", .arr [.str "s", .obj [("n", .null)], .arr [.bool true]])]))) =
      .ok (.obj [
        ("xs", .arr [.num 1, .num 2]),
        ("tab", .arr [.obj [("a", .num 1), ("b", .str "x")],
                      .obj [("a", .num 2), ("b", .str "y")]]),
        ("mix", .arr [.str "s", .obj [("n", .null)], .arr [.bool true]])]) := by
  decide

/-! ### Key folding and path expansion -/

mutual
/-- Modelled from the spec (section 4.3): encode-time key folding.  Singleton
object chains collapse into dotted keys up to `flattenDepth` folds; arrays are
never entered ("folding never changes array contents"). -/
def foldValue (fd : Option Nat) : Value → Value
  | .obj es => .obj (foldEntries fd es)
  | v => v
/-- Fold each entry of an object body. -/
def foldEntries (fd : Option Nat) : List (String × Value) → List (String × Value)
  | [] => []
  | (k, v) :: rest => foldChain fd fd k v :: foldEntries fd rest
/-- Fold one entry: chase the singleton-object chain while the remaining
`budget` allows, extending the dotted key; at the chain's end fold the value
itself (restarting the per-key budget below the stop, as a fresh dotted key
begins there). -/
def foldChain (fd : Option Nat) (budget : Option Nat) (k : String) : Value → String × Value
  | .obj [] => (k, .obj [])
  | .obj [(k2, v2)] =>
    match budget with
    | none => foldChain fd none (k ++ "." ++ k2) v2
    | some (b + 1) => foldChain fd (some b) (k ++ "." ++ k2) v2
    | some 0 => (k, .obj [foldChain fd fd k2 v2])
  | .obj (e1 :: e2 :: rest) => (k, .obj (foldEntries fd (e1 :: e2 :: rest)))
  | v => (k, v)
end

/-- Split a character list at the path separator. -/
def splitDotsChars : List Char → List (List Char)
  | [] => [[]]
  | c :: cs => if c = '.' then [] :: splitDotsChars cs else consHead c (splitDotsChars cs)

/-- Modelled from the spec (section 4.3): the dotted-path segments of a
decoded key. -/
def splitDots (s : String) : List String := (splitDotsChars s.data).map String.mk

/-- Replace the value bound to a key. -/
def replaceKey (k : String) (v : Value) : List (String × Value) → List (String × Value)
  | [] => []
  | (k2, w) :: rest => if k = k2 then (k, v) :: rest else (k2, w) :: replaceKey k v rest

/-- Modelled from the spec (section 4.3): insert a value at a dotted path,
creating intermediate objects and merging shared prefixes; a type
disagreement at a shared prefix is the fatal structural conflict. -/
def insertPath (acc : List (String × Value)) : List String → Value → Except DecErr (List (String × Value))
  | [], _ => .error .pathConflict
  | [k], v =>
    match lookupV k acc with
    | none => .ok (acc ++ [(k, v)])
    | some _ => .error .pathConflict
  | k :: k2 :: ks, v =>
    match lookupV k acc with
    | none =>
      match insertPath [] (k2 :: ks) v with
      | .error e => .error e
      | .ok sub => .ok (acc ++ [(k, .obj sub)])
    | some (.obj sub) =>
      match insertPath sub (k2 :: ks) v with
      | .error e => .error e
      | .ok sub2 => .ok (replaceKey k (.obj sub2) acc)
    | some _ => .error .pathConflict

/-- Insert each expanded entry in order. -/
def insertAll (acc : List (String × Value)) : List (List String × Value) → Except DecErr (List (String × Value))
  | [] => .ok acc
  | (p, v) :: rest =>
    match insertPath acc p v with
    | .error e => .error e
    | .ok acc2 => insertAll acc2 rest

mutual
/-- Modelled from the spec (section 4.3): decode-time path expansion, applied
to every decoded object. -/
def expandValue : Value → Except DecErr Value
  | .obj es =>
    match expandEntryList es with
    | .error e => .error e
    | .ok pairs =>
      match insertAll [] pairs with
      | .error e => .error e
      | .ok es2 => .ok (.obj es2)
  | .arr es =>
    match expandList es with
    | .error e => .error e
    | .ok es2 => .ok (.arr es2)
  | v => .ok v
/-- Expand entry values and split their keys into path segments. -/
def expandEntryList : List (String × Value) → Except DecErr (List (List String × Value))
  | [] => .ok []
  | (k, v) :: rest =>
    match expandValue v with
    | .error e => .error e
    | .ok v2 =>
      match expandEntryList rest with
      | .error e => .error e
      | .ok ps => .ok ((splitDots k, v2) :: ps)
/-- Expand every element of an array. -/
def expandList : List Value → Except DecErr (List Value)
  | [] => .ok []
  | v :: vs =>
    match expandValue v with
    | .error e => .error e
    | .ok v2 =>
      match expandList vs with
      | .error e => .error e
      | .ok vs2 => .ok (v2 :: vs2)
end

/-! ### Public codec entry points -/

/-- Modelled from the spec (section 4.4): eager option validation — the
delimiter must belong to the closed set and the indent must be a positive
integer, before any line is produced. -/
def validateOptions (o : EncodeOptions) : Except EncErr (Nat × Char) :=
  if validDelims.contains o.delimiter then
    if 0 < o.indent then .ok (o.indent.toNat, o.delimiter) else .error .invalidIndent
  else .error .invalidDelimiter

/-- Modelled from the spec (sections 2 and 6): `encode` — validate options,
optionally fold keys, serialize, join the encoder's lines with the line
separator. -/
def encode (v : Value) (o : EncodeOptions) : Except EncErr String :=
  match validateOptions o with
  | .error e => .error e
  | .ok (i, delim) =>
    .ok (String.mk (joinNl (encTop i delim
      (if o.keyFolding then foldValue o.flattenDepth v else v))))

/-- Modelled from the spec (sections 2 and 6): `decode` — parse the line
grammar, then optionally expand dotted paths. -/
def decode (t : String) (o : DecodeOptions) : Except DecErr Value :=
  match decodeCore o.strict o.indent t.data with
  | .error e => .error e
  | .ok v => if o.expandPaths then expandValue v else .ok v

/-- Transform sanity check: folding then expanding a chain is the identity. -/
theorem fold_expand_example :
    expandValue (foldValue none (.obj [("a", .obj [("b", .obj [("c", .num 1)])]),
      ("d", .num 2)])) =
      .ok (.obj [("a", .obj [("b", .obj [("c", .num 1)])]), ("d", .num 2)]) := by
  decide

/-- Full-pipeline sanity check: encode with folding, decode with expansion. -/
theorem encode_decode_folding_example :
    (encode (.obj [("a", .obj [("b", .num 1)]), ("c", .bool true)])
        { keyFolding := true }).toOption.bind
      (fun t => (decode t { expandPaths := true }).toOption) =
      some (.obj [("a", .obj [("b", .num 1)]), ("c", .bool true)]) := by
  decide

/-! ### Infrastructure lemmas for the round trip -/

theorem takeWhile_app (p : Char → Bool) : ∀ (xs : List Char) (y : Char) (yt : List Char),
    (∀ x ∈ xs, p x = true) → p y = false →
    (xs ++ y :: yt).takeWhile p = xs ∧ (xs ++ y :: yt).dropWhile p = y :: yt := by
  intro xs
  induction xs with
  | nil =>
    intro y yt _ hy
    simp [List.takeWhile, List.dropWhile, hy]
  | cons x xs ih =>
    intro y yt hall hy
    have hx : p x = true := hall x (by simp)
    obtain ⟨h1, h2⟩ := ih y yt (fun a ha => hall a (by simp [ha])) hy
    constructor
    · simp [List.takeWhile, hx, h1]
    · simp [List.dropWhile, hx, h2]

theorem spanDigits_app : ∀ (ds : List Char) (y : Char) (yt : List Char),
    (∀ d ∈ ds, isDigit d = true) → isDigit y = false →
    spanDigits (ds ++ y :: yt) = (ds, y :: yt) := by
  intro ds
  induction ds with
  | nil => intro y yt _ hy; simp [spanDigits, hy]
  | cons d ds ih =>
    intro y yt hall hy
    have hd : isDigit d = true := hall d (by simp)
    simp [spanDigits, hd, ih y yt (fun a ha => hall a (by simp [ha])) hy]

theorem replicate_all_space (n : Nat) : ∀ c ∈ List.replicate n ' ', isSpace c = true := by
  intro c hc
  rw [List.eq_of_mem_replicate hc]
  rfl

theorem lineIndent_enc (i d : Nat) (content : List Char) (h : content.head? ≠ some ' ') :
    lineIndent (indentChars i d ++ content) = d * i ∧
      lineContent (indentChars i d ++ content) = content := by
  cases content with
  | nil =>
    constructor
    · simp only [lineIndent, indentChars, List.append_nil]
      rw [List.takeWhile_eq_self_iff.mpr (replicate_all_space (d * i))]
      simp
    · simp only [lineContent, indentChars, List.append_nil]
      rw [List.dropWhile_eq_nil_iff.mpr]
      intro c hc
      exact replicate_all_space (d * i) c hc
  | cons c cs =>
    have hc : isSpace c = false := by
      simp only [List.head?] at h
      simp [isSpace]
      intro he
      exact h (by rw [he])
    obtain ⟨h1, h2⟩ := takeWhile_app isSpace (List.replicate (d * i) ' ') c cs
      (replicate_all_space (d * i)) hc
    constructor
    · simp [lineIndent, indentChars, h1]
    · simp [lineContent, indentChars, h2]

theorem depthOf_enc (strict : Bool) (i d : Nat) (hi : 1 ≤ i) :
    depthOf strict i (d * i) = .ok d := by
  cases strict with
  | true =>
    have h2 : d * i / i = d := Nat.mul_div_cancel d (by omega)
    have h3 : d * i % i = 0 := Nat.mul_mod_left d i
    simp [depthOf, h2, h3]
  | false =>
    have h1 : (2 * (d * i) + i) / (2 * i) = d := by
      have he : 2 * (d * i) + i = i + 2 * i * d := by ring
      rw [he, Nat.add_mul_div_left i d (by omega : 0 < 2 * i), Nat.div_eq_of_lt (by omega)]
      omega
    simp [depthOf, h1]

theorem splitNlGo_chunk : ∀ (l cs : List Char), ('\n' : Char) ∉ l →
    splitNlGo (l ++ '\n' :: cs) = l :: splitNlGo cs := by
  intro l
  induction l with
  | nil => intro cs _; simp [splitNlGo]
  | cons c t ih =>
    intro cs hnl
    have hc : c ≠ '\n' := fun he => hnl (by simp [he])
    rw [List.cons_append]
    rw [show splitNlGo (c :: (t ++ '\n' :: cs)) = consHead c (splitNlGo (t ++ '\n' :: cs)) from
      by simp [splitNlGo, hc]]
    rw [ih cs (fun h => hnl (by simp [h]))]
    simp [consHead]

theorem splitNlGo_last : ∀ (l : List Char), ('\n' : Char) ∉ l → splitNlGo l = [l] := by
  intro l
  induction l with
  | nil => intro _; simp [splitNlGo]
  | cons c t ih =>
    intro hnl
    have hc : c ≠ '\n' := fun he => hnl (by simp [he])
    simp [splitNlGo, hc, ih (fun h => hnl (by simp [h])), consHead]

/-- Lines joined and re-split. -/
theorem splitNlGo_joinNl : ∀ (ls : List (List Char)), ls ≠ [] →
    (∀ l ∈ ls, ('\n' : Char) ∉ l) → splitNlGo (joinNl ls) = ls := by
  intro ls
  induction ls with
  | nil => intro h; exact absurd rfl h
  | cons l rest ih =>
    intro _ hall
    cases rest with
    | nil =>
      show splitNlGo (joinDelim '\n' [l]) = [l]
      simp only [joinDelim]
      exact splitNlGo_last l (hall l (by simp))
    | cons l2 t =>
      have hj : joinNl (l :: l2 :: t) = l ++ '\n' :: joinNl (l2 :: t) := by
        simp [joinNl, joinDelim]
      show splitNlGo (joinNl (l :: l2 :: t)) = _
      rw [hj, splitNlGo_chunk l _ (hall l (by simp)),
        ih (by simp) (fun x hx => hall x (by simp [hx]))]

/-! ### Serialized tokens, delimiter detection -/

/-- A serialized token: either a whole quoted token, or a bare token that is
nonempty, does not start with a quote, and contains no delimiter-class
character. -/
def SerTok (t : List Char) : Prop :=
  (∃ s, t = quoteChars s) ∨
    (t ≠ [] ∧ t.head? ≠ some '"' ∧ ∀ c ∈ t, isDelimClass c = false)

theorem SerTok.goodToken {t : List Char} (h : SerTok t) {delim : Char}
    (hd : isDelimClass delim = true) : GoodToken delim t := by
  rcases h with hq | ⟨h1, h2, h3⟩
  · exact Or.inl hq
  · refine Or.inr ⟨h1, h2, fun hmem => ?_⟩
    rw [h3 delim hmem] at hd
    cases hd

theorem validDelims_class {delim : Char} (hd : delim ∈ validDelims) :
    isDelimClass delim = true ∧ delim ≠ '"' := by
  simp only [validDelims, List.mem_cons, List.mem_singleton, List.not_mem_nil, or_false] at hd
  rcases hd with h | h | h <;> subst h <;> exact ⟨by decide, by decide⟩

theorem isDigit_not_delimClass {c : Char} (h : isDigit c = true) : isDelimClass c = false := by
  obtain ⟨h1, h2⟩ := isDigit_val h
  simp only [isDelimClass, Bool.or_eq_false_iff, decide_eq_false_iff_not]
  refine ⟨⟨?_, ?_⟩, ?_⟩ <;> intro he <;> subst he <;> simp_all

theorem serTok_encScalar : ∀ (v : Value), isScalar v = true → SerTok (encScalarChars v) := by
  intro v hv
  cases v with
  | null => exact Or.inr ⟨by decide, by decide, by decide⟩
  | bool b => cases b <;> exact Or.inr ⟨by decide, by decide, by decide⟩
  | num n =>
    obtain ⟨c, rest, hc, hd⟩ := intChars_head n
    refine Or.inr ⟨?_, ?_, ?_⟩
    · simp [encScalarChars, hc]
    · simp only [encScalarChars, hc]
      have : c ≠ '"' := by
        rcases hd with h | h
        · subst h; decide
        · exact isDigit_ne_of_val h (by decide)
      simpa using this
    · intro x hx
      simp only [encScalarChars] at hx
      have : x = '-' ∨ isDigit x = true := by
        by_cases hneg : n < 0
        · simp only [intChars, if_pos hneg] at hx
          rcases List.mem_cons.mp hx with h | h
          · exact Or.inl h
          · exact Or.inr (natChars_all_digits _ x h)
        · simp only [intChars, if_neg hneg] at hx
          exact Or.inr (natChars_all_digits _ x hx)
      rcases this with h | h
      · subst h; decide
      · exact isDigit_not_delimClass h
  | str s =>
    by_cases hb : bareScalarSafe s.data
    · have hb' := hb
      simp only [bareScalarSafe, Bool.and_eq_true, Bool.not_eq_true', decide_eq_true_eq,
        List.all_eq_true] at hb'
      obtain ⟨⟨⟨⟨⟨⟨⟨⟨hne, hhq⟩, hall⟩, _⟩, _⟩, _⟩, _⟩, _⟩, _⟩ := hb'
      refine Or.inr ⟨?_, ?_, ?_⟩
      · simp only [encScalarChars, if_pos hb]
        simpa [List.isEmpty_iff] using hne
      · simpa [encScalarChars, hb] using hhq
      · intro x hx
        simp only [encScalarChars, if_pos hb] at hx
        have := hall x hx
        simp only [Bool.and_eq_true, Bool.not_eq_true', decide_eq_true_eq] at this
        exact this.1.1
    · exact Or.inl ⟨s.data, by simp [encScalarChars, hb]⟩
  | arr es => simp [isScalar] at hv
  | obj es => simp [isScalar] at hv

theorem bareKeySafe_props {k : List Char} (h : bareKeySafe k = true) :
    k ≠ [] ∧ (∀ c ∈ k, isDelimClass c = false ∧ c ≠ ':' ∧ c ≠ '[' ∧ c ≠ '}' ∧ c ≠ '"' ∧ c ≠ '\n') ∧
      headIsWs k = false ∧ lastIsWs k = false ∧ startsDashSpace k = false := by
  simp only [bareKeySafe, Bool.and_eq_true, Bool.not_eq_true', decide_eq_true_eq,
    List.all_eq_true] at h
  obtain ⟨⟨⟨⟨hne, hall⟩, hh⟩, hl⟩, hd⟩ := h
  refine ⟨by simpa [List.isEmpty_iff] using hne, ?_, hh, hl, hd⟩
  intro c hc
  have := hall c hc
  simp only [Bool.and_eq_true, Bool.not_eq_true', decide_eq_true_eq] at this
  exact ⟨this.1.1.1.1.1, this.1.1.1.1.2, this.1.1.1.2, this.1.1.2, this.1.2, this.2⟩

theorem serTok_encKey (k : String) : SerTok (encKeyChars k) := by
  by_cases hb : bareKeySafe k.data
  · obtain ⟨hne, hall, _, _, _⟩ := bareKeySafe_props hb
    refine Or.inr ⟨by simpa [encKeyChars, hb] using hne, ?_, ?_⟩
    · simp only [encKeyChars, if_pos hb]
      obtain ⟨c, r, hc⟩ := List.exists_cons_of_ne_nil hne
      rw [hc]
      have := (hall c (by rw [hc]; simp)).2.2.2.2.1
      simpa using this
    · intro x hx
      simp only [encKeyChars, if_pos hb] at hx
      exact (hall x hx).1
  · exact Or.inl ⟨k.data, by simp [encKeyChars, hb]⟩

/-- What follows a closing quote decides the sniffed delimiter. -/
def sniffAfterQ : List Char → Option Char
  | [] => none
  | e :: _ => if isDelimClass e then some e else none

theorem sniffBare_chunk : ∀ (t cs : List Char), (∀ c ∈ t, isDelimClass c = false) →
    sniffBare (t ++ cs) = sniffBare cs := by
  intro t
  induction t with
  | nil => intro cs _; simp
  | cons c t ih =>
    intro cs hall
    have hc := hall c (by simp)
    simp [sniffBare, hc, ih cs (fun x hx => hall x (by simp [hx]))]

theorem sniffQBody_esc : ∀ (s cs : List Char),
    sniffQBody (escChars s ++ '"' :: cs) = sniffAfterQ cs := by
  intro s
  induction s with
  | nil =>
    intro cs
    cases cs with
    | nil => simp [escChars, sniffQBody, sniffAfterQ]
    | cons e r => simp [escChars, sniffQBody, sniffAfterQ]
  | cons c s ih =>
    intro cs
    have hstep : ∀ (x : Char) (tail : List Char),
        sniffQBody ('\\' :: x :: tail) = sniffQBody tail := by
      intro x tail
      simp [sniffQBody]
    by_cases h1 : c = '"'
    · subst h1
      show sniffQBody ('\\' :: '"' :: (escChars s ++ '"' :: cs)) = _
      rw [hstep]
      exact ih cs
    · by_cases h2 : c = '\\'
      · subst h2
        show sniffQBody ('\\' :: '\\' :: (escChars s ++ '"' :: cs)) = _
        rw [hstep]
        exact ih cs
      · by_cases h3 : c = '\n'
        · subst h3
          show sniffQBody ('\\' :: 'n' :: (escChars s ++ '"' :: cs)) = _
          rw [hstep]
          exact ih cs
        · by_cases h4 : c = '\t'
          · subst h4
            show sniffQBody ('\\' :: 't' :: (escChars s ++ '"' :: cs)) = _
            rw [hstep]
            exact ih cs
          · by_cases h5 : c = '\r'
            · subst h5
              show sniffQBody ('\\' :: 'r' :: (escChars s ++ '"' :: cs)) = _
              rw [hstep]
              exact ih cs
            · have he : escChar c = [c] := by simp [escChar, h1, h2, h3, h4, h5]
              have hx : escChars (c :: s) ++ '"' :: cs = c :: (escChars s ++ '"' :: cs) := by
                simp [escChars, he]
              rw [hx]
              have hcons : ∃ e l, escChars s ++ '"' :: cs = e :: l := by
                cases hy : escChars s ++ '"' :: cs with
                | nil => simp at hy
                | cons a b => exact ⟨a, b, rfl⟩
              obtain ⟨e, l, hel⟩ := hcons
              rw [hel]
              show sniffQBody (c :: e :: l) = _
              simp only [sniffQBody]
              rw [if_neg h1, if_neg h2, ← hel]
              exact ih cs

theorem sniffChunk_single {t : List Char} (h : SerTok t) : sniffChunk t = none := by
  rcases h with ⟨s, hq⟩ | ⟨h1, h2, h3⟩
  · subst hq
    show sniffChunk ('"' :: (escChars s ++ '"' :: [])) = none
    simp only [sniffChunk, if_pos rfl]
    rw [sniffQBody_esc]
    rfl
  · obtain ⟨c, r, hc⟩ := List.exists_cons_of_ne_nil h1
    subst hc
    have hq : c ≠ '"' := by simpa using h2
    simp only [sniffChunk, if_neg hq]
    rw [show (c :: r) = (c :: r) ++ [] from by simp, sniffBare_chunk (c :: r) [] h3]
    rfl

theorem sniffChunk_multi {t : List Char} (h : SerTok t) {delim : Char}
    (hd : isDelimClass delim = true) (cs : List Char) :
    sniffChunk (t ++ delim :: cs) = some delim := by
  rcases h with ⟨s, hq⟩ | ⟨h1, h2, h3⟩
  · subst hq
    have h0 : quoteChars s ++ delim :: cs = '"' :: (escChars s ++ '"' :: delim :: cs) := by
      simp [quoteChars]
    rw [h0]
    simp only [sniffChunk, if_pos rfl]
    rw [sniffQBody_esc]
    simp [sniffAfterQ, hd]
  · obtain ⟨c, r, hc⟩ := List.exists_cons_of_ne_nil h1
    subst hc
    have hq : c ≠ '"' := by simpa using h2
    rw [List.cons_append]
    simp only [sniffChunk, if_neg hq]
    rw [← List.cons_append, sniffBare_chunk (c :: r) (delim :: cs) h3]
    simp [sniffBare, hd]

/-- Splitting the joined serialized tokens with the sniffed delimiter
recovers the tokens (spec 4.1: grammar unambiguous per delimiter choice). -/
theorem splitFields_sniff_join {delim : Char} (hd : delim ∈ validDelims) :
    ∀ (ts : List (List Char)), ts ≠ [] → (∀ t ∈ ts, SerTok t) →
    splitFields (sniffDelim (joinDelim delim ts)) (joinDelim delim ts) = .ok ts := by
  obtain ⟨hclass, hq⟩ := validDelims_class hd
  intro ts hne hall
  cases ts with
  | nil => exact absurd rfl hne
  | cons t rest =>
    cases rest with
    | nil =>
      have h1 : joinDelim delim [t] = t := by simp [joinDelim]
      rw [h1, sniffDelim, sniffChunk_single (hall t (by simp))]
      exact splitStart_tok_nil ',' t (by decide) ((hall t (by simp)).goodToken (by decide))
    | cons t2 r2 =>
      have h1 : joinDelim delim (t :: t2 :: r2) = t ++ delim :: joinDelim delim (t2 :: r2) := by
        simp [joinDelim]
      have hsn : sniffDelim (joinDelim delim (t :: t2 :: r2)) = delim := by
        rw [h1, sniffDelim, sniffChunk_multi (hall t (by simp)) hclass]
        rfl
      rw [hsn]
      exact splitFields_join delim hq (t :: t2 :: r2) (by simp)
        (fun x hx => (hall x hx).goodToken hclass)

theorem parseScalars_enc : ∀ (vs : List Value), (∀ v ∈ vs, isScalar v = true) →
    parseScalars (vs.map encScalarChars) = .ok vs := by
  intro vs
  induction vs with
  | nil => intro _; simp [parseScalars]
  | cons v vs ih =>
    intro hall
    simp only [List.map_cons, parseScalars]
    rw [parseScalar_enc v (hall v (by simp)), ih (fun x hx => hall x (by simp [hx]))]

theorem parseKeyToken_enc (k : String) : parseKeyToken (encKeyChars k) = .ok k := by
  by_cases hb : bareKeySafe k.data
  · obtain ⟨hne, hall, _, _, _⟩ := bareKeySafe_props hb
    obtain ⟨c, r, hc⟩ := List.exists_cons_of_ne_nil hne
    have hcq : c ≠ '"' := (hall c (by rw [hc]; simp)).2.2.2.2.1
    simp only [encKeyChars, if_pos hb]
    rw [hc]
    simp only [parseKeyToken, if_neg hcq]
    rw [← hc, string_mk_data]
  · simp only [encKeyChars, if_neg hb, quoteChars]
    have h0 : escChars k.data ++ ['"'] = escChars k.data ++ '"' :: [] := rfl
    simp only [parseKeyToken, if_pos rfl, h0, parseQuotedBody_esc]
    simp [string_mk_data]

theorem parseKeyTokens_enc : ∀ (ks : List String),
    parseKeyTokens (ks.map encKeyChars) = .ok ks := by
  intro ks
  induction ks with
  | nil => simp [parseKeyTokens]
  | cons k ks ih =>
    simp only [List.map_cons, parseKeyTokens]
    rw [parseKeyToken_enc k, ih]

/-! ### Column scanning -/

theorem scanCols_chunk : ∀ (t cs : List Char),
    (∀ c ∈ t, c ≠ '}' ∧ c ≠ '"') →
    scanCols (t ++ cs) = (scanCols cs).map (fun p => (t ++ p.1, p.2)) := by
  intro t
  induction t with
  | nil =>
    intro cs _
    cases hx : scanCols cs with
    | ok p => simp [hx, Except.map]
    | error e => simp [hx, Except.map]
  | cons c t ih =>
    intro cs hall
    obtain ⟨hb, hq⟩ := hall c (by simp)
    rw [List.cons_append]
    have h1 : scanCols (c :: (t ++ cs)) = (scanCols (t ++ cs)).map (fun p => (c :: p.1, p.2)) := by
      simp [scanCols, hb, hq]
    rw [h1, ih cs (fun x hx => hall x (by simp [hx]))]
    cases hx : scanCols cs with
    | ok p => simp [Except.map]
    | error e => simp [Except.map]

theorem scanColsQ_esc : ∀ (s cs : List Char),
    scanColsQ (escChars s ++ '"' :: cs) =
      (scanCols cs).map (fun p => ((escChars s ++ ['"']) ++ p.1, p.2)) := by
  intro s
  induction s with
  | nil =>
    intro cs
    have h1 : scanColsQ ('"' :: cs) = (scanCols cs).map (fun p => ('"' :: p.1, p.2)) := by
      cases cs with
      | nil => simp [scanColsQ, scanCols, Except.map]
      | cons a b => simp [scanColsQ]
    rw [escChars, List.nil_append, h1]
    cases hx : scanCols cs with
    | ok p => simp [Except.map]
    | error e => simp [Except.map]
  | cons c s ih =>
    intro cs
    have hstep : ∀ (x : Char) (tail : List Char),
        scanColsQ ('\\' :: x :: tail) = (scanColsQ tail).map (fun p => ('\\' :: x :: p.1, p.2)) := by
      intro x tail
      simp [scanColsQ]
    by_cases h1 : c = '"'
    · subst h1
      show scanColsQ ('\\' :: '"' :: (escChars s ++ '"' :: cs)) = _
      rw [hstep, ih cs]
      cases hx : scanCols cs with
      | ok p => simp [Except.map, escChars, escChar]
      | error e => simp [Except.map]
    · by_cases h2 : c = '\\'
      · subst h2
        show scanColsQ ('\\' :: '\\' :: (escChars s ++ '"' :: cs)) = _
        rw [hstep, ih cs]
        cases hx : scanCols cs with
        | ok p => simp [Except.map, escChars, escChar]
        | error e => simp [Except.map]
      · by_cases h3 : c = '\n'
        · subst h3
          show scanColsQ ('\\' :: 'n' :: (escChars s ++ '"' :: cs)) = _
          rw [hstep, ih cs]
          cases hx : scanCols cs with
          | ok p => simp [Except.map, escChars, escChar]
          | error e => simp [Except.map]
        · by_cases h4 : c = '\t'
          · subst h4
            show scanColsQ ('\\' :: 't' :: (escChars s ++ '"' :: cs)) = _
            rw [hstep, ih cs]
            cases hx : scanCols cs with
            | ok p => simp [Except.map, escChars, escChar]
            | error e => simp [Except.map]
          · by_cases h5 : c = '\r'
            · subst h5
              show scanColsQ ('\\' :: 'r' :: (escChars s ++ '"' :: cs)) = _
              rw [hstep, ih cs]
              cases hx : scanCols cs with
              | ok p => simp [Except.map, escChars, escChar]
              | error e => simp [Except.map]
            · have he : escChar c = [c] := by simp [escChar, h1, h2, h3, h4, h5]
              have hx0 : escChars (c :: s) ++ '"' :: cs = c :: (escChars s ++ '"' :: cs) := by
                simp [escChars, he]
              rw [hx0]
              have hcons : ∃ e l, escChars s ++ '"' :: cs = e :: l := by
                cases hy : escChars s ++ '"' :: cs with
                | nil => simp at hy
                | cons a b => exact ⟨a, b, rfl⟩
              obtain ⟨e, l, hel⟩ := hcons
              rw [hel]
              have hq : scanColsQ (c :: e :: l) = (scanColsQ (e :: l)).map (fun p => (c :: p.1, p.2)) := by
                simp [scanColsQ, h1, h2]
              rw [hq, ← hel, ih cs]
              cases hx : scanCols cs with
              | ok p => simp [Except.map, escChars, he]
              | error e => simp [Except.map]

/-- A column token the scanner passes through: a quoted token or a bare token
free of braces and quotes. -/
def ColTok (t : List Char) : Prop :=
  (∃ s, t = quoteChars s) ∨ (∀ c ∈ t, c ≠ '}' ∧ c ≠ '"')

theorem scanCols_tok {t : List Char} (h : ColTok t) (cs : List Char) :
    scanCols (t ++ cs) = (scanCols cs).map (fun p => (t ++ p.1, p.2)) := by
  rcases h with ⟨s, hq⟩ | hraw
  · subst hq
    have h0 : quoteChars s ++ cs = '"' :: (escChars s ++ '"' :: cs) := by
      simp [quoteChars]
    rw [h0]
    have h1 : scanCols ('"' :: (escChars s ++ '"' :: cs)) =
        (scanColsQ (escChars s ++ '"' :: cs)).map (fun p => ('"' :: p.1, p.2)) := by
      simp [scanCols]
    rw [h1, scanColsQ_esc]
    cases hx : scanCols cs with
    | ok p => simp [Except.map, quoteChars]
    | error e => simp [Except.map]
  · exact scanCols_chunk t cs hraw

theorem serTok_encKey_colTok (k : String) : ColTok (encKeyChars k) := by
  by_cases hb : bareKeySafe k.data
  · obtain ⟨_, hall, _, _, _⟩ := bareKeySafe_props hb
    refine Or.inr ?_
    intro c hc
    simp only [encKeyChars, if_pos hb] at hc
    exact ⟨(hall c hc).2.2.2.1, (hall c hc).2.2.2.2.1⟩
  · exact Or.inl ⟨k.data, by simp [encKeyChars, hb]⟩

theorem scanCols_join {delim : Char} (hdq : delim ≠ '"') (hdb : delim ≠ '}') :
    ∀ (ts : List (List Char)), (∀ t ∈ ts, ColTok t) → ∀ (after : List Char),
    scanCols (joinDelim delim ts ++ '}' :: after) = .ok (joinDelim delim ts, after) := by
  intro ts
  induction ts with
  | nil =>
    intro _ after
    simp [joinDelim, scanCols]
  | cons t rest ih =>
    intro hall after
    cases rest with
    | nil =>
      have h1 : joinDelim delim [t] = t := by simp [joinDelim]
      rw [h1, scanCols_tok (hall t (by simp))]
      simp [scanCols, Except.map]
    | cons t2 r2 =>
      have h1 : joinDelim delim (t :: t2 :: r2) = t ++ delim :: joinDelim delim (t2 :: r2) := by
        simp [joinDelim]
      rw [h1]
      have h2 : scanCols (delim :: (joinDelim delim (t2 :: r2) ++ '}' :: after)) =
          (scanCols (joinDelim delim (t2 :: r2) ++ '}' :: after)).map
            (fun p => (delim :: p.1, p.2)) := by
        simp [scanCols, hdb, hdq]
      have h3 := scanCols_tok (hall t (by simp))
        (delim :: (joinDelim delim (t2 :: r2) ++ '}' :: after))
      have hre : t ++ delim :: joinDelim delim (t2 :: r2) ++ '}' :: after
          = t ++ (delim :: (joinDelim delim (t2 :: r2) ++ '}' :: after)) := by simp
      rw [hre, h3, h2, ih (fun x hx => hall x (by simp [hx])) after]
      simp [Except.map]

/-! ### Line contents and their classification -/

/-- Content of a leaf entry line. -/
def leafContent (k : String) (v : Value) : List Char :=
  encKeyChars k ++ ':' :: ' ' :: encScalarChars v

/-- Content of a nested-object entry line. -/
def objOpenContent (k : String) : List Char := encKeyChars k ++ [':']

/-- Content of an inline array line. -/
def inlineContent (delim : Char) (k : Option String) (es : List Value) : List Char :=
  keyPart k ++ '[' :: natChars es.length ++ ']' :: ':' ::
    (if es.isEmpty then [] else ' ' :: joinDelim delim (es.map encScalarChars))

/-- Content of a tabular header line. -/
def tabContent (delim : Char) (k : Option String) (cols : List String) (n : Nat) : List Char :=
  keyPart k ++ '[' :: natChars n ++ ']' :: '{' ::
    joinDelim delim (cols.map encKeyChars) ++ ['}', ':']

/-- Content of a list-form header line. -/
def listContent (k : Option String) (n : Nat) : List Char :=
  keyPart k ++ '[' :: natChars n ++ [']', ':']

/-- Content of a tabular data row. -/
def rowContent (delim : Char) (e : List (String × Value)) : List Char :=
  joinDelim delim ((entryVals e).map encScalarChars)

theorem inlineLine_split (i : Nat) (delim : Char) (d : Nat) (k : Option String) (es : List Value) :
    inlineLine i delim d k es = indentChars i d ++ inlineContent delim k es := by
  simp [inlineLine, inlineContent, List.append_assoc]

theorem tabLine_split (i : Nat) (delim : Char) (d : Nat) (k : Option String) (cols : List String)
    (n : Nat) : tabLine i delim d k cols n = indentChars i d ++ tabContent delim k cols n := by
  simp [tabLine, tabContent, List.append_assoc]

theorem listLine_split (i d : Nat) (k : Option String) (n : Nat) :
    listLine i d k n = indentChars i d ++ listContent k n := by
  simp [listLine, listContent, List.append_assoc]

theorem encRow_split (i : Nat) (delim : Char) (d : Nat) (e : List (String × Value)) :
    encRow i delim d (.obj e) = indentChars i d ++ rowContent delim e := by
  simp [encRow, rowContent]

theorem encKeyChars_ne_nil (k : String) : encKeyChars k ≠ [] := by
  by_cases hb : bareKeySafe k.data
  · simp only [encKeyChars, if_pos hb]
    exact (bareKeySafe_props hb).1
  · simp [encKeyChars, hb, quoteChars]

theorem encKeyChars_head (k : String) : (encKeyChars k).head? ≠ some ' ' := by
  by_cases hb : bareKeySafe k.data
  · obtain ⟨hne, _, hh, _, _⟩ := bareKeySafe_props hb
    obtain ⟨c, r, hc⟩ := List.exists_cons_of_ne_nil hne
    simp only [encKeyChars, if_pos hb]
    rw [hc]
    rw [hc] at hh
    simp only [headIsWs, Bool.or_eq_false_iff, decide_eq_false_iff_not] at hh
    simpa using hh.1
  · simp [encKeyChars, hb, quoteChars]

theorem encScalarChars_ne_nil (v : Value) (hv : isScalar v = true) : encScalarChars v ≠ [] := by
  cases v with
  | null => decide
  | bool b => cases b <;> decide
  | num n =>
    obtain ⟨c, r, hc, _⟩ := intChars_head n
    simp [encScalarChars, hc]
  | str s =>
    by_cases hb : bareScalarSafe s.data
    · have hb' := hb
      simp only [bareScalarSafe, Bool.and_eq_true, Bool.not_eq_true', decide_eq_true_eq,
        List.all_eq_true] at hb'
      obtain ⟨⟨⟨⟨⟨⟨⟨⟨hne, _⟩, _⟩, _⟩, _⟩, _⟩, _⟩, _⟩, _⟩ := hb'
      simp only [encScalarChars, if_pos hb]
      simpa [List.isEmpty_iff] using hne
    · simp [encScalarChars, hb, quoteChars]
  | arr es => simp [isScalar] at hv
  | obj es => simp [isScalar] at hv

theorem encScalarChars_head (v : Value) (hv : isScalar v = true) :
    (encScalarChars v).head? ≠ some ' ' := by
  cases v with
  | null => decide
  | bool b => cases b <;> decide
  | num n =>
    obtain ⟨c, r, hc, hd⟩ := intChars_head n
    simp only [encScalarChars, hc]
    have : c ≠ ' ' := by
      rcases hd with h | h
      · subst h; decide
      · exact isDigit_ne_of_val h (by decide)
    simpa using this
  | str s =>
    by_cases hb : bareScalarSafe s.data
    · have hb' := hb
      simp only [bareScalarSafe, Bool.and_eq_true, Bool.not_eq_true', decide_eq_true_eq,
        List.all_eq_true] at hb'
      obtain ⟨⟨⟨⟨⟨⟨⟨⟨hne, _⟩, _⟩, hh⟩, _⟩, _⟩, _⟩, _⟩, _⟩ := hb'
      obtain ⟨c, r, hc⟩ := List.exists_cons_of_ne_nil (by simpa [List.isEmpty_iff] using hne :
        s.data ≠ [])
      simp only [encScalarChars, if_pos hb]
      rw [hc]
      rw [hc] at hh
      simp only [headIsWs, Bool.or_eq_false_iff, decide_eq_false_iff_not] at hh
      simpa using hh.1
    · simp [encScalarChars, hb, quoteChars]
  | arr es => simp [isScalar] at hv
  | obj es => simp [isScalar] at hv

theorem joinDelim_head (delim : Char) : ∀ (t : List Char) (rest : List (List Char)),
    t ≠ [] → (joinDelim delim (t :: rest)).head? = t.head? := by
  intro t rest hne
  obtain ⟨c, r, hc⟩ := List.exists_cons_of_ne_nil hne
  cases rest with
  | nil => simp [joinDelim]
  | cons t2 r2 => simp [joinDelim, hc]

theorem keyPart_head (k : Option String) (rest : List Char) (h : rest.head? ≠ some ' ') :
    (keyPart k ++ rest).head? ≠ some ' ' := by
  cases k with
  | none => simpa [keyPart]
  | some k =>
    have h1 := encKeyChars_head k
    obtain ⟨c, r, hc⟩ := List.exists_cons_of_ne_nil (encKeyChars_ne_nil k)
    simp only [keyPart]
    rw [hc]
    rw [hc] at h1
    simpa using h1

theorem parseLineContent_bare (cs : List Char) :
    ∀ (c : Char) (c2 : Char) (r : List Char), cs = c :: c2 :: r →
    (c = '-' → c2 ≠ ' ') → c ≠ '[' → c ≠ '"' →
    parseLineContent cs = bareKeyLine cs := by
  intro c c2 r hcs hds hbr hq
  subst hcs
  by_cases hdash : c = '-'
  · subst hdash
    simp [parseLineContent, hds rfl]
  · simp [parseLineContent, hdash, hbr, hq]

/-- A line led by a serialized key classifies through `parseAfterKey`. -/
theorem parseLineContent_key (k : String) (rest : List Char)
    (hr : rest.head? = some ':' ∨ rest.head? = some '[') :
    parseLineContent (encKeyChars k ++ rest) = parseAfterKey k rest := by
  obtain ⟨r0, rt, hrc⟩ : ∃ r0 rt, rest = r0 :: rt := by
    cases rest with
    | nil => simp at hr
    | cons a b => exact ⟨a, b, rfl⟩
  have hr0 : r0 = ':' ∨ r0 = '[' := by
    rcases hr with h | h
    · rw [hrc] at h; simp at h; exact Or.inl h
    · rw [hrc] at h; simp at h; exact Or.inr h
  by_cases hb : bareKeySafe k.data
  · obtain ⟨hne, hall, _, _, hds⟩ := bareKeySafe_props hb
    obtain ⟨c, t, hc⟩ := List.exists_cons_of_ne_nil hne
    have henc : encKeyChars k = k.data := by simp [encKeyChars, hb]
    rw [henc, hc, List.cons_append]
    obtain ⟨c2, r2, hc2⟩ : ∃ c2 r2, t ++ rest = c2 :: r2 := by
      cases t with
      | nil => exact ⟨r0, rt, by simp [hrc]⟩
      | cons a b => exact ⟨a, b ++ rest, rfl⟩
    rw [hc2]
    have hcprops := hall c (by rw [hc]; simp)
    have hstep : parseLineContent (c :: c2 :: r2) = bareKeyLine (c :: c2 :: r2) := by
      refine parseLineContent_bare _ c c2 r2 rfl ?_ hcprops.2.2.1 hcprops.2.2.2.2.1
      intro hdash hsp
      cases t with
      | nil =>
        rw [List.nil_append, hrc] at hc2
        have h1 : r0 = c2 := by injection hc2
        rw [h1, hsp] at hr0
        rcases hr0 with h | h <;> exact absurd h (by decide)
      | cons a b =>
        rw [List.cons_append] at hc2
        have ha : a = c2 := by injection hc2
        rw [hc, hdash] at hds
        simp only [startsDashSpace] at hds
        rw [ha, hsp] at hds
        simp at hds
    rw [hstep]
    have happ : c :: c2 :: r2 = k.data ++ rest := by
      rw [hc, List.cons_append, hc2]
    rw [happ]
    obtain ⟨ht, hd⟩ := takeWhile_app notKeyStop k.data r0 rt
      (fun x hx => by
        have := hall x hx
        simp [notKeyStop, this.2.1, this.2.2.1])
      (by rcases hr0 with h | h <;> subst h <;> rfl)
    rw [hrc]
    simp only [bareKeyLine, ht, hd]
    rw [if_neg (by simpa [List.isEmpty_iff] using hne)]
  · have henc : encKeyChars k = quoteChars k.data := by simp [encKeyChars, hb]
    rw [henc]
    have h0 : quoteChars k.data ++ rest = '"' :: (escChars k.data ++ '"' :: rest) := by
      simp [quoteChars]
    rw [h0]
    obtain ⟨c2, r2, hc2⟩ : ∃ c2 r2, escChars k.data ++ '"' :: rest = c2 :: r2 := by
      cases hy : escChars k.data ++ '"' :: rest with
      | nil => simp at hy
      | cons a b => exact ⟨a, b, rfl⟩
    rw [hc2]
    have hpc : parseLineContent ('"' :: c2 :: r2) =
        match parseQuotedBody (c2 :: r2) with
        | .error e => .error e
        | .ok (kcs, rest2) => parseAfterKey (String.mk kcs) rest2 := by
      simp [parseLineContent]
    rw [hpc, ← hc2, parseQuotedBody_esc]

theorem parseAfterKey_bracket (k : String) (c2 : Char) (r : List Char) :
    parseAfterKey k ('[' :: c2 :: r) = parseArrHead (some k) (c2 :: r) := by
  simp [parseAfterKey]

theorem parseLineContent_keyless (c2 : Char) (r : List Char) :
    parseLineContent ('[' :: c2 :: r) = parseArrHead none (c2 :: r) := by
  simp [parseLineContent]

theorem parseArrHead_enc (k : Option String) (n : Nat) (tail : List Char) :
    parseArrHead k (natChars n ++ ']' :: tail) = parseAfterBracket k n tail := by
  simp only [parseArrHead]
  rw [spanDigits_app (natChars n) ']' tail (natChars_all_digits n) (by decide)]
  have hne : (natChars n).isEmpty = false := by
    simpa [List.isEmpty_iff] using natChars_ne_nil n
  simp [hne, parseNat_natChars]

theorem parseAfterBracket_list (k : Option String) (n : Nat) :
    parseAfterBracket k n [':'] = .ok (.arrList k n) := by
  simp [parseAfterBracket]

theorem parseAfterBracket_inline (k : Option String) (n : Nat) (raw : List Char) :
    parseAfterBracket k n (':' :: ' ' :: raw) = .ok (.arrInline k n raw) := by
  simp [parseAfterBracket]

theorem parseCols_enc {delim : Char} (hdv : delim ∈ validDelims) (cols : List String) :
    parseCols (joinDelim delim (cols.map encKeyChars)) = .ok cols := by
  cases cols with
  | nil => simp [joinDelim, parseCols]
  | cons k ks =>
    have htokne : encKeyChars k ≠ [] := encKeyChars_ne_nil k
    have hne : joinDelim delim ((k :: ks).map encKeyChars) ≠ [] := by
      cases ks with
      | nil => simpa [joinDelim] using htokne
      | cons k2 ks2 =>
        simp only [List.map_cons, joinDelim]
        intro h
        rcases List.append_eq_nil.mp h with ⟨_, h2⟩
        cases h2
    rw [parseCols, if_neg (by simpa [List.isEmpty_iff] using hne)]
    rw [splitFields_sniff_join hdv _ (by simp) (fun t ht => by
      obtain ⟨k', _, hk⟩ := List.mem_map.mp ht
      rw [← hk]
      exact serTok_encKey k')]
    exact parseKeyTokens_enc (k :: ks)

theorem parseAfterBracket_tab {delim : Char} (hdv : delim ∈ validDelims) (k : Option String)
    (n : Nat) (cols : List String) :
    parseAfterBracket k n ('{' :: (joinDelim delim (cols.map encKeyChars) ++ ['}', ':'])) =
      .ok (.arrTab k n cols) := by
  obtain ⟨_, hdq⟩ := validDelims_class hdv
  have hdb : delim ≠ '}' := by
    simp only [validDelims, List.mem_cons, List.mem_singleton, List.not_mem_nil, or_false] at hdv
    rcases hdv with h | h | h <;> subst h <;> decide
  obtain ⟨c2, r2, hc2⟩ : ∃ c2 r2,
      joinDelim delim (cols.map encKeyChars) ++ ['}', ':'] = c2 :: r2 := by
    cases hy : joinDelim delim (cols.map encKeyChars) ++ ['}', ':'] with
    | nil => simp at hy
    | cons a b => exact ⟨a, b, rfl⟩
  rw [hc2]
  have hpab : parseAfterBracket k n ('{' :: c2 :: r2) =
      match scanCols (c2 :: r2) with
      | .error e => .error e
      | .ok (raw, rest3) =>
        if rest3 = [':'] then
          match parseCols raw with
          | .error e => .error e
          | .ok cols2 => .ok (.arrTab k n cols2)
        else .error .unexpectedToken := by
    simp [parseAfterBracket]
  rw [hpab, ← hc2]
  have hsj : joinDelim delim (cols.map encKeyChars) ++ ['}', ':'] =
      joinDelim delim (cols.map encKeyChars) ++ '}' :: [':'] := rfl
  rw [hsj, scanCols_join hdq hdb (cols.map encKeyChars)
    (fun t ht => by
      obtain ⟨k', _, hk⟩ := List.mem_map.mp ht
      rw [← hk]
      exact serTok_encKey_colTok k') [':']]
  simp [parseCols_enc hdv cols]

theorem parseLineContent_keyPart_arr (k : Option String) (c2 : Char) (r2 : List Char) :
    parseLineContent (keyPart k ++ '[' :: c2 :: r2) = parseArrHead k (c2 :: r2) := by
  cases k with
  | none =>
    rw [keyPart, List.nil_append]
    exact parseLineContent_keyless c2 r2
  | some k =>
    rw [keyPart, parseLineContent_key k ('[' :: c2 :: r2) (Or.inr rfl), parseAfterKey_bracket]

/-- Classification of a full array-header content given the tail after the
closing bracket. -/
theorem parseLineContent_header (k : Option String) (n : Nat) (tail : List Char) :
    parseLineContent (keyPart k ++ '[' :: natChars n ++ ']' :: tail) =
      parseAfterBracket k n tail := by
  obtain ⟨d0, ds, hd⟩ := List.exists_cons_of_ne_nil (natChars_ne_nil n)
  have hre : keyPart k ++ '[' :: natChars n ++ ']' :: tail =
      keyPart k ++ '[' :: (d0 :: (ds ++ ']' :: tail)) := by
    rw [hd]; simp
  rw [hre, parseLineContent_keyPart_arr k d0 (ds ++ ']' :: tail)]
  have hre2 : d0 :: (ds ++ ']' :: tail) = natChars n ++ ']' :: tail := by
    rw [hd]; simp
  rw [hre2, parseArrHead_enc]

theorem parseLineContent_leaf (k : String) (v : Value) :
    parseLineContent (leafContent k v) = .ok (.leaf k (encScalarChars v)) := by
  rw [leafContent, parseLineContent_key k (':' :: ' ' :: encScalarChars v) (Or.inl rfl)]
  simp [parseAfterKey]

theorem parseLineContent_objOpen (k : String) :
    parseLineContent (objOpenContent k) = .ok (.objOpen k) := by
  rw [objOpenContent, parseLineContent_key k [':'] (Or.inl rfl)]
  simp [parseAfterKey]

theorem parseLineContent_inline (delim : Char) (k : Option String) (es : List Value)
    (hne : es ≠ []) :
    parseLineContent (inlineContent delim k es) =
      .ok (.arrInline k es.length (joinDelim delim (es.map encScalarChars))) := by
  have hie : es.isEmpty = false := by simpa [List.isEmpty_iff] using hne
  have hre : inlineContent delim k es =
      keyPart k ++ '[' :: natChars es.length ++ ']' ::
        (':' :: ' ' :: joinDelim delim (es.map encScalarChars)) := by
    simp [inlineContent, hie]
  rw [hre, parseLineContent_header, parseAfterBracket_inline]

theorem parseLineContent_inline_nil (delim : Char) (k : Option String) :
    parseLineContent (inlineContent delim k []) = .ok (.arrList k 0) := by
  have hre : inlineContent delim k [] =
      keyPart k ++ '[' :: natChars 0 ++ ']' :: [':'] := by
    simp [inlineContent]
  rw [hre, parseLineContent_header, parseAfterBracket_list]

theorem parseLineContent_list (k : Option String) (n : Nat) :
    parseLineContent (listContent k n) = .ok (.arrList k n) := by
  have hre : listContent k n = keyPart k ++ '[' :: natChars n ++ ']' :: [':'] := by
    simp [listContent]
  rw [hre, parseLineContent_header, parseAfterBracket_list]

theorem parseLineContent_tab {delim : Char} (hdv : delim ∈ validDelims) (k : Option String)
    (cols : List String) (n : Nat) :
    parseLineContent (tabContent delim k cols n) = .ok (.arrTab k n cols) := by
  have hre : tabContent delim k cols n =
      keyPart k ++ '[' :: natChars n ++ ']' ::
        ('{' :: (joinDelim delim (cols.map encKeyChars) ++ ['}', ':'])) := by
    simp [tabContent]
  rw [hre, parseLineContent_header, parseAfterBracket_tab hdv]

theorem parseLineContent_dash : parseLineContent ['-'] = .ok .itemBlock := rfl

theorem parseLineContent_itemScalar (sc : List Char) :
    parseLineContent ('-' :: ' ' :: sc) = .ok (.itemScalar sc) := by
  simp [parseLineContent]

/-! ### Well-formed values -/

/-- Pairwise-distinct keys of one object level (spec 3 invariant). -/
def nodupKeys : List (String × Value) → Bool
  | [] => true
  | (k, _) :: rest => (lookupV k rest).isNone && nodupKeys rest

mutual
/-- The spec's Value invariant (section 3): object keys unique at every
level. -/
def wfV : Value → Bool
  | .obj es => nodupKeys es && wfE es
  | .arr es => wfL es
  | _ => true
/-- Invariant for entry lists. -/
def wfE : List (String × Value) → Bool
  | [] => true
  | (_, v) :: rest => wfV v && wfE rest
/-- Invariant for element lists. -/
def wfL : List Value → Bool
  | [] => true
  | v :: vs => wfV v && wfL vs
end

theorem consEntry_fresh (strict : Bool) (k : String) (v : Value) (es : List (String × Value))
    (h : lookupV k es = none) : consEntry strict k v es = .ok ((k, v) :: es) := by
  simp [consEntry, h]

theorem buildObj_nodup (strict : Bool) : ∀ (es : List (String × Value)),
    nodupKeys es = true → buildObj strict es = .ok es := by
  intro es
  induction es with
  | nil => intro _; simp [buildObj]
  | cons e rest ih =>
    intro h
    obtain ⟨k, v⟩ := e
    simp only [nodupKeys, Bool.and_eq_true, Option.isNone_iff_eq_none] at h
    simp only [buildObj]
    rw [ih h.2]
    exact consEntry_fresh strict k v rest h.1

theorem zip_keys_vals : ∀ (es : List (String × Value)),
    (entryKeys es).zip (entryVals es) = es := by
  intro es
  induction es with
  | nil => simp [entryKeys, entryVals]
  | cons e rest ih =>
    simp only [entryKeys, entryVals] at ih
    simp [entryKeys, entryVals, ih]

theorem entryKeys_length (es : List (String × Value)) : (entryKeys es).length = es.length := by
  simp [entryKeys]

theorem entryVals_length (es : List (String × Value)) : (entryVals es).length = es.length := by
  simp [entryVals]

/-! ### Parser stop conditions -/

/-- The line list ahead begins below depth `d` (or ends). -/
def RestLower (strict : Bool) (i : Nat) (d : Nat) : List (List Char) → Prop
  | [] => True
  | l :: _ => ∃ dl, depthOf strict i (lineIndent l) = .ok dl ∧ dl < d

theorem parseEntries_stop (strict : Bool) (i d fuel : Nat) (ls : List (List Char))
    (h : RestLower strict i d ls) : parseEntries strict i d fuel ls = .ok ([], ls) := by
  cases ls with
  | nil => cases fuel <;> rfl
  | cons l t =>
    obtain ⟨dl, hdl, hlt⟩ := h
    cases fuel with
    | zero => rfl
    | succ f =>
      simp only [parseEntries]
      rw [hdl]
      simp [hlt]

theorem parseItems_stop (strict : Bool) (i d fuel : Nat) (ls : List (List Char))
    (h : RestLower strict i d ls) : parseItems strict i d fuel ls = .ok ([], ls) := by
  cases ls with
  | nil => cases fuel <;> rfl
  | cons l t =>
    obtain ⟨dl, hdl, hlt⟩ := h
    cases fuel with
    | zero => rfl
    | succ f =>
      simp only [parseItems]
      rw [hdl]
      simp [hlt]

theorem parseRows_stop (strict : Bool) (i d : Nat) (cols : List String) (fuel : Nat)
    (ls : List (List Char)) (h : RestLower strict i d ls) :
    parseRows strict i d cols fuel ls = .ok ([], ls) := by
  cases ls with
  | nil => cases fuel <;> rfl
  | cons l t =>
    obtain ⟨dl, hdl, hlt⟩ := h
    cases fuel with
    | zero => rfl
    | succ f =>
      simp only [parseRows]
      rw [hdl]
      simp [hlt]

/-! ### First-line shapes of encoded blocks -/

theorem inlineContent_head (delim : Char) (k : Option String) (es : List Value) :
    (inlineContent delim k es).head? ≠ some ' ' := by
  rw [inlineContent, List.append_assoc]
  exact keyPart_head k _ (by simp)

theorem tabContent_head (delim : Char) (k : Option String) (cols : List String) (n : Nat) :
    (tabContent delim k cols n).head? ≠ some ' ' := by
  rw [tabContent, List.append_assoc, List.append_assoc]
  exact keyPart_head k _ (by simp)

theorem listContent_head (k : Option String) (n : Nat) :
    (listContent k n).head? ≠ some ' ' := by
  rw [listContent, List.append_assoc]
  exact keyPart_head k _ (by simp)

theorem leafContent_head (k : String) (v : Value) : (leafContent k v).head? ≠ some ' ' := by
  rw [leafContent]
  have h1 := encKeyChars_head k
  obtain ⟨c, r, hc⟩ := List.exists_cons_of_ne_nil (encKeyChars_ne_nil k)
  rw [hc]
  rw [hc] at h1
  simpa using h1

theorem objOpenContent_head (k : String) : (objOpenContent k).head? ≠ some ' ' := by
  rw [objOpenContent]
  have h1 := encKeyChars_head k
  obtain ⟨c, r, hc⟩ := List.exists_cons_of_ne_nil (encKeyChars_ne_nil k)
  rw [hc]
  rw [hc] at h1
  simpa using h1

theorem rowContent_head (delim : Char) (e : List (String × Value))
    (hsc : allScalars (entryVals e) = true) : (rowContent delim e).head? ≠ some ' ' := by
  cases e with
  | nil => simp [rowContent, entryVals, joinDelim]
  | cons e0 tail =>
    obtain ⟨k0, v0⟩ := e0
    have hv0 : isScalar v0 = true := by
      simp only [allScalars, entryVals, List.all_eq_true] at hsc
      exact hsc v0 (by simp)
    have htok : encScalarChars v0 ≠ [] := encScalarChars_ne_nil v0 hv0
    have hh := encScalarChars_head v0 hv0
    rw [rowContent]
    have hmap : (entryVals ((k0, v0) :: tail)).map encScalarChars =
        encScalarChars v0 :: (entryVals tail).map encScalarChars := by
      simp [entryVals]
    rw [hmap, joinDelim_head delim _ _ htok]
    exact hh

/-- Each scalar entry line of the encoder. -/
theorem encEntry_scalar (i : Nat) (delim : Char) (d : Nat) (k : String) (v : Value)
    (hv : isScalar v = true) :
    encEntry i delim d k v = [indentChars i d ++ leafContent k v] := by
  cases v with
  | null => simp [encEntry, leafContent, List.append_assoc]
  | bool b => simp [encEntry, leafContent, List.append_assoc]
  | num n => simp [encEntry, leafContent, List.append_assoc]
  | str s => simp [encEntry, leafContent, List.append_assoc]
  | arr es => simp [isScalar] at hv
  | obj es => simp [isScalar] at hv

theorem encEntry_obj (i : Nat) (delim : Char) (d : Nat) (k : String)
    (es : List (String × Value)) :
    encEntry i delim d k (.obj es) =
      (indentChars i d ++ objOpenContent k) :: encEntries i delim (d + 1) es := by
  simp [encEntry, objOpenContent, List.append_assoc]

theorem encEntry_arr (i : Nat) (delim : Char) (d : Nat) (k : String) (es : List Value) :
    encEntry i delim d k (.arr es) =
      arrBlock i delim d (some k) es (encItems i delim (d + 1) es) := by
  simp [encEntry]

theorem leafContent_ne_nil (k : String) (v : Value) : leafContent k v ≠ [] := by
  simp [leafContent]

theorem objOpenContent_ne_nil (k : String) : objOpenContent k ≠ [] := by
  simp [objOpenContent]

theorem inlineContent_ne_nil (delim : Char) (k : Option String) (es : List Value) :
    inlineContent delim k es ≠ [] := by
  simp [inlineContent]

theorem tabContent_ne_nil (delim : Char) (k : Option String) (cols : List String) (n : Nat) :
    tabContent delim k cols n ≠ [] := by
  simp [tabContent]

theorem listContent_ne_nil (k : Option String) (n : Nat) : listContent k n ≠ [] := by
  simp [listContent]

/-- First line of an array block: the header at the block's depth. -/
theorem arrBlock_first (i : Nat) (delim : Char) (d : Nat) (k : Option String) (es : List Value)
    (itemLines : List (List Char)) :
    ∃ content t, arrBlock i delim d k es itemLines = (indentChars i d ++ content) :: t ∧
      content.head? ≠ some ' ' ∧ content ≠ [] := by
  by_cases hsc : allScalars es
  · exact ⟨inlineContent delim k es, [], by
      simp [arrBlock, hsc, inlineLine_split], inlineContent_head delim k es,
      inlineContent_ne_nil delim k es⟩
  · cases htc : tabularCols es with
    | some cols =>
      exact ⟨tabContent delim k cols es.length, encRows i delim (d + 1) es, by
        simp [arrBlock, hsc, htc, tabLine_split], tabContent_head delim k cols es.length,
        tabContent_ne_nil delim k cols es.length⟩
    | none =>
      exact ⟨listContent k es.length, itemLines, by
        simp [arrBlock, hsc, htc, listLine_split], listContent_head k es.length,
        listContent_ne_nil k es.length⟩

theorem encEntry_first (i : Nat) (delim : Char) (d : Nat) (k : String) (v : Value) :
    ∃ content t, encEntry i delim d k v = (indentChars i d ++ content) :: t ∧
      content.head? ≠ some ' ' ∧ content ≠ [] := by
  cases v with
  | arr es =>
    rw [encEntry_arr]
    exact arrBlock_first i delim d (some k) es _
  | obj es =>
    exact ⟨objOpenContent k, _, encEntry_obj i delim d k es, objOpenContent_head k,
      objOpenContent_ne_nil k⟩
  | null =>
    exact ⟨leafContent k .null, [], encEntry_scalar i delim d k _ rfl, leafContent_head k _,
      leafContent_ne_nil k _⟩
  | bool b =>
    exact ⟨leafContent k (.bool b), [], encEntry_scalar i delim d k _ rfl,
      leafContent_head k _, leafContent_ne_nil k _⟩
  | num n =>
    exact ⟨leafContent k (.num n), [], encEntry_scalar i delim d k _ rfl,
      leafContent_head k _, leafContent_ne_nil k _⟩
  | str s =>
    exact ⟨leafContent k (.str s), [], encEntry_scalar i delim d k _ rfl,
      leafContent_head k _, leafContent_ne_nil k _⟩

theorem restLower_mono (strict : Bool) (i : Nat) {d d' : Nat} (h : d ≤ d')
    (ls : List (List Char)) (hr : RestLower strict i d ls) : RestLower strict i d' ls := by
  cases ls with
  | nil => trivial
  | cons l t =>
    obtain ⟨dl, h1, h2⟩ := hr
    exact ⟨dl, h1, by omega⟩

theorem restLower_head (strict : Bool) (i : Nat) (hi : 1 ≤ i) {d d' : Nat} (h : d < d')
    (content : List Char) (hh : content.head? ≠ some ' ') (t : List (List Char)) :
    RestLower strict i d' ((indentChars i d ++ content) :: t) := by
  refine ⟨d, ?_, h⟩
  rw [(lineIndent_enc i d content hh).1]
  exact depthOf_enc strict i d hi

theorem restLower_encEntries (strict : Bool) (i : Nat) (hi : 1 ≤ i) (delim : Char)
    {d d' : Nat} (h : d < d') (es : List (String × Value)) (rest : List (List Char))
    (hr : RestLower strict i d rest) :
    RestLower strict i d' (encEntries i delim d es ++ rest) := by
  cases es with
  | nil =>
    simp only [encEntries, List.nil_append]
    exact restLower_mono strict i (by omega) rest hr
  | cons e tail =>
    obtain ⟨k, v⟩ := e
    obtain ⟨content, t, he, hh, _⟩ := encEntry_first i delim d k v
    have : encEntries i delim d ((k, v) :: tail) ++ rest =
        (indentChars i d ++ content) :: (t ++ (encEntries i delim d tail ++ rest)) := by
      simp [encEntries, he]
    rw [this]
    exact restLower_head strict i hi h content hh _

theorem encItems_first (i : Nat) (delim : Char) (d : Nat) (v : Value) (vs : List Value) :
    ∃ content t, encItems i delim d (v :: vs) = (indentChars i d ++ content) :: t ∧
      content.head? ≠ some ' ' := by
  cases v with
  | arr es =>
    exact ⟨['-'],
      arrBlock i delim (d + 1) none es (encItems i delim (d + 2) es) ++ encItems i delim d vs,
      by simp [encItems], by simp⟩
  | obj es =>
    exact ⟨['-'], encEntries i delim (d + 1) es ++ encItems i delim d vs,
      by simp [encItems], by simp⟩
  | null => exact ⟨'-' :: ' ' :: encScalarChars .null, encItems i delim d vs, rfl, by simp⟩
  | bool b => exact ⟨'-' :: ' ' :: encScalarChars (.bool b), encItems i delim d vs, rfl, by simp⟩
  | num n => exact ⟨'-' :: ' ' :: encScalarChars (.num n), encItems i delim d vs, rfl, by simp⟩
  | str s => exact ⟨'-' :: ' ' :: encScalarChars (.str s), encItems i delim d vs, rfl, by simp⟩

theorem restLower_encItems (strict : Bool) (i : Nat) (hi : 1 ≤ i) (delim : Char)
    {d d' : Nat} (h : d < d') (vs : List Value) (rest : List (List Char))
    (hr : RestLower strict i d rest) :
    RestLower strict i d' (encItems i delim d vs ++ rest) := by
  cases vs with
  | nil =>
    simp only [encItems, List.nil_append]
    exact restLower_mono strict i (by omega) rest hr
  | cons v tail =>
    obtain ⟨content, t, he, hh⟩ := encItems_first i delim d v tail
    rw [he, List.cons_append]
    exact restLower_head strict i hi h content hh _

/-! ### Round trip: tabular rows -/

/-- Decoding the encoded rows of a conforming tabular array recovers the
elements and leaves the trailing lines untouched. -/
theorem parseRows_enc (strict : Bool) (i : Nat) (hi : 1 ≤ i) {delim : Char}
    (hdv : delim ∈ validDelims) : ∀ (es : List Value) (cols : List String) (d fuel : Nat)
    (rest : List (List Char)),
    (∀ v ∈ es, rowMatches cols v = true) → (∀ v ∈ es, wfV v = true) →
    es.length ≤ fuel → RestLower strict i d rest →
    parseRows strict i d cols fuel (encRows i delim d es ++ rest) = .ok (es, rest) := by
  intro es
  induction es with
  | nil =>
    intro cols d fuel rest _ _ _ hr
    simpa [encRows] using parseRows_stop strict i d cols fuel rest hr
  | cons v tail ih =>
    intro cols d fuel rest hrow hwf hfu hr
    have hv := hrow v (by simp)
    cases v with
    | null => simp [rowMatches] at hv
    | bool b => simp [rowMatches] at hv
    | num n => simp [rowMatches] at hv
    | str s => simp [rowMatches] at hv
    | arr xs => simp [rowMatches] at hv
    | obj e =>
      obtain ⟨hke, hsc⟩ : entryKeys e = cols ∧ allScalars (entryVals e) = true := by
        simpa [rowMatches] using hv
      cases fuel with
      | zero => simp at hfu
      | succ f =>
        have hline : encRows i delim d (.obj e :: tail) ++ rest =
            (indentChars i d ++ rowContent delim e) :: (encRows i delim d tail ++ rest) := by
          simp [encRows, encRow, rowContent]
        rw [hline]
        simp only [parseRows]
        have hl := lineIndent_enc i d (rowContent delim e) (rowContent_head delim e hsc)
        rw [hl.1, depthOf_enc strict i d hi, hl.2]
        have hrec : parseRows strict i d cols f (encRows i delim d tail ++ rest) =
            .ok (tail, rest) := by
          refine ih cols d f rest ?_ ?_ ?_ hr
          · intro w hw; exact hrow w (by simp [hw])
          · intro w hw; exact hwf w (by simp [hw])
          · simpa using Nat.lt_succ_iff.mp (by simpa [Nat.lt_succ_iff] using hfu)
        simp only [lt_self_iff_false, if_false]
        cases cols with
        | nil =>
          have he : e = [] := by
            cases e with
            | nil => rfl
            | cons e0 t0 => simp [entryKeys] at hke
          subst he
          rw [if_pos (by rfl : ([] : List String).isEmpty = true),
            if_pos (by rfl : (rowContent delim []).isEmpty = true)]
          simp only [hrec]
        | cons c cs =>
          have hene : e ≠ [] := by
            intro hh; rw [hh] at hke; simp [entryKeys] at hke
          have htsne : (entryVals e).map encScalarChars ≠ [] := by
            simp [entryVals]
            intro hh; exact hene hh
          have htsser : ∀ t ∈ (entryVals e).map encScalarChars, SerTok t := by
            intro t ht
            obtain ⟨w, hw, hwe⟩ := List.mem_map.mp ht
            have : isScalar w = true := by
              simp only [allScalars, List.all_eq_true] at hsc
              exact hsc w hw
            rw [← hwe]
            exact serTok_encScalar w this
          have hsplit := splitFields_sniff_join hdv ((entryVals e).map encScalarChars)
            htsne htsser
          have hvals : ∀ w ∈ entryVals e, isScalar w = true := by
            intro w hw
            simp only [allScalars, List.all_eq_true] at hsc
            exact hsc w hw
          have hps := parseScalars_enc (entryVals e) hvals
          have hlen : (entryVals e).length = (c :: cs).length := by
            rw [entryVals_length, ← hke, entryKeys_length]
          have hnd : nodupKeys e = true := by
            have := hwf (.obj e) (by simp)
            simp only [wfV, Bool.and_eq_true] at this
            exact this.1
          have hie : ¬ ((c :: cs).isEmpty = true) := by simp
          rw [if_neg hie]
          simp only [rowContent, hsplit, hps, hlen]
          rw [if_neg (by simp)]
          rw [← hke] at hrec ⊢
          rw [zip_keys_vals, buildObj_nodup strict e hnd]
          simp only [hrec]
/-! ### Helpers for the main round trip -/

theorem allScalars_mem {vs : List Value} (h : allScalars vs = true) {v : Value} (hv : v ∈ vs) :
    isScalar v = true := by
  simp only [allScalars, List.all_eq_true] at h
  exact h v hv

theorem wfL_mem : ∀ {vs : List Value}, wfL vs = true → ∀ {v : Value}, v ∈ vs → wfV v = true := by
  intro vs
  induction vs with
  | nil => intro _ v hv; simp at hv
  | cons w ws ih =>
    intro h v hv
    simp only [wfL, Bool.and_eq_true] at h
    rcases List.mem_cons.mp hv with h1 | h1
    · rw [h1]; exact h.1
    · exact ih h.2 h1

theorem nodupKeys_cons {k : String} {v : Value} {es : List (String × Value)}
    (h : nodupKeys ((k, v) :: es) = true) :
    lookupV k es = none ∧ nodupKeys es = true := by
  simpa [nodupKeys, Option.isNone_iff_eq_none] using h

theorem wfE_cons {k : String} {v : Value} {es : List (String × Value)}
    (h : wfE ((k, v) :: es) = true) : wfV v = true ∧ wfE es = true := by
  simpa [wfE] using h

theorem wfL_cons {v : Value} {vs : List Value} (h : wfL (v :: vs) = true) :
    wfV v = true ∧ wfL vs = true := by
  simpa [wfL] using h

theorem wfV_obj {es : List (String × Value)} (h : wfV (.obj es) = true) :
    nodupKeys es = true ∧ wfE es = true := by
  simpa [wfV] using h

theorem wfV_arr {es : List Value} (h : wfV (.arr es) = true) : wfL es = true := by
  simpa [wfV] using h

theorem tabularCols_rowMatches {es : List Value} {cols : List String}
    (h : tabularCols es = some cols) : ∀ v ∈ es, rowMatches cols v = true := by
  cases es with
  | nil => simp [tabularCols] at h
  | cons v0 rest =>
    cases v0 with
    | null => simp [tabularCols] at h
    | bool b => simp [tabularCols] at h
    | num n => simp [tabularCols] at h
    | str s => simp [tabularCols] at h
    | arr xs => simp [tabularCols] at h
    | obj e0 =>
      simp only [tabularCols] at h
      by_cases hc : (rowMatches (entryKeys e0) (.obj e0) &&
          rest.all (rowMatches (entryKeys e0))) = true
      · rw [if_pos hc] at h
        obtain ⟨h1, h2⟩ := Bool.and_eq_true _ _ |>.mp hc
        have h3 : entryKeys e0 = cols := by injection h
        intro v hv
        rcases List.mem_cons.mp hv with hh | hh
        · rw [hh, ← h3]; exact h1
        · rw [← h3]; exact List.all_eq_true.mp h2 v hh
      · rw [if_neg hc] at h
        exact absurd h (by simp)

theorem encItems_ne_nil (i : Nat) (delim : Char) (d : Nat) (v : Value) (vs : List Value) :
    encItems i delim d (v :: vs) ≠ [] := by
  obtain ⟨c, t, he, _⟩ := encItems_first i delim d v vs
  rw [he]
  simp

theorem inline_body_parse {delim : Char} (hdv : delim ∈ validDelims) (es : List Value)
    (hne : es ≠ []) (hsc : allScalars es = true) :
    splitFields (sniffDelim (joinDelim delim (es.map encScalarChars)))
        (joinDelim delim (es.map encScalarChars)) = .ok (es.map encScalarChars) ∧
      parseScalars (es.map encScalarChars) = .ok es := by
  constructor
  · refine splitFields_sniff_join hdv _ (by simpa using hne) ?_
    intro t ht
    obtain ⟨w, hw, hwe⟩ := List.mem_map.mp ht
    rw [← hwe]
    exact serTok_encScalar w (allScalars_mem hsc hw)
  · exact parseScalars_enc es (fun v hv => allScalars_mem hsc hv)

/-- The first line of an encoded entry carries a keyed line form. -/
theorem encEntry_first_class (i : Nat) {delim : Char} (hdv : delim ∈ validDelims) (d : Nat)
    (k : String) (v : Value) :
    ∃ content t, encEntry i delim d k v = (indentChars i d ++ content) :: t ∧
      content.head? ≠ some ' ' ∧ content ≠ [] ∧
      ((∃ sc, parseLineContent content = .ok (.leaf k sc)) ∨
       parseLineContent content = .ok (.objOpen k) ∨
       (∃ n raw, parseLineContent content = .ok (.arrInline (some k) n raw)) ∨
       (∃ n, parseLineContent content = .ok (.arrList (some k) n)) ∨
       (∃ n cols, parseLineContent content = .ok (.arrTab (some k) n cols))) := by
  cases v with
  | null =>
    exact ⟨leafContent k .null, [], encEntry_scalar i delim d k _ rfl, leafContent_head k _,
      leafContent_ne_nil k _, Or.inl ⟨_, parseLineContent_leaf k _⟩⟩
  | bool b =>
    exact ⟨leafContent k (.bool b), [], encEntry_scalar i delim d k _ rfl, leafContent_head k _,
      leafContent_ne_nil k _, Or.inl ⟨_, parseLineContent_leaf k _⟩⟩
  | num n =>
    exact ⟨leafContent k (.num n), [], encEntry_scalar i delim d k _ rfl, leafContent_head k _,
      leafContent_ne_nil k _, Or.inl ⟨_, parseLineContent_leaf k _⟩⟩
  | str s =>
    exact ⟨leafContent k (.str s), [], encEntry_scalar i delim d k _ rfl, leafContent_head k _,
      leafContent_ne_nil k _, Or.inl ⟨_, parseLineContent_leaf k _⟩⟩
  | obj es =>
    exact ⟨objOpenContent k, encEntries i delim (d + 1) es, encEntry_obj i delim d k es,
      objOpenContent_head k, objOpenContent_ne_nil k,
      Or.inr (Or.inl (parseLineContent_objOpen k))⟩
  | arr es =>
    rw [encEntry_arr]
    by_cases hsc : allScalars es = true
    · cases es with
      | nil =>
        exact ⟨inlineContent delim (some k) [], [],
          by simp [arrBlock, allScalars, inlineLine_split], inlineContent_head _ _ _,
          inlineContent_ne_nil _ _ _,
          Or.inr (Or.inr (Or.inr (Or.inl ⟨0, parseLineContent_inline_nil delim (some k)⟩)))⟩
      | cons e0 es2 =>
        exact ⟨inlineContent delim (some k) (e0 :: es2), [],
          by simp [arrBlock, hsc, inlineLine_split], inlineContent_head _ _ _,
          inlineContent_ne_nil _ _ _,
          Or.inr (Or.inr (Or.inl ⟨_, _,
            parseLineContent_inline delim (some k) (e0 :: es2) (by simp)⟩))⟩
    · cases htc : tabularCols es with
      | some cols =>
        exact ⟨tabContent delim (some k) cols es.length, encRows i delim (d + 1) es,
          by simp [arrBlock, hsc, htc, tabLine_split], tabContent_head _ _ _ _,
          tabContent_ne_nil _ _ _ _,
          Or.inr (Or.inr (Or.inr (Or.inr ⟨_, _, parseLineContent_tab hdv (some k) cols
            es.length⟩)))⟩
      | none =>
        exact ⟨listContent (some k) es.length, encItems i delim (d + 1) es,
          by simp [arrBlock, hsc, htc, listLine_split], listContent_head _ _,
          listContent_ne_nil _ _,
          Or.inr (Or.inr (Or.inr (Or.inl ⟨_, parseLineContent_list (some k) es.length⟩)))⟩
/-! ### One-arm steps of the entry parser -/

theorem step_leaf (strict : Bool) (i : Nat) (hi : 1 ≤ i) (d f : Nat) (content : List Char)
    (hh : content.head? ≠ some ' ') (k : String) (sc : List Char) (v : Value)
    (hpc : parseLineContent content = .ok (.leaf k sc)) (hps : parseScalar sc = .ok v)
    (L rest : List (List Char)) (tail : List (String × Value))
    (hrecT : parseEntries strict i d f L = .ok (tail, rest))
    (hfresh : lookupV k tail = none) :
    parseEntries strict i d (f + 1) ((indentChars i d ++ content) :: L) =
      .ok ((k, v) :: tail, rest) := by
  have hl := lineIndent_enc i d content hh
  simp only [parseEntries]
  rw [hl.1, depthOf_enc strict i d hi, hl.2]
  simp only [lt_self_iff_false, if_false, hpc, hps, hrecT,
    consEntry_fresh strict k v tail hfresh]

theorem step_objOpen (strict : Bool) (i : Nat) (hi : 1 ≤ i) (d f : Nat) (content : List Char)
    (hh : content.head? ≠ some ' ') (k : String)
    (hpc : parseLineContent content = .ok (.objOpen k))
    (L rest1 rest : List (List Char)) (sub tail : List (String × Value))
    (hsub : parseEntries strict i (d + 1) f L = .ok (sub, rest1))
    (hrecT : parseEntries strict i d f rest1 = .ok (tail, rest))
    (hfresh : lookupV k tail = none) :
    parseEntries strict i d (f + 1) ((indentChars i d ++ content) :: L) =
      .ok ((k, .obj sub) :: tail, rest) := by
  have hl := lineIndent_enc i d content hh
  simp only [parseEntries]
  rw [hl.1, depthOf_enc strict i d hi, hl.2]
  simp only [lt_self_iff_false, if_false, hpc, hsub, hrecT,
    consEntry_fresh strict k (.obj sub) tail hfresh]

theorem step_arrInline (strict : Bool) (i : Nat) (hi : 1 ≤ i) (d f : Nat) (content : List Char)
    (hh : content.head? ≠ some ' ') (k : String) (n : Nat) (raw : List Char)
    (hpc : parseLineContent content = .ok (.arrInline (some k) n raw))
    (fs : List (List Char)) (vs : List Value)
    (hsplit : splitFields (sniffDelim raw) raw = .ok fs) (hps : parseScalars fs = .ok vs)
    (hlen : vs.length = n) (L rest : List (List Char)) (tail : List (String × Value))
    (hrecT : parseEntries strict i d f L = .ok (tail, rest))
    (hfresh : lookupV k tail = none) :
    parseEntries strict i d (f + 1) ((indentChars i d ++ content) :: L) =
      .ok ((k, .arr vs) :: tail, rest) := by
  have hl := lineIndent_enc i d content hh
  simp only [parseEntries]
  rw [hl.1, depthOf_enc strict i d hi, hl.2]
  simp only [lt_self_iff_false, if_false, hpc, hsplit, hps]
  rw [if_neg (by simp [hlen])]
  simp only [hrecT, consEntry_fresh strict k (.arr vs) tail hfresh]

theorem step_arrList (strict : Bool) (i : Nat) (hi : 1 ≤ i) (d f : Nat) (content : List Char)
    (hh : content.head? ≠ some ' ') (k : String) (n : Nat)
    (hpc : parseLineContent content = .ok (.arrList (some k) n))
    (vs : List Value) (L rest1 rest : List (List Char)) (tail : List (String × Value))
    (hitems : parseItems strict i (d + 1) f L = .ok (vs, rest1)) (hlen : vs.length = n)
    (hrecT : parseEntries strict i d f rest1 = .ok (tail, rest))
    (hfresh : lookupV k tail = none) :
    parseEntries strict i d (f + 1) ((indentChars i d ++ content) :: L) =
      .ok ((k, .arr vs) :: tail, rest) := by
  have hl := lineIndent_enc i d content hh
  simp only [parseEntries]
  rw [hl.1, depthOf_enc strict i d hi, hl.2]
  simp only [lt_self_iff_false, if_false, hpc, hitems]
  rw [if_neg (by simp [hlen])]
  simp only [hrecT, consEntry_fresh strict k (.arr vs) tail hfresh]

theorem step_arrTab (strict : Bool) (i : Nat) (hi : 1 ≤ i) (d f : Nat) (content : List Char)
    (hh : content.head? ≠ some ' ') (k : String) (n : Nat) (cols : List String)
    (hpc : parseLineContent content = .ok (.arrTab (some k) n cols))
    (vs : List Value) (L rest1 rest : List (List Char)) (tail : List (String × Value))
    (hrows : parseRows strict i (d + 1) cols f L = .ok (vs, rest1)) (hlen : vs.length = n)
    (hrecT : parseEntries strict i d f rest1 = .ok (tail, rest))
    (hfresh : lookupV k tail = none) :
    parseEntries strict i d (f + 1) ((indentChars i d ++ content) :: L) =
      .ok ((k, .arr vs) :: tail, rest) := by
  have hl := lineIndent_enc i d content hh
  simp only [parseEntries]
  rw [hl.1, depthOf_enc strict i d hi, hl.2]
  simp only [lt_self_iff_false, if_false, hpc, hrows]
  rw [if_neg (by simp [hlen])]
  simp only [hrecT, consEntry_fresh strict k (.arr vs) tail hfresh]

/-! ### One-arm steps of the item parser -/

theorem istep_scalar (strict : Bool) (i : Nat) (hi : 1 ≤ i) (d f : Nat) (content : List Char)
    (hh : content.head? ≠ some ' ') (sc : List Char) (v : Value)
    (hpc : parseLineContent content = .ok (.itemScalar sc)) (hps : parseScalar sc = .ok v)
    (L rest : List (List Char)) (vs : List Value)
    (hrecT : parseItems strict i d f L = .ok (vs, rest)) :
    parseItems strict i d (f + 1) ((indentChars i d ++ content) :: L) =
      .ok (v :: vs, rest) := by
  have hl := lineIndent_enc i d content hh
  simp only [parseItems]
  rw [hl.1, depthOf_enc strict i d hi, hl.2]
  simp only [lt_self_iff_false, if_false, hpc, hps, hrecT]

theorem istep_block_empty (strict : Bool) (i : Nat) (hi : 1 ≤ i) (d f : Nat) :
    parseItems strict i d (f + 1) [indentChars i d ++ ['-']] = .ok ([.obj []], []) := by
  have hl := lineIndent_enc i d ['-'] (by simp)
  simp only [parseItems]
  rw [hl.1, depthOf_enc strict i d hi, hl.2]
  simp only [lt_self_iff_false, if_false, parseLineContent_dash]

theorem istep_block_low (strict : Bool) (i : Nat) (hi : 1 ≤ i) (d f : Nat)
    (l2 : List Char) (ls2 rest : List (List Char)) (dl2 : Nat)
    (hd2 : depthOf strict i (lineIndent l2) = .ok dl2) (hle : dl2 ≤ d) (vs : List Value)
    (hsub : parseItems strict i d f (l2 :: ls2) = .ok (vs, rest)) :
    parseItems strict i d (f + 1) ((indentChars i d ++ ['-']) :: l2 :: ls2) =
      .ok (.obj [] :: vs, rest) := by
  have hl := lineIndent_enc i d ['-'] (by simp)
  simp only [parseItems]
  rw [hl.1, depthOf_enc strict i d hi, hl.2]
  simp only [lt_self_iff_false, if_false, parseLineContent_dash, hd2]
  rw [if_pos hle]
  simp only [hsub]

theorem istep_block_entry (strict : Bool) (i : Nat) (hi : 1 ≤ i) (d f : Nat)
    (content2 : List Char) (hh2 : content2.head? ≠ some ' ') (k : String)
    (hclass : (∃ sc, parseLineContent content2 = .ok (.leaf k sc)) ∨
      parseLineContent content2 = .ok (.objOpen k) ∨
      (∃ n raw, parseLineContent content2 = .ok (.arrInline (some k) n raw)) ∨
      (∃ n, parseLineContent content2 = .ok (.arrList (some k) n)) ∨
      (∃ n cols, parseLineContent content2 = .ok (.arrTab (some k) n cols)))
    (L2 rest1 rest : List (List Char)) (sub : List (String × Value)) (vs : List Value)
    (hsub : parseEntries strict i (d + 1) f ((indentChars i (d + 1) ++ content2) :: L2) =
      .ok (sub, rest1))
    (hrecT : parseItems strict i d f rest1 = .ok (vs, rest)) :
    parseItems strict i d (f + 1)
        ((indentChars i d ++ ['-']) :: (indentChars i (d + 1) ++ content2) :: L2) =
      .ok (.obj sub :: vs, rest) := by
  have hl := lineIndent_enc i d ['-'] (by simp)
  have hl2 := lineIndent_enc i (d + 1) content2 hh2
  simp only [parseItems]
  rw [hl.1, depthOf_enc strict i d hi, hl.2]
  simp only [lt_self_iff_false, if_false, parseLineContent_dash]
  rw [hl2.1, depthOf_enc strict i (d + 1) hi, hl2.2]
  simp only [if_neg (by omega : ¬ d + 1 ≤ d), ne_self_iff_false, if_false]
  rcases hclass with ⟨sc, hpc⟩ | hpc | ⟨n, raw, hpc⟩ | ⟨n, hpc⟩ | ⟨n, cols, hpc⟩ <;>
    simp only [hpc, hsub, hrecT]

theorem istep_block_inline (strict : Bool) (i : Nat) (hi : 1 ≤ i) (d f : Nat)
    (content2 : List Char) (hh2 : content2.head? ≠ some ' ') (n : Nat) (raw : List Char)
    (hpc : parseLineContent content2 = .ok (.arrInline none n raw))
    (fs : List (List Char)) (vs0 : List Value)
    (hsplit : splitFields (sniffDelim raw) raw = .ok fs) (hps : parseScalars fs = .ok vs0)
    (hlen : vs0.length = n) (L2 rest : List (List Char)) (vs : List Value)
    (hrecT : parseItems strict i d f L2 = .ok (vs, rest)) :
    parseItems strict i d (f + 1)
        ((indentChars i d ++ ['-']) :: (indentChars i (d + 1) ++ content2) :: L2) =
      .ok (.arr vs0 :: vs, rest) := by
  have hl := lineIndent_enc i d ['-'] (by simp)
  have hl2 := lineIndent_enc i (d + 1) content2 hh2
  simp only [parseItems]
  rw [hl.1, depthOf_enc strict i d hi, hl.2]
  simp only [lt_self_iff_false, if_false, parseLineContent_dash]
  rw [hl2.1, depthOf_enc strict i (d + 1) hi, hl2.2]
  simp only [if_neg (by omega : ¬ d + 1 ≤ d), ne_self_iff_false, if_false]
  simp only [hpc, hsplit, hps]
  rw [if_neg (by simp [hlen])]
  simp only [hrecT]

theorem istep_block_list (strict : Bool) (i : Nat) (hi : 1 ≤ i) (d f : Nat)
    (content2 : List Char) (hh2 : content2.head? ≠ some ' ') (n : Nat)
    (hpc : parseLineContent content2 = .ok (.arrList none n))
    (sub : List Value) (L2 rest1 rest : List (List Char)) (vs : List Value)
    (hsubI : parseItems strict i (d + 2) f L2 = .ok (sub, rest1)) (hlen : sub.length = n)
    (hrecT : parseItems strict i d f rest1 = .ok (vs, rest)) :
    parseItems strict i d (f + 1)
        ((indentChars i d ++ ['-']) :: (indentChars i (d + 1) ++ content2) :: L2) =
      .ok (.arr sub :: vs, rest) := by
  have hl := lineIndent_enc i d ['-'] (by simp)
  have hl2 := lineIndent_enc i (d + 1) content2 hh2
  simp only [parseItems]
  rw [hl.1, depthOf_enc strict i d hi, hl.2]
  simp only [lt_self_iff_false, if_false, parseLineContent_dash]
  rw [hl2.1, depthOf_enc strict i (d + 1) hi, hl2.2]
  simp only [if_neg (by omega : ¬ d + 1 ≤ d), ne_self_iff_false, if_false]
  simp only [hpc, hsubI]
  rw [if_neg (by simp [hlen])]
  simp only [hrecT]

theorem istep_block_tab (strict : Bool) (i : Nat) (hi : 1 ≤ i) (d f : Nat)
    (content2 : List Char) (hh2 : content2.head? ≠ some ' ') (n : Nat) (cols : List String)
    (hpc : parseLineContent content2 = .ok (.arrTab none n cols))
    (sub : List Value) (L2 rest1 rest : List (List Char)) (vs : List Value)
    (hrows : parseRows strict i (d + 2) cols f L2 = .ok (sub, rest1)) (hlen : sub.length = n)
    (hrecT : parseItems strict i d f rest1 = .ok (vs, rest)) :
    parseItems strict i d (f + 1)
        ((indentChars i d ++ ['-']) :: (indentChars i (d + 1) ++ content2) :: L2) =
      .ok (.arr sub :: vs, rest) := by
  have hl := lineIndent_enc i d ['-'] (by simp)
  have hl2 := lineIndent_enc i (d + 1) content2 hh2
  simp only [parseItems]
  rw [hl.1, depthOf_enc strict i d hi, hl.2]
  simp only [lt_self_iff_false, if_false, parseLineContent_dash]
  rw [hl2.1, depthOf_enc strict i (d + 1) hi, hl2.2]
  simp only [if_neg (by omega : ¬ d + 1 ≤ d), ne_self_iff_false, if_false]
  simp only [hpc, hrows]
  rw [if_neg (by simp [hlen])]
  simp only [hrecT]
theorem encItems_scalar (i : Nat) (delim : Char) (d : Nat) (v : Value)
    (hv : isScalar v = true) (vs : List Value) :
    encItems i delim d (v :: vs) =
      (indentChars i d ++ '-' :: ' ' :: encScalarChars v) :: encItems i delim d vs := by
  cases v with
  | null => rfl
  | bool b => rfl
  | num n => rfl
  | str s => rfl
  | arr es => simp [isScalar] at hv
  | obj es => simp [isScalar] at hv

mutual
/-- Entries round trip: decoding the encoded entry lines of a well-formed
object body recovers the entries and leaves the trailing lines untouched. -/
theorem rt_entries (strict : Bool) (i : Nat) (hi : 1 ≤ i) (delim : Char)
    (hdv : delim ∈ validDelims) (es : List (String × Value)) (d fuel : Nat)
    (rest : List (List Char)) (hwf : wfE es = true) (hnd : nodupKeys es = true)
    (hfu : (encEntries i delim d es ++ rest).length ≤ fuel)
    (hr : RestLower strict i d rest) :
    parseEntries strict i d fuel (encEntries i delim d es ++ rest) = .ok (es, rest) := by
  cases es with
  | nil =>
    simp only [encEntries, List.nil_append]
    exact parseEntries_stop strict i d fuel rest hr
  | cons e tail =>
    obtain ⟨k, v⟩ := e
    obtain ⟨hwv, hwt⟩ := wfE_cons hwf
    obtain ⟨hfresh, hndt⟩ := nodupKeys_cons hnd
    by_cases hsv : isScalar v = true
    · have hlines : encEntries i delim d ((k, v) :: tail) ++ rest =
          (indentChars i d ++ leafContent k v) :: (encEntries i delim d tail ++ rest) := by
        simp [encEntries, encEntry_scalar i delim d k v hsv]
      rw [hlines] at hfu ⊢
      cases fuel with
      | zero => simp at hfu
      | succ f =>
        have hrecT := rt_entries strict i hi delim hdv tail d f rest hwt hndt
          (by simp only [List.length_cons] at hfu; omega) hr
        exact step_leaf strict i hi d f (leafContent k v) (leafContent_head k v) k
          (encScalarChars v) v (parseLineContent_leaf k v) (parseScalar_enc v hsv)
          _ rest tail hrecT hfresh
    · cases v with
      | null => exact absurd rfl hsv
      | bool b => exact absurd rfl hsv
      | num n => exact absurd rfl hsv
      | str s => exact absurd rfl hsv
      | obj sub =>
        obtain ⟨hndS, hwS⟩ := wfV_obj hwv
        have hlines : encEntries i delim d ((k, .obj sub) :: tail) ++ rest =
            (indentChars i d ++ objOpenContent k) ::
              (encEntries i delim (d + 1) sub ++ (encEntries i delim d tail ++ rest)) := by
          simp [encEntries, encEntry_obj i delim d k sub]
        rw [hlines] at hfu ⊢
        cases fuel with
        | zero => simp at hfu
        | succ f =>
          have hsub := rt_entries strict i hi delim hdv sub (d + 1) f
            (encEntries i delim d tail ++ rest) hwS hndS
            (by simp only [List.length_cons] at hfu; omega)
            (restLower_encEntries strict i hi delim (by omega) tail rest hr)
          have hrecT := rt_entries strict i hi delim hdv tail d f rest hwt hndt
            (by simp only [List.length_cons, List.length_append] at hfu ⊢; omega) hr
          exact step_objOpen strict i hi d f (objOpenContent k) (objOpenContent_head k) k
            (parseLineContent_objOpen k) _ _ rest sub tail hsub hrecT hfresh
      | arr es2 =>
        have hwL2 := wfV_arr hwv
        by_cases hsc : allScalars es2 = true
        · cases es2 with
          | nil =>
            have hlines : encEntries i delim d ((k, .arr []) :: tail) ++ rest =
                (indentChars i d ++ inlineContent delim (some k) []) ::
                  (encEntries i delim d tail ++ rest) := by
              simp [encEntries, encEntry_arr, arrBlock, allScalars, inlineLine_split]
            rw [hlines] at hfu ⊢
            cases fuel with
            | zero => simp at hfu
            | succ f =>
              have hrecT := rt_entries strict i hi delim hdv tail d f rest hwt hndt
                (by simp only [List.length_cons] at hfu; omega) hr
              have hstop := parseItems_stop strict i (d + 1) f
                (encEntries i delim d tail ++ rest)
                (restLower_encEntries strict i hi delim (by omega) tail rest hr)
              exact step_arrList strict i hi d f (inlineContent delim (some k) [])
                (inlineContent_head delim (some k) []) k 0
                (parseLineContent_inline_nil delim (some k)) [] _ _ rest tail hstop rfl
                hrecT hfresh
          | cons x xs =>
            have hlines : encEntries i delim d ((k, .arr (x :: xs)) :: tail) ++ rest =
                (indentChars i d ++ inlineContent delim (some k) (x :: xs)) ::
                  (encEntries i delim d tail ++ rest) := by
              simp [encEntries, encEntry_arr, arrBlock, hsc, inlineLine_split]
            rw [hlines] at hfu ⊢
            cases fuel with
            | zero => simp at hfu
            | succ f =>
              have hrecT := rt_entries strict i hi delim hdv tail d f rest hwt hndt
                (by simp only [List.length_cons] at hfu; omega) hr
              obtain ⟨hsplit, hps⟩ := inline_body_parse hdv (x :: xs) (by simp) hsc
              exact step_arrInline strict i hi d f (inlineContent delim (some k) (x :: xs))
                (inlineContent_head delim (some k) (x :: xs)) k (x :: xs).length
                (joinDelim delim ((x :: xs).map encScalarChars))
                (parseLineContent_inline delim (some k) (x :: xs) (by simp))
                ((x :: xs).map encScalarChars) (x :: xs) hsplit hps (by simp)
                _ rest tail hrecT hfresh
        · cases htc : tabularCols es2 with
          | some cols =>
            have hlines : encEntries i delim d ((k, .arr es2) :: tail) ++ rest =
                (indentChars i d ++ tabContent delim (some k) cols es2.length) ::
                  (encRows i delim (d + 1) es2 ++ (encEntries i delim d tail ++ rest)) := by
              simp [encEntries, encEntry_arr, arrBlock, hsc, htc, tabLine_split]
            rw [hlines] at hfu ⊢
            cases fuel with
            | zero => simp at hfu
            | succ f =>
              have hrows := parseRows_enc strict i hi hdv es2 cols (d + 1) f
                (encEntries i delim d tail ++ rest) (tabularCols_rowMatches htc)
                (fun w hw => wfL_mem hwL2 hw)
                (by simp only [List.length_cons, List.length_append, encRows,
                  List.length_map] at hfu; omega)
                (restLower_encEntries strict i hi delim (by omega) tail rest hr)
              have hrecT := rt_entries strict i hi delim hdv tail d f rest hwt hndt
                (by simp only [List.length_cons, List.length_append] at hfu ⊢; omega) hr
              exact step_arrTab strict i hi d f
                (tabContent delim (some k) cols es2.length)
                (tabContent_head delim (some k) cols es2.length) k es2.length cols
                (parseLineContent_tab hdv (some k) cols es2.length) es2 _ _ rest tail
                hrows rfl hrecT hfresh
          | none =>
            have hlines : encEntries i delim d ((k, .arr es2) :: tail) ++ rest =
                (indentChars i d ++ listContent (some k) es2.length) ::
                  (encItems i delim (d + 1) es2 ++ (encEntries i delim d tail ++ rest)) := by
              simp [encEntries, encEntry_arr, arrBlock, hsc, htc, listLine_split]
            rw [hlines] at hfu ⊢
            cases fuel with
            | zero => simp at hfu
            | succ f =>
              have hitems := rt_items strict i hi delim hdv es2 (d + 1) f
                (encEntries i delim d tail ++ rest) hwL2
                (by simp only [List.length_cons] at hfu; omega)
                (restLower_encEntries strict i hi delim (by omega) tail rest hr)
              have hrecT := rt_entries strict i hi delim hdv tail d f rest hwt hndt
                (by simp only [List.length_cons, List.length_append] at hfu ⊢; omega) hr
              exact step_arrList strict i hi d f (listContent (some k) es2.length)
                (listContent_head (some k) es2.length) k es2.length
                (parseLineContent_list (some k) es2.length) es2 _ _ rest tail hitems rfl
                hrecT hfresh
termination_by fuel
decreasing_by all_goals (simp_wf; omega)
/-- Items round trip: decoding the encoded item lines of a well-formed
list-form array body recovers the elements and leaves the trailing lines
untouched. -/
theorem rt_items (strict : Bool) (i : Nat) (hi : 1 ≤ i) (delim : Char)
    (hdv : delim ∈ validDelims) (vs : List Value) (d fuel : Nat)
    (rest : List (List Char)) (hwf : wfL vs = true)
    (hfu : (encItems i delim d vs ++ rest).length ≤ fuel)
    (hr : RestLower strict i d rest) :
    parseItems strict i d fuel (encItems i delim d vs ++ rest) = .ok (vs, rest) := by
  cases vs with
  | nil =>
    simp only [encItems, List.nil_append]
    exact parseItems_stop strict i d fuel rest hr
  | cons v tail =>
    obtain ⟨hwv, hwt⟩ := wfL_cons hwf
    by_cases hsv : isScalar v = true
    · have hlines : encItems i delim d (v :: tail) ++ rest =
          (indentChars i d ++ '-' :: ' ' :: encScalarChars v) ::
            (encItems i delim d tail ++ rest) := by
        simp [encItems_scalar i delim d v hsv]
      rw [hlines] at hfu ⊢
      cases fuel with
      | zero => simp at hfu
      | succ f =>
        have hrecT := rt_items strict i hi delim hdv tail d f rest hwt
          (by simp only [List.length_cons] at hfu; omega) hr
        exact istep_scalar strict i hi d f ('-' :: ' ' :: encScalarChars v) (by simp)
          (encScalarChars v) v (parseLineContent_itemScalar (encScalarChars v))
          (parseScalar_enc v hsv) _ rest tail hrecT
    · cases v with
      | null => exact absurd rfl hsv
      | bool b => exact absurd rfl hsv
      | num n => exact absurd rfl hsv
      | str s => exact absurd rfl hsv
      | obj e =>
        obtain ⟨hndE, hwE⟩ := wfV_obj hwv
        cases e with
        | nil =>
          have hlines : encItems i delim d (.obj [] :: tail) ++ rest =
              (indentChars i d ++ ['-']) :: (encItems i delim d tail ++ rest) := by
            simp [encItems, encEntries]
          rw [hlines] at hfu ⊢
          cases fuel with
          | zero => simp at hfu
          | succ f =>
            have hrecT := rt_items strict i hi delim hdv tail d f rest hwt
              (by simp only [List.length_cons] at hfu; omega) hr
            cases hLs : encItems i delim d tail ++ rest with
            | nil =>
              have htail : tail = [] := by
                cases tail with
                | nil => rfl
                | cons w ws =>
                  exact absurd (List.append_eq_nil.mp hLs).1 (encItems_ne_nil i delim d w ws)
              have hrest : rest = [] := (List.append_eq_nil.mp hLs).2
              rw [htail, hrest]
              exact istep_block_empty strict i hi d f
            | cons l2 ls2 =>
              have hd2 : ∃ dl2, depthOf strict i (lineIndent l2) = .ok dl2 ∧ dl2 ≤ d := by
                cases tail with
                | nil =>
                  rw [show encItems i delim d ([] : List Value) = [] from rfl,
                    List.nil_append] at hLs
                  rw [hLs] at hr
                  obtain ⟨dl, h1, h2⟩ := hr
                  exact ⟨dl, h1, by omega⟩
                | cons w ws =>
                  obtain ⟨c, t, he, hh⟩ := encItems_first i delim d w ws
                  rw [he] at hLs
                  simp only [List.cons_append, List.cons.injEq] at hLs
                  rw [← hLs.1, (lineIndent_enc i d c hh).1]
                  exact ⟨d, depthOf_enc strict i d hi, le_refl d⟩
              obtain ⟨dl2, hdl2, hle2⟩ := hd2
              rw [hLs] at hrecT
              exact istep_block_low strict i hi d f l2 ls2 rest dl2 hdl2 hle2 tail hrecT
        | cons e1 erest =>
          obtain ⟨k2, v2⟩ := e1
          obtain ⟨content2, t2, he2, hh2, _, hclass2⟩ := encEntry_first_class i hdv (d + 1) k2 v2
          have hL : encEntries i delim (d + 1) ((k2, v2) :: erest) ++
              (encItems i delim d tail ++ rest) =
              (indentChars i (d + 1) ++ content2) ::
                (t2 ++ (encEntries i delim (d + 1) erest ++
                  (encItems i delim d tail ++ rest))) := by
            simp [encEntries, he2]
          have hlines : encItems i delim d (.obj ((k2, v2) :: erest) :: tail) ++ rest =
              (indentChars i d ++ ['-']) ::
                ((indentChars i (d + 1) ++ content2) ::
                  (t2 ++ (encEntries i delim (d + 1) erest ++
                    (encItems i delim d tail ++ rest)))) := by
            simp [encItems, encEntries, he2]
          rw [hlines] at hfu ⊢
          cases fuel with
          | zero => simp at hfu
          | succ f =>
            have hsubE := rt_entries strict i hi delim hdv ((k2, v2) :: erest) (d + 1) f
              (encItems i delim d tail ++ rest) hwE hndE
              (by rw [hL]; simp only [List.length_cons] at hfu ⊢; omega)
              (restLower_encItems strict i hi delim (by omega) tail rest hr)
            rw [hL] at hsubE
            have hrecT := rt_items strict i hi delim hdv tail d f rest hwt
              (by simp only [List.length_cons, List.length_append] at hfu ⊢; omega) hr
            exact istep_block_entry strict i hi d f content2 hh2 k2 hclass2
              (t2 ++ (encEntries i delim (d + 1) erest ++ (encItems i delim d tail ++ rest)))
              (encItems i delim d tail ++ rest) rest ((k2, v2) :: erest) tail hsubE hrecT
      | arr es2 =>
        have hwL2 := wfV_arr hwv
        by_cases hsc : allScalars es2 = true
        · cases es2 with
          | nil =>
            have hlines : encItems i delim d (.arr [] :: tail) ++ rest =
                (indentChars i d ++ ['-']) ::
                  ((indentChars i (d + 1) ++ inlineContent delim none []) ::
                    (encItems i delim d tail ++ rest)) := by
              simp [encItems, arrBlock, allScalars, inlineLine_split]
            rw [hlines] at hfu ⊢
            cases fuel with
            | zero => simp at hfu
            | succ f =>
              have hrecT := rt_items strict i hi delim hdv tail d f rest hwt
                (by simp only [List.length_cons] at hfu; omega) hr
              have hstop := parseItems_stop strict i (d + 2) f
                (encItems i delim d tail ++ rest)
                (restLower_encItems strict i hi delim (by omega) tail rest hr)
              exact istep_block_list strict i hi d f (inlineContent delim none [])
                (inlineContent_head delim none []) 0 (parseLineContent_inline_nil delim none)
                [] (encItems i delim d tail ++ rest) _ rest tail hstop rfl hrecT
          | cons x xs =>
            have hlines : encItems i delim d (.arr (x :: xs) :: tail) ++ rest =
                (indentChars i d ++ ['-']) ::
                  ((indentChars i (d + 1) ++ inlineContent delim none (x :: xs)) ::
                    (encItems i delim d tail ++ rest)) := by
              simp [encItems, arrBlock, hsc, inlineLine_split]
            rw [hlines] at hfu ⊢
            cases fuel with
            | zero => simp at hfu
            | succ f =>
              have hrecT := rt_items strict i hi delim hdv tail d f rest hwt
                (by simp only [List.length_cons] at hfu; omega) hr
              obtain ⟨hsplit, hps⟩ := inline_body_parse hdv (x :: xs) (by simp) hsc
              exact istep_block_inline strict i hi d f (inlineContent delim none (x :: xs))
                (inlineContent_head delim none (x :: xs)) (x :: xs).length
                (joinDelim delim ((x :: xs).map encScalarChars))
                (parseLineContent_inline delim none (x :: xs) (by simp))
                ((x :: xs).map encScalarChars) (x :: xs) hsplit hps (by simp)
                (encItems i delim d tail ++ rest) rest tail hrecT
        · cases htc : tabularCols es2 with
          | some cols =>
            have hlines : encItems i delim d (.arr es2 :: tail) ++ rest =
                (indentChars i d ++ ['-']) ::
                  ((indentChars i (d + 1) ++ tabContent delim none cols es2.length) ::
                    (encRows i delim (d + 2) es2 ++ (encItems i delim d tail ++ rest))) := by
              simp [encItems, arrBlock, hsc, htc, tabLine_split]
            rw [hlines] at hfu ⊢
            cases fuel with
            | zero => simp at hfu
            | succ f =>
              have hrows := parseRows_enc strict i hi hdv es2 cols (d + 2) f
                (encItems i delim d tail ++ rest) (tabularCols_rowMatches htc)
                (fun w hw => wfL_mem hwL2 hw)
                (by simp only [List.length_cons, List.length_append, encRows,
                  List.length_map] at hfu; omega)
                (restLower_encItems strict i hi delim (by omega) tail rest hr)
              have hrecT := rt_items strict i hi delim hdv tail d f rest hwt
                (by simp only [List.length_cons, List.length_append] at hfu ⊢; omega) hr
              exact istep_block_tab strict i hi d f (tabContent delim none cols es2.length)
                (tabContent_head delim none cols es2.length) es2.length cols
                (parseLineContent_tab hdv none cols es2.length) es2 _ _ rest tail hrows rfl
                hrecT
          | none =>
            have hlines : encItems i delim d (.arr es2 :: tail) ++ rest =
                (indentChars i d ++ ['-']) ::
                  ((indentChars i (d + 1) ++ listContent none es2.length) ::
                    (encItems i delim (d + 2) es2 ++ (encItems i delim d tail ++ rest))) := by
              simp [encItems, arrBlock, hsc, htc, listLine_split]
            rw [hlines] at hfu ⊢
            cases fuel with
            | zero => simp at hfu
            | succ f =>
              have hsubI := rt_items strict i hi delim hdv es2 (d + 2) f
                (encItems i delim d tail ++ rest) hwL2
                (by simp only [List.length_cons] at hfu; omega)
                (restLower_encItems strict i hi delim (by omega) tail rest hr)
              have hrecT := rt_items strict i hi delim hdv tail d f rest hwt
                (by simp only [List.length_cons, List.length_append] at hfu ⊢; omega) hr
              exact istep_block_list strict i hi d f (listContent none es2.length)
                (listContent_head none es2.length) es2.length
                (parseLineContent_list none es2.length) es2 _ _ rest tail hsubI rfl hrecT
termination_by fuel
decreasing_by all_goals (simp_wf; omega)
end
/-! ### No newline ever appears inside an encoded line -/

theorem nlFree_escChar (c : Char) : ('\n' : Char) ∉ escChar c := by
  by_cases h1 : c = '"'
  · simp [escChar, h1]
  by_cases h2 : c = '\\'
  · simp [escChar, h1, h2]
  by_cases h3 : c = '\n'
  · simp [escChar, h1, h2, h3]
  by_cases h4 : c = '\t'
  · simp [escChar, h1, h2, h3, h4]
  by_cases h5 : c = '\r'
  · simp [escChar, h1, h2, h3, h4, h5]
  · simp [escChar, h1, h2, h3, h4, h5]
    exact fun hh => h3 hh.symm

theorem nlFree_escChars : ∀ (cs : List Char), ('\n' : Char) ∉ escChars cs := by
  intro cs
  induction cs with
  | nil => simp [escChars]
  | cons c cs ih =>
    simp only [escChars, List.mem_append]
    rintro (h | h)
    · exact nlFree_escChar c h
    · exact ih h

theorem nlFree_natChars (n : Nat) : ('\n' : Char) ∉ natChars n := by
  intro h
  have hd := natChars_all_digits n _ h
  simp [isDigit] at hd

theorem nlFree_intChars (n : Int) : ('\n' : Char) ∉ intChars n := by
  rw [intChars]
  by_cases h : n < 0
  · simp only [if_pos h, List.mem_cons]
    rintro (h1 | h1)
    · simp at h1
    · exact nlFree_natChars _ h1
  · simp only [if_neg h]
    exact nlFree_natChars _

theorem nlFree_encScalarChars (v : Value) : ('\n' : Char) ∉ encScalarChars v := by
  cases v with
  | null => decide
  | bool b => cases b <;> decide
  | num n => exact nlFree_intChars n
  | str s =>
    rw [encScalarChars]
    by_cases h : bareScalarSafe s.data = true
    · rw [if_pos h]
      intro hm
      simp only [bareScalarSafe, Bool.and_eq_true] at h
      have := List.all_eq_true.mp h.1.1.1.1.1.1.2 _ hm
      simp at this
    · rw [if_neg h]
      simp only [quoteChars, List.mem_cons, List.mem_append, List.mem_singleton]
      rintro (h1 | h1 | h1) <;> first
        | simp at h1
        | exact nlFree_escChars _ h1
  | arr es => simp [encScalarChars]
  | obj es => simp [encScalarChars]

theorem nlFree_encKeyChars (k : String) : ('\n' : Char) ∉ encKeyChars k := by
  rw [encKeyChars]
  by_cases h : bareKeySafe k.data = true
  · rw [if_pos h]
    intro hm
    simp only [bareKeySafe, Bool.and_eq_true] at h
    have := List.all_eq_true.mp h.1.1.1.2 _ hm
    simp at this
  · rw [if_neg h]
    simp only [quoteChars, List.mem_cons, List.mem_append, List.mem_singleton]
    rintro (h1 | h1 | h1) <;> first
      | simp at h1
      | exact nlFree_escChars _ h1

theorem nlFree_keyPart (k : Option String) : ('\n' : Char) ∉ keyPart k := by
  cases k with
  | none => simp [keyPart]
  | some k => exact nlFree_encKeyChars k

theorem nlFree_indentChars (i d : Nat) : ('\n' : Char) ∉ indentChars i d := by
  rw [indentChars]
  intro h
  have := List.eq_of_mem_replicate h
  simp at this

theorem nlFree_joinDelim {delim : Char} (hdv : delim ∈ validDelims) :
    ∀ (ts : List (List Char)), (∀ t ∈ ts, ('\n' : Char) ∉ t) →
    ('\n' : Char) ∉ joinDelim delim ts := by
  have hdn : delim ≠ '\n' := by
    have hd2 := hdv
    simp only [validDelims, List.mem_cons, List.mem_singleton, List.not_mem_nil,
      or_false] at hd2
    rcases hd2 with h | h | h <;> (rw [h]; decide)
  intro ts
  induction ts with
  | nil => intro _; simp [joinDelim]
  | cons t ts ih =>
    intro hall
    cases ts with
    | nil => simpa [joinDelim] using hall t (by simp)
    | cons t2 ts2 =>
      have hrest : ('\n' : Char) ∉ joinDelim delim (t2 :: ts2) :=
        ih (fun u hu => hall u (by simp [hu]))
      have hje : joinDelim delim (t :: t2 :: ts2) =
          t ++ delim :: joinDelim delim (t2 :: ts2) := rfl
      rw [hje]
      simp only [List.mem_append, List.mem_cons]
      rintro (h | h | h)
      · exact hall t (by simp) h
      · exact hdn h.symm
      · exact hrest h

theorem nlFree_leafContent (k : String) (v : Value) :
    ('\n' : Char) ∉ leafContent k v := by
  simp only [leafContent, List.mem_append, List.mem_cons]
  rintro (h | h | h | h)
  · exact nlFree_encKeyChars k h
  · simp at h
  · simp at h
  · exact nlFree_encScalarChars v h

theorem nlFree_objOpenContent (k : String) : ('\n' : Char) ∉ objOpenContent k := by
  simp only [objOpenContent, List.mem_append, List.mem_singleton]
  rintro (h | h)
  · exact nlFree_encKeyChars k h
  · simp at h

theorem nlFree_inlineContent {delim : Char} (hdv : delim ∈ validDelims) (k : Option String)
    (es : List Value) : ('\n' : Char) ∉ inlineContent delim k es := by
  simp only [inlineContent, List.mem_append, List.mem_cons]
  rintro ((h | h | h) | h | h | h)
  · exact nlFree_keyPart k h
  · simp at h
  · exact nlFree_natChars _ h
  · simp at h
  · simp at h
  · by_cases he : es.isEmpty = true
    · rw [if_pos he] at h; simp at h
    · rw [if_neg he] at h
      simp only [List.mem_cons] at h
      rcases h with h | h
      · simp at h
      · refine nlFree_joinDelim hdv _ ?_ h
        intro t ht
        obtain ⟨w, _, hw⟩ := List.mem_map.mp ht
        rw [← hw]
        exact nlFree_encScalarChars w

theorem nlFree_tabContent {delim : Char} (hdv : delim ∈ validDelims) (k : Option String)
    (cols : List String) (n : Nat) : ('\n' : Char) ∉ tabContent delim k cols n := by
  simp only [tabContent, List.mem_append, List.mem_cons]
  rintro (((h | h | h) | h | h | h) | h)
  · exact nlFree_keyPart k h
  · simp at h
  · exact nlFree_natChars _ h
  · simp at h
  · simp at h
  · refine nlFree_joinDelim hdv _ ?_ h
    intro t ht
    obtain ⟨w, _, hw⟩ := List.mem_map.mp ht
    rw [← hw]
    exact nlFree_encKeyChars w
  · simp at h

theorem nlFree_listContent (k : Option String) (n : Nat) :
    ('\n' : Char) ∉ listContent k n := by
  simp only [listContent, List.mem_append, List.mem_cons]
  rintro ((h | h | h) | h)
  · exact nlFree_keyPart k h
  · simp at h
  · exact nlFree_natChars _ h
  · simp at h

theorem nlFree_rowContent {delim : Char} (hdv : delim ∈ validDelims)
    (e : List (String × Value)) : ('\n' : Char) ∉ rowContent delim e := by
  refine nlFree_joinDelim hdv _ ?_
  intro t ht
  obtain ⟨w, _, hw⟩ := List.mem_map.mp ht
  rw [← hw]
  exact nlFree_encScalarChars w

theorem nlFree_encRows {delim : Char} (hdv : delim ∈ validDelims) (i d : Nat)
    (es : List Value) : ∀ l ∈ encRows i delim d es, ('\n' : Char) ∉ l := by
  intro l hl
  obtain ⟨w, _, hw⟩ := List.mem_map.mp hl
  rw [← hw]
  cases w with
  | obj e =>
    simp only [encRow, List.mem_append]
    rintro (h | h)
    · exact nlFree_indentChars i d h
    · exact nlFree_rowContent hdv e h
  | null => exact nlFree_indentChars i d
  | bool b => exact nlFree_indentChars i d
  | num n => exact nlFree_indentChars i d
  | str s => exact nlFree_indentChars i d
  | arr xs => exact nlFree_indentChars i d

theorem nlFree_arrBlock {delim : Char} (hdv : delim ∈ validDelims) (i d : Nat)
    (k : Option String) (es : List Value) (itemLines : List (List Char))
    (hit : ∀ l ∈ itemLines, ('\n' : Char) ∉ l) :
    ∀ l ∈ arrBlock i delim d k es itemLines, ('\n' : Char) ∉ l := by
  intro l hl
  rw [arrBlock] at hl
  by_cases hsc : allScalars es = true
  · rw [if_pos hsc] at hl
    simp only [List.mem_singleton] at hl
    rw [hl, inlineLine_split]
    simp only [List.mem_append]
    rintro (h | h)
    · exact nlFree_indentChars i d h
    · exact nlFree_inlineContent hdv k es h
  · rw [if_neg hsc] at hl
    cases htc : tabularCols es with
    | some cols =>
      rw [htc] at hl
      simp only [List.mem_cons] at hl
      rcases hl with hl | hl
      · rw [hl, tabLine_split]
        simp only [List.mem_append]
        rintro (h | h)
        · exact nlFree_indentChars i d h
        · exact nlFree_tabContent hdv k cols es.length h
      · exact nlFree_encRows hdv i (d + 1) es l hl
    | none =>
      rw [htc] at hl
      simp only [List.mem_cons] at hl
      rcases hl with hl | hl
      · rw [hl, listLine_split]
        simp only [List.mem_append]
        rintro (h | h)
        · exact nlFree_indentChars i d h
        · exact nlFree_listContent k es.length h
      · exact hit l hl
theorem nlFree_scalarLine (i d : Nat) (v : Value) :
    ('\n' : Char) ∉ indentChars i d ++ encScalarChars v := by
  simp only [List.mem_append]
  rintro (h | h)
  · exact nlFree_indentChars i d h
  · exact nlFree_encScalarChars v h

theorem nlFree_leafLine (i d : Nat) (k : String) (v : Value) :
    ('\n' : Char) ∉ indentChars i d ++ encKeyChars k ++ ':' :: ' ' :: encScalarChars v := by
  intro h
  rcases List.mem_append.mp h with h1 | h1
  · rcases List.mem_append.mp h1 with h2 | h2
    · exact nlFree_indentChars i d h2
    · exact nlFree_encKeyChars k h2
  · rcases List.mem_cons.mp h1 with h2 | h1
    · exact absurd h2 (by decide)
    · rcases List.mem_cons.mp h1 with h2 | h1
      · exact absurd h2 (by decide)
      · exact nlFree_encScalarChars v h1

theorem nlFree_itemScalarLine (i d : Nat) (v : Value) :
    ('\n' : Char) ∉ indentChars i d ++ '-' :: ' ' :: encScalarChars v := by
  intro h
  rcases List.mem_append.mp h with h1 | h1
  · exact nlFree_indentChars i d h1
  · rcases List.mem_cons.mp h1 with h2 | h1
    · exact absurd h2 (by decide)
    · rcases List.mem_cons.mp h1 with h2 | h1
      · exact absurd h2 (by decide)
      · exact nlFree_encScalarChars v h1

theorem nlFree_dashLine (i d : Nat) : ('\n' : Char) ∉ indentChars i d ++ ['-'] := by
  intro h
  rcases List.mem_append.mp h with h1 | h1
  · exact nlFree_indentChars i d h1
  · rcases List.mem_cons.mp h1 with h2 | h2
    · exact absurd h2 (by decide)
    · simp at h2

theorem nlFree_objOpenLine (i d : Nat) (k : String) :
    ('\n' : Char) ∉ indentChars i d ++ encKeyChars k ++ [':'] := by
  intro h
  rcases List.mem_append.mp h with h1 | h1
  · rcases List.mem_append.mp h1 with h2 | h2
    · exact nlFree_indentChars i d h2
    · exact nlFree_encKeyChars k h2
  · rcases List.mem_cons.mp h1 with h2 | h2
    · exact absurd h2 (by decide)
    · simp at h2

mutual
/-- No encoder line contains a newline. -/
theorem nlFree_encVal {delim : Char} (hdv : delim ∈ validDelims) (i d : Nat) (v : Value) :
    ∀ l ∈ encVal i delim d v, ('\n' : Char) ∉ l := by
  cases v with
  | arr es =>
    exact nlFree_arrBlock hdv i d none es (encItems i delim (d + 1) es)
      (nlFree_encItems hdv i (d + 1) es)
  | obj es => exact nlFree_encEntries hdv i d es
  | null =>
    intro l hl
    simp only [encVal, List.mem_singleton] at hl
    rw [hl]
    exact nlFree_scalarLine i d _
  | bool b =>
    intro l hl
    simp only [encVal, List.mem_singleton] at hl
    rw [hl]
    exact nlFree_scalarLine i d _
  | num n =>
    intro l hl
    simp only [encVal, List.mem_singleton] at hl
    rw [hl]
    exact nlFree_scalarLine i d _
  | str s =>
    intro l hl
    simp only [encVal, List.mem_singleton] at hl
    rw [hl]
    exact nlFree_scalarLine i d _
/-- No entry-block line contains a newline. -/
theorem nlFree_encEntries {delim : Char} (hdv : delim ∈ validDelims) (i d : Nat)
    (es : List (String × Value)) : ∀ l ∈ encEntries i delim d es, ('\n' : Char) ∉ l := by
  cases es with
  | nil => intro l hl; simp [encEntries] at hl
  | cons e tail =>
    obtain ⟨k, v⟩ := e
    intro l hl
    simp only [encEntries, List.mem_append] at hl
    rcases hl with h | h
    · exact nlFree_encEntry hdv i d k v l h
    · exact nlFree_encEntries hdv i d tail l h
/-- No single-entry line contains a newline. -/
theorem nlFree_encEntry {delim : Char} (hdv : delim ∈ validDelims) (i d : Nat) (k : String)
    (v : Value) : ∀ l ∈ encEntry i delim d k v, ('\n' : Char) ∉ l := by
  cases v with
  | obj sub =>
    intro l hl
    simp only [encEntry, List.mem_cons] at hl
    rcases hl with hl | hl
    · rw [hl]
      exact nlFree_objOpenLine i d k
    · exact nlFree_encEntries hdv i (d + 1) sub l hl
  | arr es =>
    rw [encEntry_arr]
    exact nlFree_arrBlock hdv i d (some k) es (encItems i delim (d + 1) es)
      (nlFree_encItems hdv i (d + 1) es)
  | null =>
    intro l hl
    simp only [encEntry, List.mem_singleton] at hl
    rw [hl]
    exact nlFree_leafLine i d k _
  | bool b =>
    intro l hl
    simp only [encEntry, List.mem_singleton] at hl
    rw [hl]
    exact nlFree_leafLine i d k _
  | num n =>
    intro l hl
    simp only [encEntry, List.mem_singleton] at hl
    rw [hl]
    exact nlFree_leafLine i d k _
  | str s =>
    intro l hl
    simp only [encEntry, List.mem_singleton] at hl
    rw [hl]
    exact nlFree_leafLine i d k _
/-- No item-block line contains a newline. -/
theorem nlFree_encItems {delim : Char} (hdv : delim ∈ validDelims) (i d : Nat)
    (vs : List Value) : ∀ l ∈ encItems i delim d vs, ('\n' : Char) ∉ l := by
  cases vs with
  | nil => intro l hl; simp [encItems] at hl
  | cons v tail =>
    cases v with
    | obj e =>
      intro l hl
      simp only [encItems, List.append_assoc, List.cons_append, List.mem_cons,
        List.mem_append] at hl
      rcases hl with hl | hl | hl
      · rw [hl]
        exact nlFree_dashLine i d
      · exact nlFree_encEntries hdv i (d + 1) e l hl
      · exact nlFree_encItems hdv i d tail l hl
    | arr e =>
      intro l hl
      simp only [encItems, List.append_assoc, List.cons_append, List.mem_cons,
        List.mem_append] at hl
      rcases hl with hl | hl | hl
      · rw [hl]
        exact nlFree_dashLine i d
      · exact nlFree_arrBlock hdv i (d + 1) none e (encItems i delim (d + 2) e)
          (nlFree_encItems hdv i (d + 2) e) l hl
      · exact nlFree_encItems hdv i d tail l hl
    | null =>
      intro l hl
      simp only [encItems, List.mem_cons] at hl
      rcases hl with hl | hl
      · rw [hl]
        exact nlFree_itemScalarLine i d _
      · exact nlFree_encItems hdv i d tail l hl
    | bool b =>
      intro l hl
      simp only [encItems, List.mem_cons] at hl
      rcases hl with hl | hl
      · rw [hl]
        exact nlFree_itemScalarLine i d _
      · exact nlFree_encItems hdv i d tail l hl
    | num n =>
      intro l hl
      simp only [encItems, List.mem_cons] at hl
      rcases hl with hl | hl
      · rw [hl]
        exact nlFree_itemScalarLine i d _
      · exact nlFree_encItems hdv i d tail l hl
    | str s =>
      intro l hl
      simp only [encItems, List.mem_cons] at hl
      rcases hl with hl | hl
      · rw [hl]
        exact nlFree_itemScalarLine i d _
      · exact nlFree_encItems hdv i d tail l hl
end
/-! ### A colon-free line never classifies as a keyed or array form -/

theorem spanDigits_mem : ∀ (cs ds rest : List Char), spanDigits cs = (ds, rest) →
    ∀ c ∈ rest, c ∈ cs := by
  intro cs
  induction cs with
  | nil =>
    intro ds rest h c hc
    simp only [spanDigits, Prod.mk.injEq] at h
    rw [← h.2] at hc
    simp at hc
  | cons x xs ih =>
    intro ds rest h c hc
    simp only [spanDigits] at h
    by_cases hd : isDigit x = true
    · rw [if_pos hd] at h
      cases hsp : spanDigits xs with
      | mk ds2 rest2 =>
        rw [hsp] at h
        simp only [Prod.mk.injEq] at h
        exact List.mem_cons_of_mem x (ih ds2 rest2 hsp c (h.2 ▸ hc))
    · rw [if_neg hd] at h
      simp only [Prod.mk.injEq] at h
      rw [← h.2] at hc
      exact hc

mutual
/-- The remainder returned by the brace scanner is drawn from its input. -/
theorem scanCols_mem : ∀ (cs raw rest3 : List Char), scanCols cs = .ok (raw, rest3) →
    ∀ c ∈ rest3, c ∈ cs := by
  intro cs
  match cs with
  | [] => intro raw rest3 h; simp [scanCols] at h
  | x :: xs =>
    intro raw rest3 h c hc
    simp only [scanCols] at h
    by_cases h1 : x = '}'
    · rw [if_pos h1] at h
      simp only [Except.ok.injEq, Prod.mk.injEq] at h
      exact List.mem_cons_of_mem x (h.2 ▸ hc)
    · rw [if_neg h1] at h
      by_cases h2 : x = '"'
      · rw [if_pos h2] at h
        cases hq : scanColsQ xs with
        | error e => rw [hq] at h; simp [Except.map] at h
        | ok p =>
          rw [hq] at h
          simp only [Except.map, Except.ok.injEq, Prod.mk.injEq] at h
          exact List.mem_cons_of_mem x (scanColsQ_mem xs p.1 p.2 (by rw [hq]) c (h.2 ▸ hc))
      · rw [if_neg h2] at h
        cases hq : scanCols xs with
        | error e => rw [hq] at h; simp [Except.map] at h
        | ok p =>
          rw [hq] at h
          simp only [Except.map, Except.ok.injEq, Prod.mk.injEq] at h
          exact List.mem_cons_of_mem x (scanCols_mem xs p.1 p.2 (by rw [hq]) c (h.2 ▸ hc))
/-- The remainder returned by the quoted-column scanner is drawn from its
input. -/
theorem scanColsQ_mem : ∀ (cs raw rest3 : List Char), scanColsQ cs = .ok (raw, rest3) →
    ∀ c ∈ rest3, c ∈ cs := by
  intro cs
  match cs with
  | [] => intro raw rest3 h; simp [scanColsQ] at h
  | [x] =>
    intro raw rest3 h
    by_cases h1 : x = '"' <;> simp [scanColsQ, h1] at h
  | x :: e :: rest =>
    intro raw rest3 h c hc
    simp only [scanColsQ] at h
    by_cases h1 : x = '"'
    · rw [if_pos h1] at h
      cases hq : scanCols (e :: rest) with
      | error er => rw [hq] at h; simp [Except.map] at h
      | ok p =>
        rw [hq] at h
        simp only [Except.map, Except.ok.injEq, Prod.mk.injEq] at h
        exact List.mem_cons_of_mem x (scanCols_mem (e :: rest) p.1 p.2 (by rw [hq]) c
          (h.2 ▸ hc))
    · rw [if_neg h1] at h
      by_cases h2 : x = '\\'
      · rw [if_pos h2] at h
        cases hq : scanColsQ rest with
        | error er => rw [hq] at h; simp [Except.map] at h
        | ok p =>
          rw [hq] at h
          simp only [Except.map, Except.ok.injEq, Prod.mk.injEq] at h
          have := scanColsQ_mem rest p.1 p.2 (by rw [hq]) c (h.2 ▸ hc)
          exact List.mem_cons_of_mem x (List.mem_cons_of_mem e this)
      · rw [if_neg h2] at h
        cases hq : scanColsQ (e :: rest) with
        | error er => rw [hq] at h; simp [Except.map] at h
        | ok p =>
          rw [hq] at h
          simp only [Except.map, Except.ok.injEq, Prod.mk.injEq] at h
          exact List.mem_cons_of_mem x (scanColsQ_mem (e :: rest) p.1 p.2 (by rw [hq]) c
            (h.2 ▸ hc))
end

theorem parseAfterBracket_nocolon (k : Option String) (n : Nat) :
    ∀ (cs : List Char), (':' : Char) ∉ cs → ∃ e, parseAfterBracket k n cs = .error e := by
  intro cs hc
  match cs with
  | [] => exact ⟨.unexpectedToken, rfl⟩
  | [c] =>
    have h1 : ¬ c = ':' := fun h => hc (by rw [← h]; simp)
    exact ⟨.unexpectedToken, by simp [parseAfterBracket, h1]⟩
  | c :: c2 :: rest =>
    have h1 : ¬ c = ':' := fun h => hc (by rw [← h]; simp)
    by_cases h2 : c = '{'
    · cases hsc : scanCols (c2 :: rest) with
      | error e => exact ⟨e, by simp [parseAfterBracket, h1, h2, hsc]⟩
      | ok p =>
        have h3 : ¬ p.2 = [':'] := by
          intro hh
          have : (':' : Char) ∈ p.2 := by rw [hh]; simp
          have := scanCols_mem (c2 :: rest) p.1 p.2 (by rw [hsc]) ':' this
          exact hc (List.mem_cons_of_mem c this)
        exact ⟨.unexpectedToken, by
          obtain ⟨raw, rest3⟩ := p
          simp only at h3
          simp [parseAfterBracket, h1, h2, hsc, h3]⟩
    · exact ⟨.unexpectedToken, by simp [parseAfterBracket, h1, h2]⟩

theorem parseArrHead_nocolon (k : Option String) (cs : List Char)
    (hc : (':' : Char) ∉ cs) : ∃ e, parseArrHead k cs = .error e := by
  cases hsp : spanDigits cs with
  | mk ds rest =>
    by_cases hde : ds.isEmpty = true
    · exact ⟨.unexpectedToken, by simp [parseArrHead, hsp, hde]⟩
    · cases rest with
      | nil => exact ⟨.unexpectedToken, by simp [parseArrHead, hsp, hde]⟩
      | cons r rt =>
        by_cases hr : r = ']'
        · have hc2 : (':' : Char) ∉ rt := fun hm =>
            hc (spanDigits_mem cs ds (r :: rt) hsp ':' (List.mem_cons_of_mem r hm))
          obtain ⟨e, he⟩ := parseAfterBracket_nocolon k (parseNat ds) rt hc2
          exact ⟨e, by simp [parseArrHead, hsp, hde, hr, he]⟩
        · exact ⟨.unexpectedToken, by simp [parseArrHead, hsp, hde, hr]⟩

theorem parseAfterKey_nocolon (k : String) : ∀ (cs : List Char), (':' : Char) ∉ cs →
    ∃ e, parseAfterKey k cs = .error e := by
  intro cs hc
  match cs with
  | [] => exact ⟨.unexpectedToken, rfl⟩
  | [c] =>
    have h1 : ¬ c = ':' := fun h => hc (by rw [← h]; simp)
    exact ⟨.unexpectedToken, by simp [parseAfterKey, h1]⟩
  | c :: c2 :: rest =>
    have h1 : ¬ c = ':' := fun h => hc (by rw [← h]; simp)
    by_cases h2 : c = '['
    · have hc2 : (':' : Char) ∉ c2 :: rest := fun hm => hc (List.mem_cons_of_mem c hm)
      obtain ⟨e, he⟩ := parseArrHead_nocolon (some k) (c2 :: rest) hc2
      exact ⟨e, by simp [parseAfterKey, h1, h2, he]⟩
    · exact ⟨.unexpectedToken, by simp [parseAfterKey, h1, h2]⟩

theorem mem_dropWhile (p : Char → Bool) : ∀ (l : List Char) (c : Char),
    c ∈ l.dropWhile p → c ∈ l := by
  intro l
  induction l with
  | nil => intro c hc; simp at hc
  | cons x xs ih =>
    intro c hc
    by_cases hp : p x = true
    · rw [List.dropWhile_cons, if_pos hp] at hc
      exact List.mem_cons_of_mem x (ih c hc)
    · rw [List.dropWhile_cons, if_neg hp] at hc
      exact hc

theorem bareKeyLine_nocolon (cs : List Char) (hc : (':' : Char) ∉ cs) :
    ∃ e, bareKeyLine cs = .error e := by
  by_cases hke : (cs.takeWhile notKeyStop).isEmpty = true
  · exact ⟨.unexpectedToken, by simp [bareKeyLine, hke]⟩
  · have hc2 : (':' : Char) ∉ cs.dropWhile notKeyStop := fun hm =>
      hc (mem_dropWhile notKeyStop cs ':' hm)
    obtain ⟨e, he⟩ := parseAfterKey_nocolon (String.mk (cs.takeWhile notKeyStop))
      (cs.dropWhile notKeyStop) hc2
    exact ⟨e, by simp [bareKeyLine, hke, he]⟩

theorem parseLineContent_nocolon : ∀ (cs : List Char), cs ≠ [] → (':' : Char) ∉ cs →
    cs.head? ≠ some '"' →
    (∃ e, parseLineContent cs = .error e) ∨ parseLineContent cs = .ok .itemBlock ∨
      ∃ sc, parseLineContent cs = .ok (.itemScalar sc) := by
  intro cs hne hc hq
  match cs with
  | [c] =>
    by_cases h1 : c = '-'
    · exact Or.inr (Or.inl (by simp [parseLineContent, h1]))
    by_cases h2 : c = '['
    · exact Or.inl ⟨.unexpectedToken, by simp [parseLineContent, h1, h2]⟩
    have h3 : ¬ c = '"' := fun h => hq (by rw [h]; rfl)
    obtain ⟨e, he⟩ := bareKeyLine_nocolon [c] hc
    exact Or.inl ⟨e, by simp [parseLineContent, h1, h2, h3, he]⟩
  | c :: c2 :: rest =>
    by_cases h1 : c = '-'
    · by_cases h1b : c2 = ' '
      · exact Or.inr (Or.inr ⟨rest, by simp [parseLineContent, h1, h1b]⟩)
      · obtain ⟨e, he⟩ := bareKeyLine_nocolon (c :: c2 :: rest) hc
        rw [h1] at he
        exact Or.inl ⟨e, by simp [parseLineContent, h1, h1b, he]⟩
    by_cases h2 : c = '['
    · have hc2 : (':' : Char) ∉ c2 :: rest := fun hm => hc (List.mem_cons_of_mem c hm)
      obtain ⟨e, he⟩ := parseArrHead_nocolon none (c2 :: rest) hc2
      exact Or.inl ⟨e, by simp [parseLineContent, h1, h2, he]⟩
    have h3 : ¬ c = '"' := fun h => hq (by rw [h]; rfl)
    obtain ⟨e, he⟩ := bareKeyLine_nocolon (c :: c2 :: rest) hc
    exact Or.inl ⟨e, by simp [parseLineContent, h1, h2, h3, he]⟩
theorem nocolon_intChars (n : Int) : (':' : Char) ∉ intChars n := by
  rw [intChars]
  by_cases h : n < 0
  · simp only [if_pos h, List.mem_cons]
    rintro (h1 | h1)
    · simp at h1
    · have := natChars_all_digits _ _ h1
      simp [isDigit] at this
  · simp only [if_neg h]
    intro h1
    have := natChars_all_digits _ _ h1
    simp [isDigit] at this

theorem intChars_ne_nil (n : Int) : intChars n ≠ [] := by
  obtain ⟨c, rest, hc, _⟩ := intChars_head n
  rw [hc]
  simp

/-- The serialized token of a scalar value either fails line classification
or classifies as an item form; the root decoder then falls back to the
scalar parse. -/
theorem scalar_line_fallback (v : Value) (hv : isScalar v = true) :
    (∃ e, parseLineContent (encScalarChars v) = .error e) ∨
      parseLineContent (encScalarChars v) = .ok .itemBlock ∨
      ∃ sc, parseLineContent (encScalarChars v) = .ok (.itemScalar sc) := by
  cases v with
  | null => exact Or.inl ⟨.unexpectedToken, rfl⟩
  | bool b => cases b <;> exact Or.inl ⟨.unexpectedToken, rfl⟩
  | num n =>
    refine parseLineContent_nocolon (intChars n) (intChars_ne_nil n) (nocolon_intChars n) ?_
    exact (intChars_ne_lits n).2.2.2
  | str s =>
    rw [encScalarChars]
    by_cases hb : bareScalarSafe s.data = true
    · rw [if_pos hb]
      have h' := hb
      simp only [bareScalarSafe, Bool.and_eq_true] at h'
      have hne : s.data ≠ [] := by
        have := h'.1.1.1.1.1.1.1.1
        simpa [List.isEmpty_iff] using this
      have hcol : (':' : Char) ∉ s.data := by
        intro hm
        have := List.all_eq_true.mp h'.1.1.1.1.1.1.2 _ hm
        simp at this
      have hhq : s.data.head? ≠ some '"' := by
        have := h'.1.1.1.1.1.1.1.2
        simpa using this
      exact parseLineContent_nocolon s.data hne hcol hhq
    · rw [if_neg hb]
      cases hsd : escChars s.data ++ ['"'] with
      | nil => simp at hsd
      | cons c2 r2 =>
        have hq : parseQuotedBody (c2 :: r2) = .ok (s.data, []) := by
          rw [← hsd]
          exact parseQuotedBody_esc s.data []
        refine Or.inl ⟨.unexpectedToken, ?_⟩
        have hqc : quoteChars s.data = '"' :: c2 :: r2 := by rw [quoteChars, hsd]
        rw [hqc]
        simp [parseLineContent, hq, parseAfterKey]
  | arr es => simp [isScalar] at hv
  | obj es => simp [isScalar] at hv

/-- Root decode of a single encoded scalar line. -/
theorem decodeLines_scalar (strict : Bool) (i : Nat) (hi : 1 ≤ i) (v : Value)
    (hv : isScalar v = true) :
    decodeLines strict i [indentChars i 0 ++ encScalarChars v] = .ok v := by
  have hh := encScalarChars_head v hv
  have hl := lineIndent_enc i 0 (encScalarChars v) hh
  simp only [decodeLines]
  rw [hl.1, depthOf_enc strict i 0 hi, hl.2]
  simp only [ne_self_iff_false, if_false]
  rcases scalar_line_fallback v hv with ⟨e, hpc⟩ | hpc | ⟨sc, hpc⟩ <;>
    simp [hpc, parseScalar_enc v hv]
/-! ### Root decode of the full encoder output -/

theorem splitNl_joinNl (ls : List (List Char)) (hne : ls ≠ [])
    (hh : ∀ l0, ls.head? = some l0 → l0 ≠ [])
    (hnl : ∀ l ∈ ls, ('\n' : Char) ∉ l) : splitNl (joinNl ls) = ls := by
  have hjne : joinNl ls ≠ [] := by
    cases ls with
    | nil => exact absurd rfl hne
    | cons l0 t =>
      cases t with
      | nil => simpa [joinNl, joinDelim] using hh l0 rfl
      | cons t2 ts =>
        have hje : joinNl (l0 :: t2 :: ts) = l0 ++ '\n' :: joinDelim '\n' (t2 :: ts) := rfl
        rw [hje]
        simp
  rw [splitNl, if_neg (by simpa [List.isEmpty_iff] using hjne)]
  exact splitNlGo_joinNl ls hne hnl

/-- Root decode of an encoded non-empty object body. -/
theorem decodeLines_obj (strict : Bool) (i : Nat) (hi : 1 ≤ i) {delim : Char}
    (hdv : delim ∈ validDelims) (k : String) (v : Value) (tl : List (String × Value))
    (hwf : wfE ((k, v) :: tl) = true) (hnd : nodupKeys ((k, v) :: tl) = true) :
    decodeLines strict i (encEntries i delim 0 ((k, v) :: tl)) =
      .ok (.obj ((k, v) :: tl)) := by
  obtain ⟨content, t, he, hhd, hcn, hclass⟩ := encEntry_first_class i hdv 0 k v
  have hE : encEntries i delim 0 ((k, v) :: tl) =
      (indentChars i 0 ++ content) :: (t ++ encEntries i delim 0 tl) := by
    simp [encEntries, he]
  have hrt : parseEntries strict i 0 (encEntries i delim 0 ((k, v) :: tl)).length
      (encEntries i delim 0 ((k, v) :: tl)) = .ok ((k, v) :: tl, []) := by
    have h2 := rt_entries strict i hi delim hdv ((k, v) :: tl) 0
      (encEntries i delim 0 ((k, v) :: tl)).length [] hwf hnd (by simp) trivial
    simpa using h2
  rw [hE] at hrt ⊢
  have hl := lineIndent_enc i 0 content hhd
  simp only [decodeLines]
  rw [hl.1, depthOf_enc strict i 0 hi, hl.2]
  simp only [ne_self_iff_false, if_false]
  simp only [List.length_cons, List.length_append] at hrt
  rcases hclass with ⟨sc, hpc⟩ | hpc | ⟨n, raw, hpc⟩ | ⟨n, hpc⟩ | ⟨n, cols, hpc⟩ <;>
    simp [hpc, hrt]

/-- Root decode of an encoded array block. -/
theorem decodeLines_arr (strict : Bool) (i : Nat) (hi : 1 ≤ i) {delim : Char}
    (hdv : delim ∈ validDelims) (es : List Value) (hwf : wfL es = true) :
    decodeLines strict i (arrBlock i delim 0 none es (encItems i delim 1 es)) =
      .ok (.arr es) := by
  by_cases hsc : allScalars es = true
  · cases es with
    | nil =>
      have hB : arrBlock i delim 0 none ([] : List Value) (encItems i delim 1 []) =
          [indentChars i 0 ++ inlineContent delim none []] := by
        simp [arrBlock, allScalars, inlineLine_split]
      rw [hB]
      have hl := lineIndent_enc i 0 (inlineContent delim none [])
        (inlineContent_head delim none [])
      simp only [decodeLines]
      rw [hl.1, depthOf_enc strict i 0 hi, hl.2]
      simp only [ne_self_iff_false, if_false, parseLineContent_inline_nil delim none]
      rw [parseItems_stop strict i 1 ([indentChars i 0 ++ inlineContent delim none []]).length
        [] trivial]
      simp
    | cons x xs =>
      have hB : arrBlock i delim 0 none (x :: xs) (encItems i delim 1 (x :: xs)) =
          [indentChars i 0 ++ inlineContent delim none (x :: xs)] := by
        simp [arrBlock, hsc, inlineLine_split]
      rw [hB]
      have hl := lineIndent_enc i 0 (inlineContent delim none (x :: xs))
        (inlineContent_head delim none (x :: xs))
      simp only [decodeLines]
      rw [hl.1, depthOf_enc strict i 0 hi, hl.2]
      simp only [ne_self_iff_false, if_false,
        parseLineContent_inline delim none (x :: xs) (by simp)]
      obtain ⟨hsplit, hps⟩ := inline_body_parse hdv (x :: xs) (by simp) hsc
      simp only [List.map_cons] at hsplit hps
      simp [hsplit, hps]
  · cases htc : tabularCols es with
    | some cols =>
      have hB : arrBlock i delim 0 none es (encItems i delim 1 es) =
          (indentChars i 0 ++ tabContent delim none cols es.length) ::
            encRows i delim 1 es := by
        simp [arrBlock, hsc, htc, tabLine_split]
      rw [hB]
      have hl := lineIndent_enc i 0 (tabContent delim none cols es.length)
        (tabContent_head delim none cols es.length)
      have hrows : parseRows strict i 1 cols
          ((indentChars i 0 ++ tabContent delim none cols es.length) ::
            encRows i delim 1 es).length (encRows i delim 1 es) = .ok (es, []) := by
        have h2 := parseRows_enc strict i hi hdv es cols 1
          ((indentChars i 0 ++ tabContent delim none cols es.length) ::
            encRows i delim 1 es).length [] (tabularCols_rowMatches htc)
          (fun w hw => wfL_mem hwf hw)
          (by simp [encRows]) trivial
        simpa using h2
      simp only [decodeLines]
      rw [hl.1, depthOf_enc strict i 0 hi, hl.2]
      simp only [ne_self_iff_false, if_false,
        parseLineContent_tab hdv none cols es.length]
      simp only [List.length_cons] at hrows
      simp [hrows]
    | none =>
      have hB : arrBlock i delim 0 none es (encItems i delim 1 es) =
          (indentChars i 0 ++ listContent none es.length) :: encItems i delim 1 es := by
        simp [arrBlock, hsc, htc, listLine_split]
      rw [hB]
      have hl := lineIndent_enc i 0 (listContent none es.length)
        (listContent_head none es.length)
      have hitems : parseItems strict i 1
          ((indentChars i 0 ++ listContent none es.length) ::
            encItems i delim 1 es).length (encItems i delim 1 es) = .ok (es, []) := by
        have h2 := rt_items strict i hi delim hdv es 1
          ((indentChars i 0 ++ listContent none es.length) ::
            encItems i delim 1 es).length [] hwf (by simp) trivial
        simpa using h2
      simp only [decodeLines]
      rw [hl.1, depthOf_enc strict i 0 hi, hl.2]
      simp only [ne_self_iff_false, if_false, parseLineContent_list none es.length]
      simp only [List.length_cons] at hitems
      simp [hitems]

/-- The central round trip: decoding the joined encoder output of a
well-formed value recovers the value, in both decode modes, for every valid
delimiter and positive indent. -/
theorem decodeCore_encTop (strict : Bool) (i : Nat) (hi : 1 ≤ i) {delim : Char}
    (hdv : delim ∈ validDelims) (v : Value) (hwf : wfV v = true) :
    decodeCore strict i (joinNl (encTop i delim v)) = .ok v := by
  have hnl := nlFree_encVal hdv i 0 v
  cases v with
  | obj es =>
    cases es with
    | nil => rfl
    | cons e tl =>
      obtain ⟨k, w⟩ := e
      obtain ⟨hnd, hwE⟩ := wfV_obj hwf
      have hTop : encTop i delim (.obj ((k, w) :: tl)) =
          encEntries i delim 0 ((k, w) :: tl) := rfl
      obtain ⟨content, t, he, hhd, hcn, _⟩ := encEntry_first_class i hdv 0 k w
      have hE : encEntries i delim 0 ((k, w) :: tl) =
          (indentChars i 0 ++ content) :: (t ++ encEntries i delim 0 tl) := by
        simp [encEntries, he]
      have hsplit : splitNl (joinNl (encTop i delim (.obj ((k, w) :: tl)))) =
          encEntries i delim 0 ((k, w) :: tl) := by
        rw [hTop]
        refine splitNl_joinNl _ (by rw [hE]; simp) ?_ ?_
        · intro l0 hl0
          rw [hE] at hl0
          simp only [List.head?_cons, Option.some.injEq] at hl0
          rw [← hl0]
          have hi0 : indentChars i 0 = [] := by simp [indentChars]
          rw [hi0, List.nil_append]
          exact hcn
        · intro l hl
          exact hnl l hl
      rw [decodeCore, hsplit]
      exact decodeLines_obj strict i hi hdv k w tl hwE hnd
  | arr es =>
    have hwL := wfV_arr hwf
    have hTop : encTop i delim (.arr es) =
        arrBlock i delim 0 none es (encItems i delim 1 es) := rfl
    obtain ⟨content, t, hB, hhd, hcn⟩ :=
      arrBlock_first i delim 0 none es (encItems i delim 1 es)
    have hsplit : splitNl (joinNl (encTop i delim (.arr es))) =
        arrBlock i delim 0 none es (encItems i delim 1 es) := by
      rw [hTop]
      refine splitNl_joinNl _ (by rw [hB]; simp) ?_ ?_
      · intro l0 hl0
        rw [hB] at hl0
        simp only [List.head?_cons, Option.some.injEq] at hl0
        rw [← hl0]
        have hi0 : indentChars i 0 = [] := by simp [indentChars]
        rw [hi0, List.nil_append]
        exact hcn
      · intro l hl
        exact hnl l hl
    rw [decodeCore, hsplit]
    exact decodeLines_arr strict i hi hdv es hwL
  | null =>
    have hTop : encTop i delim .null = [indentChars i 0 ++ encScalarChars .null] := rfl
    have hsplit : splitNl (joinNl (encTop i delim .null)) =
        [indentChars i 0 ++ encScalarChars .null] := by
      rw [hTop]
      refine splitNl_joinNl _ (by simp) ?_ ?_
      · intro l0 hl0
        simp only [List.head?_cons, Option.some.injEq] at hl0
        rw [← hl0]
        have hi0 : indentChars i 0 = [] := by simp [indentChars]
        rw [hi0, List.nil_append]
        exact encScalarChars_ne_nil _ rfl
      · intro l hl
        exact hnl l hl
    rw [decodeCore, hsplit]
    exact decodeLines_scalar strict i hi .null rfl
  | bool b =>
    have hTop : encTop i delim (.bool b) = [indentChars i 0 ++ encScalarChars (.bool b)] := rfl
    have hsplit : splitNl (joinNl (encTop i delim (.bool b))) =
        [indentChars i 0 ++ encScalarChars (.bool b)] := by
      rw [hTop]
      refine splitNl_joinNl _ (by simp) ?_ ?_
      · intro l0 hl0
        simp only [List.head?_cons, Option.some.injEq] at hl0
        rw [← hl0]
        have hi0 : indentChars i 0 = [] := by simp [indentChars]
        rw [hi0, List.nil_append]
        exact encScalarChars_ne_nil _ rfl
      · intro l hl
        exact hnl l hl
    rw [decodeCore, hsplit]
    exact decodeLines_scalar strict i hi (.bool b) rfl
  | num n =>
    have hTop : encTop i delim (.num n) = [indentChars i 0 ++ encScalarChars (.num n)] := rfl
    have hsplit : splitNl (joinNl (encTop i delim (.num n))) =
        [indentChars i 0 ++ encScalarChars (.num n)] := by
      rw [hTop]
      refine splitNl_joinNl _ (by simp) ?_ ?_
      · intro l0 hl0
        simp only [List.head?_cons, Option.some.injEq] at hl0
        rw [← hl0]
        have hi0 : indentChars i 0 = [] := by simp [indentChars]
        rw [hi0, List.nil_append]
        exact encScalarChars_ne_nil _ rfl
      · intro l hl
        exact hnl l hl
    rw [decodeCore, hsplit]
    exact decodeLines_scalar strict i hi (.num n) rfl
  | str s =>
    have hTop : encTop i delim (.str s) = [indentChars i 0 ++ encScalarChars (.str s)] := rfl
    have hsplit : splitNl (joinNl (encTop i delim (.str s))) =
        [indentChars i 0 ++ encScalarChars (.str s)] := by
      rw [hTop]
      refine splitNl_joinNl _ (by simp) ?_ ?_
      · intro l0 hl0
        simp only [List.head?_cons, Option.some.injEq] at hl0
        rw [← hl0]
        have hi0 : indentChars i 0 = [] := by simp [indentChars]
        rw [hi0, List.nil_append]
        exact encScalarChars_ne_nil _ rfl
      · intro l hl
        exact hnl l hl
    rw [decodeCore, hsplit]
    exact decodeLines_scalar strict i hi (.str s) rfl
/-! ### Dot-free values and the fold/expand inverse -/

/-- A key that contains no path separator. -/
def keyDotFree (k : String) : Bool := k.data.all (fun c => !(c = '.'))

mutual
/-- No key anywhere in the value contains a dot (the spec's section 4.3
precondition for lossless folding). -/
def dfV : Value → Bool
  | .obj es => dfE es
  | .arr es => dfL es
  | _ => true
/-- Dot-freedom of an entry list. -/
def dfE : List (String × Value) → Bool
  | [] => true
  | (k, v) :: rest => keyDotFree k && dfV v && dfE rest
/-- Dot-freedom of an element list. -/
def dfL : List Value → Bool
  | [] => true
  | v :: vs => dfV v && dfL vs
end

/-- Join path segments onto a head key with dots. -/
def dotJoin (k : String) : List String → String
  | [] => k
  | k2 :: ks => dotJoin (k ++ "." ++ k2) ks

/-- The keys chased by the folder along a singleton chain within the budget. -/
def chainKeysB : Option Nat → Value → List String
  | none, .obj [(k2, v2)] => k2 :: chainKeysB none v2
  | some (b + 1), .obj [(k2, v2)] => k2 :: chainKeysB (some b) v2
  | _, _ => []

/-- The value at which the folder's chase stops. -/
def chainEndB : Option Nat → Value → Value
  | none, .obj [(k2, v2)] => chainEndB none v2
  | some (b + 1), .obj [(k2, v2)] => chainEndB (some b) v2
  | _, v => v

/-- What the folder does at the stop of a chase. -/
def foldStop (fd : Option Nat) : Value → Value
  | .obj [(k2, v2)] => .obj [foldChain fd fd k2 v2]
  | v => foldValue fd v

/-- A nested singleton-object chain over a leaf. -/
def chainOf : List String → Value → Value
  | [], w => w
  | k :: ks, w => .obj [(k, chainOf ks w)]

theorem foldChain_spec (fd : Option Nat) : ∀ (v : Value) (budget : Option Nat) (k : String),
    foldChain fd budget k v = (dotJoin k (chainKeysB budget v),
      foldStop fd (chainEndB budget v))
  | .obj [], budget, k => by
    cases budget with
    | none => simp [foldChain, chainKeysB, chainEndB, foldStop, foldValue, foldEntries, dotJoin]
    | some b =>
      cases b <;>
        simp [foldChain, chainKeysB, chainEndB, foldStop, foldValue, foldEntries, dotJoin]
  | .obj [(k2, v2)], budget, k => by
    cases budget with
    | none =>
      rw [show foldChain fd none k (.obj [(k2, v2)]) =
        foldChain fd none (k ++ "." ++ k2) v2 from rfl]
      rw [foldChain_spec fd v2 none (k ++ "." ++ k2)]
      simp [chainKeysB, chainEndB, dotJoin]
    | some b =>
      cases b with
      | zero => simp [foldChain, chainKeysB, chainEndB, foldStop, dotJoin]
      | succ b2 =>
        rw [show foldChain fd (some (b2 + 1)) k (.obj [(k2, v2)]) =
          foldChain fd (some b2) (k ++ "." ++ k2) v2 from rfl]
        rw [foldChain_spec fd v2 (some b2) (k ++ "." ++ k2)]
        simp [chainKeysB, chainEndB, dotJoin]
  | .obj (e1 :: e2 :: rest), budget, k => by
    cases budget with
    | none => simp [foldChain, chainKeysB, chainEndB, foldStop, foldValue, dotJoin]
    | some b =>
      cases b <;> simp [foldChain, chainKeysB, chainEndB, foldStop, foldValue, dotJoin]
  | .null, budget, k => by
    cases budget with
    | none => simp [foldChain, chainKeysB, chainEndB, foldStop, foldValue, dotJoin]
    | some b => cases b <;> simp [foldChain, chainKeysB, chainEndB, foldStop, foldValue, dotJoin]
  | .bool b0, budget, k => by
    cases budget with
    | none => simp [foldChain, chainKeysB, chainEndB, foldStop, foldValue, dotJoin]
    | some b => cases b <;> simp [foldChain, chainKeysB, chainEndB, foldStop, foldValue, dotJoin]
  | .num n, budget, k => by
    cases budget with
    | none => simp [foldChain, chainKeysB, chainEndB, foldStop, foldValue, dotJoin]
    | some b => cases b <;> simp [foldChain, chainKeysB, chainEndB, foldStop, foldValue, dotJoin]
  | .str s, budget, k => by
    cases budget with
    | none => simp [foldChain, chainKeysB, chainEndB, foldStop, foldValue, dotJoin]
    | some b => cases b <;> simp [foldChain, chainKeysB, chainEndB, foldStop, foldValue, dotJoin]
  | .arr es, budget, k => by
    cases budget with
    | none => simp [foldChain, chainKeysB, chainEndB, foldStop, foldValue, dotJoin]
    | some b => cases b <;> simp [foldChain, chainKeysB, chainEndB, foldStop, foldValue, dotJoin]

theorem splitDotsChars_nodot : ∀ (cs : List Char), (∀ c ∈ cs, c ≠ '.') →
    splitDotsChars cs = [cs] := by
  intro cs
  induction cs with
  | nil => intro _; rfl
  | cons c cs ih =>
    intro h
    have hc : ¬ c = '.' := h c (by simp)
    rw [splitDotsChars, if_neg hc, ih (fun c2 hc2 => h c2 (by simp [hc2]))]
    rfl

theorem splitDotsChars_append : ∀ (a b : List Char), (∀ c ∈ a, c ≠ '.') →
    splitDotsChars (a ++ '.' :: b) = a :: splitDotsChars b := by
  intro a
  induction a with
  | nil =>
    intro b _
    rw [List.nil_append, splitDotsChars, if_pos rfl]
  | cons c a ih =>
    intro b h
    have hc : ¬ c = '.' := h c (by simp)
    rw [List.cons_append, splitDotsChars, if_neg hc,
      ih b (fun c2 hc2 => h c2 (by simp [hc2]))]
    rfl

theorem dotJoin_shift : ∀ (ks : List String) (a b : String),
    dotJoin (a ++ b) ks = a ++ dotJoin b ks := by
  intro ks
  induction ks with
  | nil => intro a b; rfl
  | cons k3 ks ih =>
    intro a b
    have h1 : dotJoin (a ++ b) (k3 :: ks) = dotJoin (a ++ b ++ "." ++ k3) ks := rfl
    have h2 : dotJoin b (k3 :: ks) = dotJoin (b ++ "." ++ k3) ks := rfl
    have h3 : a ++ b ++ "." ++ k3 = a ++ (b ++ "." ++ k3) := by
      simp [String.append_assoc]
    rw [h1, h2, h3]
    exact ih a (b ++ "." ++ k3)

theorem dotJoin_cons (k k2 : String) (ks : List String) :
    dotJoin k (k2 :: ks) = k ++ "." ++ dotJoin k2 ks := by
  rw [show dotJoin k (k2 :: ks) = dotJoin (k ++ "." ++ k2) ks from rfl,
    show k ++ "." ++ k2 = (k ++ ".") ++ k2 from rfl]
  exact dotJoin_shift ks (k ++ ".") k2

theorem keyDotFree_chars {k : String} (h : keyDotFree k = true) : ∀ c ∈ k.data, c ≠ '.' := by
  intro c hc
  have := List.all_eq_true.mp h c hc
  simpa using this

theorem splitDots_free {k : String} (h : keyDotFree k = true) : splitDots k = [k] := by
  rw [splitDots, splitDotsChars_nodot k.data (keyDotFree_chars h)]
  simp [string_mk_data]

theorem splitDots_dotJoin : ∀ (ks : List String) (k : String), keyDotFree k = true →
    (∀ k2 ∈ ks, keyDotFree k2 = true) → splitDots (dotJoin k ks) = k :: ks := by
  intro ks
  induction ks with
  | nil => intro k hk _; exact splitDots_free hk
  | cons k2 ks ih =>
    intro k hk hks
    rw [dotJoin_cons, splitDots]
    have hdata : (k ++ "." ++ dotJoin k2 ks).data =
        k.data ++ '.' :: (dotJoin k2 ks).data := by
      rw [String.append_assoc]
      rw [show (k ++ ("." ++ dotJoin k2 ks)).data =
        k.data ++ ("." ++ dotJoin k2 ks).data from rfl]
      rfl
    rw [hdata, splitDotsChars_append k.data (dotJoin k2 ks).data (keyDotFree_chars hk)]
    have hrest : splitDots (dotJoin k2 ks) = k2 :: ks :=
      ih k2 (hks k2 (by simp)) (fun k3 h3 => hks k3 (by simp [h3]))
    rw [splitDots] at hrest
    simp [string_mk_data, hrest]

theorem lookupV_none_iff (k : String) : ∀ (es : List (String × Value)),
    lookupV k es = none ↔ ∀ p ∈ es, p.1 ≠ k := by
  intro es
  induction es with
  | nil => simp [lookupV]
  | cons e rest ih =>
    obtain ⟨k2, v⟩ := e
    constructor
    · intro h p hp
      rw [lookupV] at h
      by_cases hk : k = k2
      · rw [if_pos hk] at h; simp at h
      · rw [if_neg hk] at h
        rcases List.mem_cons.mp hp with h2 | h2
        · rw [h2]; simpa using fun he => hk he.symm
        · exact ih.mp h p h2
    · intro h
      rw [lookupV]
      have hk : ¬ k = k2 := fun he => (h (k2, v) (by simp)) (by simp [he])
      rw [if_neg hk]
      exact ih.mpr (fun p hp => h p (by simp [hp]))

theorem insertPath_fresh : ∀ (ks : List String) (k : String) (w : Value)
    (acc : List (String × Value)), lookupV k acc = none →
    insertPath acc (k :: ks) w = .ok (acc ++ [(k, chainOf ks w)]) := by
  intro ks
  induction ks with
  | nil =>
    intro k w acc h
    simp [insertPath, h, chainOf]
  | cons k2 ks ih =>
    intro k w acc h
    rw [insertPath, h, ih k2 w [] (by rfl)]
    simp [chainOf]
theorem foldStop_eq (fd : Option Nat) : ∀ (v : Value), foldStop fd v = foldValue fd v
  | .obj [] => by simp [foldStop, foldValue, foldEntries]
  | .obj [(k2, v2)] => by simp [foldStop, foldValue, foldEntries]
  | .obj (e1 :: e2 :: rest) => by simp [foldStop, foldValue]
  | .null => rfl
  | .bool _ => rfl
  | .num _ => rfl
  | .str _ => rfl
  | .arr _ => by simp [foldStop, foldValue]

theorem foldChain_spec2 (fd budget : Option Nat) (k : String) (v : Value) :
    foldChain fd budget k v =
      (dotJoin k (chainKeysB budget v), foldValue fd (chainEndB budget v)) := by
  rw [foldChain_spec fd v budget k, foldStop_eq]

theorem chainOf_chainKeys : ∀ (v : Value) (b : Option Nat),
    chainOf (chainKeysB b v) (chainEndB b v) = v
  | .obj [], b => by
    cases b with
    | none => rfl
    | some n => cases n <;> rfl
  | .obj [(k2, v2)], b => by
    cases b with
    | none =>
      rw [show chainKeysB none (.obj [(k2, v2)]) = k2 :: chainKeysB none v2 from rfl,
        show chainEndB none (.obj [(k2, v2)]) = chainEndB none v2 from rfl,
        chainOf, chainOf_chainKeys v2 none]
    | some n =>
      cases n with
      | zero => rfl
      | succ b2 =>
        rw [show chainKeysB (some (b2 + 1)) (.obj [(k2, v2)]) =
            k2 :: chainKeysB (some b2) v2 from rfl,
          show chainEndB (some (b2 + 1)) (.obj [(k2, v2)]) = chainEndB (some b2) v2 from rfl,
          chainOf, chainOf_chainKeys v2 (some b2)]
  | .obj (e1 :: e2 :: rest), b => by
    cases b with
    | none => rfl
    | some n => cases n <;> rfl
  | .null, b => by cases b with
    | none => rfl
    | some n => cases n <;> rfl
  | .bool _, b => by cases b with
    | none => rfl
    | some n => cases n <;> rfl
  | .num _, b => by cases b with
    | none => rfl
    | some n => cases n <;> rfl
  | .str _, b => by cases b with
    | none => rfl
    | some n => cases n <;> rfl
  | .arr _, b => by cases b with
    | none => rfl
    | some n => cases n <;> rfl

theorem sizeOf_chainEndB : ∀ (v : Value) (b : Option Nat),
    sizeOf (chainEndB b v) ≤ sizeOf v
  | .obj [], b => by
    cases b with
    | none => simp [chainEndB]
    | some n => cases n <;> simp [chainEndB]
  | .obj [(k2, v2)], b => by
    cases b with
    | none =>
      have h := sizeOf_chainEndB v2 none
      rw [show chainEndB none (.obj [(k2, v2)]) = chainEndB none v2 from rfl]
      simp only [Value.obj.sizeOf_spec, List.cons.sizeOf_spec, List.nil.sizeOf_spec,
        Prod.mk.sizeOf_spec]
      omega
    | some n =>
      cases n with
      | zero => simp [chainEndB]
      | succ b2 =>
        have h := sizeOf_chainEndB v2 (some b2)
        rw [show chainEndB (some (b2 + 1)) (.obj [(k2, v2)]) = chainEndB (some b2) v2 from rfl]
        simp only [Value.obj.sizeOf_spec, List.cons.sizeOf_spec, List.nil.sizeOf_spec,
          Prod.mk.sizeOf_spec]
        omega
  | .obj (e1 :: e2 :: rest), b => by
    cases b with
    | none => simp [chainEndB]
    | some n => cases n <;> simp [chainEndB]
  | .null, b => by cases b with
    | none => simp [chainEndB]
    | some n => cases n <;> simp [chainEndB]
  | .bool _, b => by cases b with
    | none => simp [chainEndB]
    | some n => cases n <;> simp [chainEndB]
  | .num _, b => by cases b with
    | none => simp [chainEndB]
    | some n => cases n <;> simp [chainEndB]
  | .str _, b => by cases b with
    | none => simp [chainEndB]
    | some n => cases n <;> simp [chainEndB]
  | .arr _, b => by cases b with
    | none => simp [chainEndB]
    | some n => cases n <;> simp [chainEndB]

theorem df_chainKeys : ∀ (v : Value) (b : Option Nat), dfV v = true →
    ∀ k2 ∈ chainKeysB b v, keyDotFree k2 = true
  | .obj [(k2, v2)], b => by
    intro hdf k3 hk3
    have hparts : keyDotFree k2 = true ∧ dfV v2 = true := by
      simp only [dfV, dfE, Bool.and_eq_true] at hdf
      exact ⟨hdf.1.1, hdf.1.2⟩
    cases b with
    | none =>
      rw [show chainKeysB none (.obj [(k2, v2)]) = k2 :: chainKeysB none v2 from rfl] at hk3
      rcases List.mem_cons.mp hk3 with h | h
      · rw [h]; exact hparts.1
      · exact df_chainKeys v2 none hparts.2 k3 h
    | some n =>
      cases n with
      | zero => simp [chainKeysB] at hk3
      | succ b2 =>
        rw [show chainKeysB (some (b2 + 1)) (.obj [(k2, v2)]) =
            k2 :: chainKeysB (some b2) v2 from rfl] at hk3
        rcases List.mem_cons.mp hk3 with h | h
        · rw [h]; exact hparts.1
        · exact df_chainKeys v2 (some b2) hparts.2 k3 h
  | .obj [], b => by
    intro _ k3 hk3
    cases b with
    | none => simp [chainKeysB] at hk3
    | some n => cases n <;> simp [chainKeysB] at hk3
  | .obj (e1 :: e2 :: rest), b => by
    intro _ k3 hk3
    cases b with
    | none => simp [chainKeysB] at hk3
    | some n => cases n <;> simp [chainKeysB] at hk3
  | .null, b => by
    intro _ k3 hk3
    cases b with
    | none => simp [chainKeysB] at hk3
    | some n => cases n <;> simp [chainKeysB] at hk3
  | .bool _, b => by
    intro _ k3 hk3
    cases b with
    | none => simp [chainKeysB] at hk3
    | some n => cases n <;> simp [chainKeysB] at hk3
  | .num _, b => by
    intro _ k3 hk3
    cases b with
    | none => simp [chainKeysB] at hk3
    | some n => cases n <;> simp [chainKeysB] at hk3
  | .str _, b => by
    intro _ k3 hk3
    cases b with
    | none => simp [chainKeysB] at hk3
    | some n => cases n <;> simp [chainKeysB] at hk3
  | .arr _, b => by
    intro _ k3 hk3
    cases b with
    | none => simp [chainKeysB] at hk3
    | some n => cases n <;> simp [chainKeysB] at hk3

theorem wf_df_chainEndB : ∀ (v : Value) (b : Option Nat), wfV v = true → dfV v = true →
    wfV (chainEndB b v) = true ∧ dfV (chainEndB b v) = true
  | .obj [(k2, v2)], b => by
    intro hwf hdf
    have hw2 : wfV v2 = true := by
      simp only [wfV, wfE, Bool.and_eq_true] at hwf
      exact hwf.2.1
    have hd2 : dfV v2 = true := by
      simp only [dfV, dfE, Bool.and_eq_true] at hdf
      exact hdf.1.2
    cases b with
    | none =>
      rw [show chainEndB none (.obj [(k2, v2)]) = chainEndB none v2 from rfl]
      exact wf_df_chainEndB v2 none hw2 hd2
    | some n =>
      cases n with
      | zero => exact ⟨hwf, hdf⟩
      | succ b2 =>
        rw [show chainEndB (some (b2 + 1)) (.obj [(k2, v2)]) = chainEndB (some b2) v2 from rfl]
        exact wf_df_chainEndB v2 (some b2) hw2 hd2
  | .obj [], b => by
    intro hwf hdf
    cases b with
    | none => exact ⟨hwf, hdf⟩
    | some n => cases n <;> exact ⟨hwf, hdf⟩
  | .obj (e1 :: e2 :: rest), b => by
    intro hwf hdf
    cases b with
    | none => exact ⟨hwf, hdf⟩
    | some n => cases n <;> exact ⟨hwf, hdf⟩
  | .null, b => by
    intro hwf hdf
    cases b with
    | none => exact ⟨hwf, hdf⟩
    | some n => cases n <;> exact ⟨hwf, hdf⟩
  | .bool _, b => by
    intro hwf hdf
    cases b with
    | none => exact ⟨hwf, hdf⟩
    | some n => cases n <;> exact ⟨hwf, hdf⟩
  | .num _, b => by
    intro hwf hdf
    cases b with
    | none => exact ⟨hwf, hdf⟩
    | some n => cases n <;> exact ⟨hwf, hdf⟩
  | .str _, b => by
    intro hwf hdf
    cases b with
    | none => exact ⟨hwf, hdf⟩
    | some n => cases n <;> exact ⟨hwf, hdf⟩
  | .arr _, b => by
    intro hwf hdf
    cases b with
    | none => exact ⟨hwf, hdf⟩
    | some n => cases n <;> exact ⟨hwf, hdf⟩

theorem lookupV_append_none (k : String) : ∀ (a b : List (String × Value)),
    lookupV k a = none → lookupV k b = none → lookupV k (a ++ b) = none := by
  intro a
  induction a with
  | nil => intro b _ hb; simpa using hb
  | cons e rest ih =>
    intro b ha hb
    obtain ⟨k2, v⟩ := e
    rw [lookupV] at ha
    by_cases hk : k = k2
    · rw [if_pos hk] at ha; simp at ha
    · rw [List.cons_append, lookupV, if_neg hk]
      exact ih b (by rw [if_neg hk] at ha; exact ha) hb

/-- Inserting fresh dotted paths in order appends the rebuilt chains. -/
theorem insertAll_paths : ∀ (items : List (String × List String × Value))
    (acc : List (String × Value)),
    List.Pairwise (fun t1 t2 => t1.1 ≠ t2.1) items →
    (∀ t ∈ items, lookupV t.1 acc = none) →
    insertAll acc (items.map (fun t => (t.1 :: t.2.1, t.2.2))) =
      .ok (acc ++ items.map (fun t => (t.1, chainOf t.2.1 t.2.2))) := by
  intro items
  induction items with
  | nil => intro acc _ _; simp [insertAll]
  | cons t rest ih =>
    intro acc hpw hfresh
    obtain ⟨k, ks, w⟩ := t
    obtain ⟨hhead, htail⟩ := List.pairwise_cons.mp hpw
    simp only [List.map_cons, insertAll,
      insertPath_fresh ks k w acc (hfresh (k, ks, w) (by simp))]
    have hf2 : ∀ t2 ∈ rest, lookupV t2.1 (acc ++ [(k, chainOf ks w)]) = none := by
      intro t2 ht2
      refine lookupV_append_none t2.1 acc [(k, chainOf ks w)]
        (hfresh t2 (by simp [ht2])) ?_
      have hne : ¬ t2.1 = k := fun h => (hhead t2 ht2) (by rw [h])
      simp [lookupV, hne]
    rw [ih (acc ++ [(k, chainOf ks w)]) htail hf2]
    simp
theorem dfL_mem : ∀ {vs : List Value}, dfL vs = true → ∀ {v : Value}, v ∈ vs →
    dfV v = true := by
  intro vs
  induction vs with
  | nil => intro _ v hv; simp at hv
  | cons w ws ih =>
    intro h v hv
    simp only [dfL, Bool.and_eq_true] at h
    rcases List.mem_cons.mp hv with h1 | h1
    · rw [h1]; exact h.1
    · exact ih h.2 h1

theorem dfE_mem : ∀ {es : List (String × Value)}, dfE es = true →
    ∀ {p : String × Value}, p ∈ es → keyDotFree p.1 = true ∧ dfV p.2 = true := by
  intro es
  induction es with
  | nil => intro _ p hp; simp at hp
  | cons e rest ih =>
    intro h p hp
    obtain ⟨k, v⟩ := e
    simp only [dfE, Bool.and_eq_true] at h
    rcases List.mem_cons.mp hp with h1 | h1
    · rw [h1]; exact ⟨h.1.1, h.1.2⟩
    · exact ih h.2 h1

theorem nodupKeys_pairwise : ∀ (es : List (String × Value)), nodupKeys es = true →
    List.Pairwise (fun p q : String × Value => p.1 ≠ q.1) es := by
  intro es
  induction es with
  | nil => intro _; exact List.Pairwise.nil
  | cons e rest ih =>
    intro h
    obtain ⟨k, v⟩ := e
    obtain ⟨hlk, hrest⟩ := nodupKeys_cons h
    refine List.Pairwise.cons ?_ (ih hrest)
    intro q hq
    exact fun he => ((lookupV_none_iff k rest).mp hlk q hq) he.symm

theorem sizeOf_mem_entries : ∀ (es : List (String × Value)) (p : String × Value), p ∈ es →
    sizeOf p.2 < sizeOf (Value.obj es) := by
  intro es
  induction es with
  | nil => intro p hp; simp at hp
  | cons e rest ih =>
    intro p hp
    rcases List.mem_cons.mp hp with h1 | h1
    · rw [h1]
      obtain ⟨k, v⟩ := e
      simp only [Value.obj.sizeOf_spec, List.cons.sizeOf_spec, Prod.mk.sizeOf_spec]
      omega
    · have := ih p h1
      simp only [Value.obj.sizeOf_spec, List.cons.sizeOf_spec] at this ⊢
      omega

theorem sizeOf_mem_list : ∀ (es : List Value) (v : Value), v ∈ es →
    sizeOf v < sizeOf (Value.arr es) := by
  intro es
  induction es with
  | nil => intro v hv; simp at hv
  | cons w rest ih =>
    intro v hv
    rcases List.mem_cons.mp hv with h1 | h1
    · rw [h1]
      simp only [Value.arr.sizeOf_spec, List.cons.sizeOf_spec]
      omega
    · have := ih v h1
      simp only [Value.arr.sizeOf_spec, List.cons.sizeOf_spec] at this ⊢
      omega

theorem foldEntries_eq_map (fd : Option Nat) : ∀ (es : List (String × Value)),
    foldEntries fd es = es.map (fun p => foldChain fd fd p.1 p.2) := by
  intro es
  induction es with
  | nil => rfl
  | cons e rest ih =>
    obtain ⟨k, v⟩ := e
    rw [foldEntries, ih]
    rfl

theorem expandList_of : ∀ (es : List Value), (∀ w ∈ es, expandValue w = .ok w) →
    expandList es = .ok es := by
  intro es
  induction es with
  | nil => intro _; rfl
  | cons w ws ih =>
    intro h
    rw [expandList, h w (by simp), ih (fun u hu => h u (by simp [hu]))]

theorem expandEntryList_of : ∀ (es : List (String × Value)),
    (∀ p ∈ es, expandValue p.2 = .ok p.2) → (∀ p ∈ es, keyDotFree p.1 = true) →
    expandEntryList es = .ok (es.map fun p => ([p.1], p.2)) := by
  intro es
  induction es with
  | nil => intro _ _; rfl
  | cons e rest ih =>
    intro hv hk
    obtain ⟨k, v⟩ := e
    rw [expandEntryList, hv (k, v) (by simp),
      ih (fun p hp => hv p (by simp [hp])) (fun p hp => hk p (by simp [hp]))]
    simp [splitDots_free (hk (k, v) (by simp))]

theorem expandEntryList_fold (fd : Option Nat) : ∀ (es : List (String × Value)),
    (∀ p ∈ es, expandValue (foldValue fd (chainEndB fd p.2)) = .ok (chainEndB fd p.2)) →
    (∀ p ∈ es, keyDotFree p.1 = true) →
    (∀ p ∈ es, ∀ k2 ∈ chainKeysB fd p.2, keyDotFree k2 = true) →
    expandEntryList (foldEntries fd es) =
      .ok (es.map fun p => (p.1 :: chainKeysB fd p.2, chainEndB fd p.2)) := by
  intro es
  induction es with
  | nil => intro _ _ _; rfl
  | cons e rest ih =>
    intro hv hk hc
    obtain ⟨k, v⟩ := e
    rw [foldEntries, foldChain_spec2, expandEntryList, hv (k, v) (by simp),
      ih (fun p hp => hv p (by simp [hp])) (fun p hp => hk p (by simp [hp]))
        (fun p hp => hc p (by simp [hp]))]
    simp [splitDots_dotJoin (chainKeysB fd v) k (hk (k, v) (by simp))
      (hc (k, v) (by simp))]

theorem wfE_fold_of (fd : Option Nat) : ∀ (es : List (String × Value)),
    (∀ p ∈ es, wfV (foldValue fd (chainEndB fd p.2)) = true) →
    wfE (foldEntries fd es) = true := by
  intro es
  induction es with
  | nil => intro _; rfl
  | cons e rest ih =>
    intro h
    obtain ⟨k, v⟩ := e
    rw [foldEntries, foldChain_spec2, wfE]
    simp only [Bool.and_eq_true]
    exact ⟨h (k, v) (by simp), ih (fun p hp => h p (by simp [hp]))⟩

theorem dotJoin_head_ne {k1 k2 : String} (h : k1 ≠ k2) (p q : List String)
    (hk1 : keyDotFree k1 = true) (hk2 : keyDotFree k2 = true)
    (hp : ∀ x ∈ p, keyDotFree x = true) (hq : ∀ x ∈ q, keyDotFree x = true) :
    dotJoin k1 p ≠ dotJoin k2 q := by
  intro he
  have h1 := splitDots_dotJoin p k1 hk1 hp
  have h2 := splitDots_dotJoin q k2 hk2 hq
  rw [he, h2] at h1
  exact h (by injection h1 with hh; exact hh.symm)

theorem nodup_foldEntries (fd : Option Nat) : ∀ (es : List (String × Value)),
    nodupKeys es = true → dfE es = true →
    nodupKeys (foldEntries fd es) = true := by
  intro es
  induction es with
  | nil => intro _ _; rfl
  | cons e rest ih =>
    intro hnd hdf
    obtain ⟨k, v⟩ := e
    obtain ⟨hlk, hndr⟩ := nodupKeys_cons hnd
    have hdfp := dfE_mem hdf (p := (k, v)) (by simp)
    have hdfr : dfE rest = true := by
      simp only [dfE, Bool.and_eq_true] at hdf
      exact hdf.2
    rw [foldEntries, foldChain_spec2, nodupKeys]
    simp only [Bool.and_eq_true, Option.isNone_iff_eq_none]
    refine ⟨?_, ih hndr hdfr⟩
    rw [lookupV_none_iff]
    intro p hp
    rw [foldEntries_eq_map] at hp
    obtain ⟨q, hq, hqe⟩ := List.mem_map.mp hp
    rw [← hqe, foldChain_spec2]
    have hqne : q.1 ≠ k := (lookupV_none_iff k rest).mp hlk q hq
    have hdfq := dfE_mem hdfr hq
    exact dotJoin_head_ne hqne (chainKeysB fd q.2) (chainKeysB fd v)
      hdfq.1 hdfp.1 (df_chainKeys q.2 fd hdfq.2) (df_chainKeys v fd hdfp.2)
theorem wfE_mem : ∀ {es : List (String × Value)}, wfE es = true →
    ∀ {p : String × Value}, p ∈ es → wfV p.2 = true := by
  intro es
  induction es with
  | nil => intro _ p hp; simp at hp
  | cons e rest ih =>
    intro h p hp
    obtain ⟨k, v⟩ := e
    obtain ⟨h1, h2⟩ := wfE_cons h
    rcases List.mem_cons.mp hp with hh | hh
    · rw [hh]; exact h1
    · exact ih h2 hh

/-- Path expansion is the identity on well-formed values whose keys are all
dot-free (spec 4.3: expansion only restructures dotted keys). -/
theorem expand_id : ∀ (N : Nat) (v : Value), sizeOf v ≤ N → wfV v = true → dfV v = true →
    expandValue v = .ok v := by
  intro N
  induction N using Nat.strong_induction_on with
  | _ N ihN =>
    intro v hN hwf hdf
    cases v with
    | null => rfl
    | bool b => rfl
    | num n => rfl
    | str s => rfl
    | arr es =>
      have hval : ∀ w ∈ es, expandValue w = .ok w := by
        intro w hw
        have h1 := sizeOf_mem_list es w hw
        exact ihN (sizeOf w) (by omega) w le_rfl (wfL_mem (wfV_arr hwf) hw)
          (dfL_mem (by simpa [dfV] using hdf) hw)
      rw [show expandValue (.arr es) = (match expandList es with
        | .error e => .error e
        | .ok es2 => .ok (.arr es2)) from rfl, expandList_of es hval]
    | obj es =>
      obtain ⟨hnd, hwE⟩ := wfV_obj hwf
      have hdfE : dfE es = true := by simpa [dfV] using hdf
      have hval : ∀ p ∈ es, expandValue p.2 = .ok p.2 := by
        intro p hp
        have h1 := sizeOf_mem_entries es p hp
        exact ihN (sizeOf p.2) (by omega) p.2 le_rfl (wfE_mem hwE hp) (dfE_mem hdfE hp).2
      have hkeys : ∀ p ∈ es, keyDotFree p.1 = true := fun p hp => (dfE_mem hdfE hp).1
      have hel := expandEntryList_of es hval hkeys
      have hmm : es.map (fun p => ([p.1], p.2)) =
          (es.map (fun p => (p.1, ([] : List String), p.2))).map
            (fun t => (t.1 :: t.2.1, t.2.2)) := by
        simp
      have hins := insertAll_paths (es.map (fun p => (p.1, ([] : List String), p.2))) []
        (by
          rw [List.pairwise_map]
          exact (nodupKeys_pairwise es hnd).imp (fun h => h))
        (fun t _ => rfl)
      rw [← hmm] at hins
      rw [show expandValue (.obj es) = (match expandEntryList es with
        | .error e => .error e
        | .ok pairs => match insertAll [] pairs with
          | .error e => .error e
          | .ok es2 => .ok (.obj es2)) from rfl]
      simp only [hel, hins]
      simp only [List.nil_append, List.map_map]
      have hcomp : ((fun t : String × List String × Value => (t.1, chainOf t.2.1 t.2.2)) ∘
          fun p : String × Value => (p.1, ([] : List String), p.2)) =
          fun p : String × Value => (p.1, p.2) := by
        funext p
        rfl
      rw [hcomp]
      simp

/-- Folding preserves the well-formedness invariant on dot-free values: the
dotted keys it creates cannot collide. -/
theorem wf_fold (fd : Option Nat) : ∀ (N : Nat) (v : Value), sizeOf v ≤ N →
    wfV v = true → dfV v = true → wfV (foldValue fd v) = true := by
  intro N
  induction N using Nat.strong_induction_on with
  | _ N ihN =>
    intro v hN hwf hdf
    cases v with
    | null => exact hwf
    | bool b => exact hwf
    | num n => exact hwf
    | str s => exact hwf
    | arr es => exact hwf
    | obj es =>
      obtain ⟨hnd, hwE⟩ := wfV_obj hwf
      have hdfE : dfE es = true := by simpa [dfV] using hdf
      rw [show foldValue fd (.obj es) = .obj (foldEntries fd es) from rfl, wfV]
      simp only [Bool.and_eq_true]
      constructor
      · exact nodup_foldEntries fd es hnd hdfE
      · refine wfE_fold_of fd es ?_
        intro p hp
        have h1 := sizeOf_mem_entries es p hp
        have h2 := sizeOf_chainEndB p.2 fd
        obtain ⟨hw2, hd2⟩ := wf_df_chainEndB p.2 fd (wfE_mem hwE hp) (dfE_mem hdfE hp).2
        exact ihN (sizeOf (chainEndB fd p.2)) (by omega) (chainEndB fd p.2) le_rfl hw2 hd2

/-- Expansion inverts folding on well-formed dot-free values, for every
flatten-depth budget (spec 4.3: folding and expansion are exact inverses). -/
theorem expand_fold (fd : Option Nat) : ∀ (N : Nat) (v : Value), sizeOf v ≤ N →
    wfV v = true → dfV v = true → expandValue (foldValue fd v) = .ok v := by
  intro N
  induction N using Nat.strong_induction_on with
  | _ N ihN =>
    intro v hN hwf hdf
    cases v with
    | null => rfl
    | bool b => rfl
    | num n => rfl
    | str s => rfl
    | arr es =>
      rw [show foldValue fd (.arr es) = .arr es from rfl]
      exact expand_id (sizeOf (Value.arr es)) (.arr es) le_rfl hwf hdf
    | obj es =>
      obtain ⟨hnd, hwE⟩ := wfV_obj hwf
      have hdfE : dfE es = true := by simpa [dfV] using hdf
      have hval : ∀ p ∈ es, expandValue (foldValue fd (chainEndB fd p.2)) =
          .ok (chainEndB fd p.2) := by
        intro p hp
        have h1 := sizeOf_mem_entries es p hp
        have h2 := sizeOf_chainEndB p.2 fd
        obtain ⟨hw2, hd2⟩ := wf_df_chainEndB p.2 fd (wfE_mem hwE hp) (dfE_mem hdfE hp).2
        exact ihN (sizeOf (chainEndB fd p.2)) (by omega) (chainEndB fd p.2) le_rfl hw2 hd2
      have hkeys : ∀ p ∈ es, keyDotFree p.1 = true := fun p hp => (dfE_mem hdfE hp).1
      have hchains : ∀ p ∈ es, ∀ k2 ∈ chainKeysB fd p.2, keyDotFree k2 = true :=
        fun p hp => df_chainKeys p.2 fd (dfE_mem hdfE hp).2
      have hel := expandEntryList_fold fd es hval hkeys hchains
      have hmm : es.map (fun p => (p.1 :: chainKeysB fd p.2, chainEndB fd p.2)) =
          (es.map (fun p => (p.1, chainKeysB fd p.2, chainEndB fd p.2))).map
            (fun t => (t.1 :: t.2.1, t.2.2)) := by
        simp
      have hins := insertAll_paths
        (es.map (fun p => (p.1, chainKeysB fd p.2, chainEndB fd p.2))) []
        (by
          rw [List.pairwise_map]
          exact (nodupKeys_pairwise es hnd).imp (fun h => h))
        (fun t _ => rfl)
      rw [← hmm] at hins
      rw [show foldValue fd (.obj es) = .obj (foldEntries fd es) from rfl,
        show expandValue (.obj (foldEntries fd es)) =
          (match expandEntryList (foldEntries fd es) with
          | .error e => .error e
          | .ok pairs => match insertAll [] pairs with
            | .error e => .error e
            | .ok es2 => .ok (.obj es2)) from rfl]
      simp only [hel, hins]
      have hback : (es.map (fun p => (p.1, chainKeysB fd p.2, chainEndB fd p.2))).map
          (fun t => (t.1, chainOf t.2.1 t.2.2)) = es := by
        rw [List.map_map]
        have : ((fun t : String × List String × Value => (t.1, chainOf t.2.1 t.2.2)) ∘
            (fun p : String × Value => (p.1, chainKeysB fd p.2, chainEndB fd p.2))) =
            fun p => (p.1, chainOf (chainKeysB fd p.2) (chainEndB fd p.2)) := rfl
        rw [this]
        have h2 : (fun p : String × Value =>
            (p.1, chainOf (chainKeysB fd p.2) (chainEndB fd p.2))) = fun p => (p.1, p.2) := by
          funext p
          rw [chainOf_chainKeys]
        rw [h2]
        simp
      simp only [List.nil_append, hback]
/-! ### The streaming encoder (spec 4.5) -/

mutual
/-- Node count of a value, the streaming iterator's progress measure. -/
def sizeV : Value → Nat
  | .obj es => 1 + sizeE es
  | .arr es => 1 + sizeL es
  | _ => 1
/-- Node count of an entry list. -/
def sizeE : List (String × Value) → Nat
  | [] => 0
  | (_, v) :: rest => 1 + sizeV v + sizeE rest
/-- Node count of an element list. -/
def sizeL : List Value → Nat
  | [] => 0
  | v :: vs => 1 + sizeV v + sizeL vs
end

theorem sizeV_pos : ∀ (v : Value), 1 ≤ sizeV v
  | .obj es => by simp [sizeV]
  | .arr es => by simp [sizeV]
  | .null => le_refl 1
  | .bool _ => le_refl 1
  | .num _ => le_refl 1
  | .str _ => le_refl 1

theorem sizeL_ge_length : ∀ (vs : List Value), vs.length ≤ sizeL vs := by
  intro vs
  induction vs with
  | nil => simp [sizeL]
  | cons v rest ih =>
    have := sizeV_pos v
    simp only [List.length_cons, sizeL]
    omega

/-- Modelled from the spec (section 4.5): the pending work of the streaming
encoder, kept as an explicit stack so each line is produced on demand. -/
inductive STask
  | line (l : List Char)
  | val (d : Nat) (v : Value)
  | entry (d : Nat) (k : String) (v : Value)
  | entries (d : Nat) (es : List (String × Value))
  | items (d : Nat) (vs : List Value)

/-- The tasks that produce an array block (header first, then body). -/
def arrTasks (i : Nat) (delim : Char) (d : Nat) (k : Option String) (es : List Value) :
    List STask :=
  if allScalars es then [.line (inlineLine i delim d k es)]
  else
    match tabularCols es with
    | some cols =>
      .line (tabLine i delim d k cols es.length) :: (encRows i delim (d + 1) es).map .line
    | none => .line (listLine i d k es.length) :: [.items (d + 1) es]

/-- Modelled from the spec (section 4.5): one step of the streaming encoder —
pop a task, possibly emit one line, push the induced sub-tasks. -/
def stepTask (i : Nat) (delim : Char) : STask → Option (List Char) × List STask
  | .line l => (some l, [])
  | .val d (.arr es) => (none, arrTasks i delim d none es)
  | .val d (.obj es) => (none, [.entries d es])
  | .val d v => (none, [.line (indentChars i d ++ encScalarChars v)])
  | .entries _ [] => (none, [])
  | .entries d ((k, v) :: rest) => (none, [.entry d k v, .entries d rest])
  | .entry d k (.obj es) =>
    (some (indentChars i d ++ encKeyChars k ++ [':']), [.entries (d + 1) es])
  | .entry d k (.arr es) => (none, arrTasks i delim d (some k) es)
  | .entry d k v => (some (indentChars i d ++ encKeyChars k ++ ':' :: ' ' :: encScalarChars v), [])
  | .items _ [] => (none, [])
  | .items d (.obj es :: vs) =>
    (some (indentChars i d ++ ['-']), [.entries (d + 1) es, .items d vs])
  | .items d (.arr es :: vs) =>
    (some (indentChars i d ++ ['-']), arrTasks i delim (d + 1) none es ++ [.items d vs])
  | .items d (v :: vs) => (some (indentChars i d ++ '-' :: ' ' :: encScalarChars v), [.items d vs])

/-- Strictly-decreasing work estimate of one task. -/
def taskCost : STask → Nat
  | .line _ => 1
  | .val _ v => 10 * sizeV v + 5
  | .entry _ _ v => 10 * sizeV v + 3
  | .entries _ es => 10 * sizeE es + 1
  | .items _ vs => 10 * sizeL vs + 1

/-- Work estimate of a task stack. -/
def costSum (ts : List STask) : Nat := (ts.map taskCost).sum

/-- Drive the streaming encoder, collecting its emitted lines. -/
def runTasks (i : Nat) (delim : Char) : Nat → List STask → List (List Char)
  | 0, _ => []
  | _ + 1, [] => []
  | f + 1, t :: ts =>
    match stepTask i delim t with
    | (some l, new) => l :: runTasks i delim f (new ++ ts)
    | (none, new) => runTasks i delim f (new ++ ts)

/-- The lines a task stands for. -/
def taskLines (i : Nat) (delim : Char) : STask → List (List Char)
  | .line l => [l]
  | .val d v => encVal i delim d v
  | .entry d k v => encEntry i delim d k v
  | .entries d es => encEntries i delim d es
  | .items d vs => encItems i delim d vs

theorem costSum_append (a b : List STask) : costSum (a ++ b) = costSum a + costSum b := by
  simp [costSum]

theorem arrTasks_cost (i : Nat) (delim : Char) (d : Nat) (k : Option String) (es : List Value) :
    costSum (arrTasks i delim d k es) ≤ 10 * sizeL es + 2 := by
  rw [arrTasks]
  by_cases hsc : allScalars es = true
  · rw [if_pos hsc]
    simp [costSum, taskCost]
  · rw [if_neg hsc]
    cases htc : tabularCols es with
    | some cols =>
      have h1 : costSum ((encRows i delim (d + 1) es).map .line) =
          (encRows i delim (d + 1) es).length := by
        simp [costSum, taskCost, List.map_map]
        induction (encRows i delim (d + 1) es) with
        | nil => simp
        | cons r rs ih => simp [Function.comp, taskCost] at ih ⊢; omega
      have h2 : (encRows i delim (d + 1) es).length = es.length := by
        simp [encRows]
      have h3 := sizeL_ge_length es
      simp only [costSum, List.map_cons, List.sum_cons, taskCost]
      rw [show ((encRows i delim (d + 1) es).map STask.line).map taskCost =
        (encRows i delim (d + 1) es).map (taskCost ∘ STask.line) from by
          rw [List.map_map]]
      have h4 : ((encRows i delim (d + 1) es).map (taskCost ∘ STask.line)).sum =
          (encRows i delim (d + 1) es).length := by
        induction (encRows i delim (d + 1) es) with
        | nil => simp
        | cons r rs ih => simp [Function.comp, taskCost] at ih ⊢; omega
      rw [h4, h2]
      omega
    | none =>
      simp only [costSum, List.map_cons, List.sum_cons, taskCost, List.map_nil,
        List.sum_nil]
      omega

theorem arrTasks_lines (i : Nat) (delim : Char) (d : Nat) (k : Option String)
    (es : List Value) :
    ((arrTasks i delim d k es).map (taskLines i delim)).flatten =
      arrBlock i delim d k es (encItems i delim (d + 1) es) := by
  rw [arrTasks, arrBlock]
  by_cases hsc : allScalars es = true
  · rw [if_pos hsc, if_pos hsc]
    simp [taskLines]
  · rw [if_neg hsc, if_neg hsc]
    cases htc : tabularCols es with
    | some cols =>
      have hjoin : ∀ (ls : List (List Char)),
          ((ls.map STask.line).map (taskLines i delim)).flatten = ls := by
        intro ls
        induction ls with
        | nil => rfl
        | cons x xs ih =>
          simp only [List.map_cons, List.flatten_cons, taskLines,
            List.singleton_append, ih]
      simp only [List.map_cons, List.flatten_cons, taskLines, List.singleton_append, hjoin]
    | none =>
      simp only [List.map_cons, List.map_nil, List.flatten_cons, List.flatten_nil,
        taskLines, List.singleton_append, List.append_nil]
theorem taskCost_pos : ∀ (t : STask), 1 ≤ taskCost t := by
  intro t
  cases t <;> simp [taskCost] <;> omega

theorem stepTask_lines (i : Nat) (delim : Char) : ∀ (t : STask),
    (match stepTask i delim t with
     | (some l, new) => l :: (new.map (taskLines i delim)).flatten
     | (none, new) => (new.map (taskLines i delim)).flatten) = taskLines i delim t := by
  intro t
  cases t with
  | line l => rfl
  | val d v =>
    cases v with
    | arr es =>
      show ((arrTasks i delim d none es).map (taskLines i delim)).flatten =
        taskLines i delim (.val d (.arr es))
      rw [arrTasks_lines]
      rfl
    | obj es => simp [stepTask, taskLines, encVal]
    | null => rfl
    | bool b => rfl
    | num n => rfl
    | str s => rfl
  | entries d es =>
    cases es with
    | nil => rfl
    | cons e rest =>
      obtain ⟨k, v⟩ := e
      simp [stepTask, taskLines, encEntries]
  | entry d k v =>
    cases v with
    | arr es =>
      show ((arrTasks i delim d (some k) es).map (taskLines i delim)).flatten =
        taskLines i delim (.entry d k (.arr es))
      rw [arrTasks_lines]
      exact (encEntry_arr i delim d k es).symm
    | obj es => simp [stepTask, taskLines, encEntry]
    | null => simp [stepTask, taskLines, encEntry]
    | bool b => simp [stepTask, taskLines, encEntry]
    | num n => simp [stepTask, taskLines, encEntry]
    | str s => simp [stepTask, taskLines, encEntry]
  | items d vs =>
    cases vs with
    | nil => rfl
    | cons v rest =>
      cases v with
      | obj es => simp [stepTask, taskLines, encItems]
      | arr es =>
        show (indentChars i d ++ ['-']) ::
            ((arrTasks i delim (d + 1) none es ++ [STask.items d rest]).map
              (taskLines i delim)).flatten = taskLines i delim (.items d (.arr es :: rest))
        rw [List.map_append, List.flatten_append, arrTasks_lines]
        simp [stepTask, taskLines, encItems]
      | null => simp [stepTask, taskLines, encItems]
      | bool b => simp [stepTask, taskLines, encItems]
      | num n => simp [stepTask, taskLines, encItems]
      | str s => simp [stepTask, taskLines, encItems]

theorem stepTask_cost (i : Nat) (delim : Char) : ∀ (t : STask),
    costSum (stepTask i delim t).2 < taskCost t := by
  intro t
  cases t with
  | line l => simp [stepTask, costSum, taskCost]
  | val d v =>
    cases v with
    | arr es =>
      have h1 := arrTasks_cost i delim d none es
      show costSum (arrTasks i delim d none es) < taskCost (.val d (.arr es))
      simp only [taskCost, sizeV]
      omega
    | obj es => simp [stepTask, costSum, taskCost, sizeV]; omega
    | null => simp [stepTask, costSum, taskCost, sizeV]
    | bool b => simp [stepTask, costSum, taskCost, sizeV]
    | num n => simp [stepTask, costSum, taskCost, sizeV]
    | str s => simp [stepTask, costSum, taskCost, sizeV]
  | entries d es =>
    cases es with
    | nil => simp [stepTask, costSum, taskCost, sizeE]
    | cons e rest =>
      obtain ⟨k, v⟩ := e
      simp [stepTask, costSum, taskCost, sizeE]
      omega
  | entry d k v =>
    cases v with
    | arr es =>
      have h1 := arrTasks_cost i delim d (some k) es
      show costSum (arrTasks i delim d (some k) es) < taskCost (.entry d k (.arr es))
      simp only [taskCost, sizeV]
      omega
    | obj es => simp [stepTask, costSum, taskCost, sizeV]; omega
    | null => simp [stepTask, costSum, taskCost, sizeV]
    | bool b => simp [stepTask, costSum, taskCost, sizeV]
    | num n => simp [stepTask, costSum, taskCost, sizeV]
    | str s => simp [stepTask, costSum, taskCost, sizeV]
  | items d vs =>
    cases vs with
    | nil => simp [stepTask, costSum, taskCost, sizeL]
    | cons v rest =>
      cases v with
      | obj es => simp [stepTask, costSum, taskCost, sizeL, sizeV]; omega
      | arr es =>
        have h1 := arrTasks_cost i delim (d + 1) none es
        show costSum (arrTasks i delim (d + 1) none es ++ [STask.items d rest]) <
          taskCost (.items d (.arr es :: rest))
        rw [costSum_append]
        have h2 : costSum [STask.items d rest] = 10 * sizeL rest + 1 := by
          simp [costSum, taskCost]
        rw [h2]
        simp only [taskCost, sizeL, sizeV]
        omega
      | null => simp [stepTask, costSum, taskCost, sizeL, sizeV]
      | bool b => simp [stepTask, costSum, taskCost, sizeL, sizeV]
      | num n => simp [stepTask, costSum, taskCost, sizeL, sizeV]
      | str s => simp [stepTask, costSum, taskCost, sizeL, sizeV]

/-- With enough fuel the streaming machine emits exactly the lines its task
stack stands for. -/
theorem runTasks_spec (i : Nat) (delim : Char) : ∀ (fuel : Nat) (ts : List STask),
    costSum ts ≤ fuel → runTasks i delim fuel ts = (ts.map (taskLines i delim)).flatten := by
  intro fuel
  induction fuel with
  | zero =>
    intro ts h
    cases ts with
    | nil => rfl
    | cons t ts2 =>
      exfalso
      have h1 := taskCost_pos t
      simp only [costSum, List.map_cons, List.sum_cons, Nat.le_zero] at h
      omega
  | succ f ih =>
    intro ts h
    cases ts with
    | nil => rfl
    | cons t ts2 =>
      have hl := stepTask_lines i delim t
      have hc := stepTask_cost i delim t
      have hcost : taskCost t + costSum ts2 ≤ f + 1 := by
        simpa [costSum] using h
      cases hst : stepTask i delim t with
      | mk out new =>
        rw [hst] at hl
        rw [hst] at hc
        have hnew : costSum (new ++ ts2) ≤ f := by
          rw [costSum_append]
          simp only at hc
          omega
        cases out with
        | some l =>
          rw [show runTasks i delim (f + 1) (t :: ts2) =
            (match stepTask i delim t with
             | (some l2, new2) => l2 :: runTasks i delim f (new2 ++ ts2)
             | (none, new2) => runTasks i delim f (new2 ++ ts2)) from rfl]
          simp only [hst]
          rw [ih (new ++ ts2) hnew]
          simp only [List.map_append, List.flatten_append]
          simp only at hl
          rw [List.map_cons, List.flatten_cons, ← hl]
          simp
        | none =>
          rw [show runTasks i delim (f + 1) (t :: ts2) =
            (match stepTask i delim t with
             | (some l2, new2) => l2 :: runTasks i delim f (new2 ++ ts2)
             | (none, new2) => runTasks i delim f (new2 ++ ts2)) from rfl]
          simp only [hst]
          rw [ih (new ++ ts2) hnew]
          simp only [List.map_append, List.flatten_append]
          simp only at hl
          rw [List.map_cons, List.flatten_cons, ← hl]
/-- Modelled from the spec (section 4.5): the streaming producer — validate
options, then drive the task machine from a single root task, yielding the
finished lines in order. -/
def encodeLines (v : Value) (o : EncodeOptions) : Except EncErr (List String) :=
  match validateOptions o with
  | .error e => .error e
  | .ok (i, delim) =>
    let v2 := if o.keyFolding then foldValue o.flattenDepth v else v
    .ok ((runTasks i delim (taskCost (.val 0 v2)) [.val 0 v2]).map String.mk)

/-- Join produced lines with the line separator (exactly one between each
consecutive pair, none at the end). -/
def joinLines : List String → String
  | [] => ""
  | [l] => l
  | l :: l2 :: rest => l ++ "\n" ++ joinLines (l2 :: rest)

theorem string_mk_append (a b : List Char) :
    String.mk a ++ String.mk b = String.mk (a ++ b) := rfl

theorem joinLines_mk : ∀ (lines : List (List Char)),
    joinLines (lines.map String.mk) = String.mk (joinNl lines) := by
  intro lines
  induction lines with
  | nil => rfl
  | cons l rest ih =>
    cases rest with
    | nil => rfl
    | cons l2 rest2 =>
      rw [List.map_cons, List.map_cons,
        show joinLines (String.mk l :: String.mk l2 :: rest2.map String.mk) =
          String.mk l ++ "\n" ++ joinLines (String.mk l2 :: rest2.map String.mk) from rfl,
        show (String.mk l2 :: rest2.map String.mk) = (l2 :: rest2).map String.mk from rfl,
        ih]
      rw [show joinNl (l :: l2 :: rest2) = l ++ '\n' :: joinNl (l2 :: rest2) from rfl]
      rw [show ("\n" : String) = String.mk ['\n'] from rfl, string_mk_append,
        string_mk_append]
      simp

/-- The streaming producer agrees line for line with the one-shot encoder:
joined output equals `encode` on every input, including the validation
errors. -/
theorem encodeLines_encode (v : Value) (o : EncodeOptions) :
    encode v o = (encodeLines v o).map joinLines := by
  rw [encode, encodeLines]
  cases hvo : validateOptions o with
  | error e => rfl
  | ok p =>
    obtain ⟨i, delim⟩ := p
    have hrun := runTasks_spec i delim (taskCost (.val 0
      (if o.keyFolding then foldValue o.flattenDepth v else v)))
      [.val 0 (if o.keyFolding then foldValue o.flattenDepth v else v)]
      (by simp [costSum])
    simp only [Except.map, hrun]
    rw [joinLines_mk]
    simp [taskLines, encTop]
/-! ### The CLI conversion layer (src/packages/cli/src/conversion.ts) -/

/-- One observable write of a CLI invocation. -/
inductive WriteEvent
  | file (path : String) (chunk : String)
  | stdout (chunk : String)
deriving DecidableEq

/-- The chunk a write event carries. -/
def eventChunk : WriteEvent → String
  | .file _ c => c
  | .stdout c => c

/-- Concatenation of a chunk sequence, in write order. -/
def catStrs : List String → String
  | [] => ""
  | s :: rest => s ++ catStrs rest

/-- Message text of a decode error as surfaced to the CLI user. -/
def decErrMsg : DecErr → String
  | .unterminatedString => "unterminated string"
  | .indentMismatch => "indentation mismatch"
  | .lengthMismatch => "length mismatch"
  | .duplicateKey => "duplicate key"
  | .unexpectedToken => "unexpected token"
  | .pathConflict => "path conflict"

/-- Message text of an encode-option error. -/
def encErrMsg : EncErr → String
  | .invalidDelimiter => "invalid delimiter"
  | .invalidIndent => "invalid indent"

/-- The chunk sequence `writeStreamingToon` emits for its line iterable
(conversion.ts lines 118-156): a separating newline before every line but
the first, then the line itself. -/
def streamChunks : List String → List String
  | [] => []
  | l :: rest => l :: rest.flatMap (fun l2 => ["\n", l2])

/-- `writeStreamingToon` (conversion.ts lines 118-156): the same chunk
sequence goes to the file handle or to stdout; only stdout receives one
final trailing newline. -/
def writeStreamingToon (lines : List String) (outputPath : Option String) :
    List WriteEvent :=
  match outputPath with
  | some p => (streamChunks lines).map (.file p)
  | none => (streamChunks lines).map .stdout ++ [.stdout "\n"]

/-- `encodeToToon` (conversion.ts lines 12-76, non-stats path): a JSON.parse
failure is wrapped with the fixed prefix and aborts before any output; the
foreign JSON parse's outcome is a parameter of the shallow embedding.  A
successful parse streams the encoded lines. -/
def encodeToToon (parsed : Except String Value) (o : EncodeOptions)
    (output : Option String) : Except String (List WriteEvent) :=
  match parsed with
  | .error msg => .error ("Failed to parse JSON: " ++ msg)
  | .ok data =>
    match encodeLines data o with
    | .error e => .error (encErrMsg e)
    | .ok lines => .ok (writeStreamingToon lines output)

/-- `decodeToJson` (conversion.ts lines 78-113): a decode failure is wrapped
with the fixed prefix and aborts before any output; the foreign
JSON.stringify is a parameter of the shallow embedding. -/
def decodeToJson (toonContent : String) (o : DecodeOptions)
    (render : Value → String) (output : Option String) :
    Except String (List WriteEvent) :=
  match decode toonContent o with
  | .error e => .error ("Failed to decode TOON: " ++ decErrMsg e)
  | .ok data =>
    match output with
    | some p => .ok [.file p (render data)]
    | none => .ok [.stdout (render data), .stdout "\n"]

theorem string_empty_append (s : String) : "" ++ s = s := by
  cases s with
  | mk data => rfl

theorem catStrs_append : ∀ (a b : List String), catStrs (a ++ b) = catStrs a ++ catStrs b := by
  intro a
  induction a with
  | nil =>
    intro b
    rw [List.nil_append, catStrs, string_empty_append]
  | cons s rest ih =>
    intro b
    rw [List.cons_append, catStrs, catStrs, ih, String.append_assoc]

theorem catStrs_streamChunks : ∀ (lines : List String),
    catStrs (streamChunks lines) = joinLines lines := by
  intro lines
  induction lines with
  | nil => rfl
  | cons l rest ih =>
    cases rest with
    | nil => simp [streamChunks, catStrs, joinLines]
    | cons l2 rest2 =>
      have h1 : streamChunks (l :: l2 :: rest2) =
          l :: "\n" :: streamChunks (l2 :: rest2) := by
        simp [streamChunks]
      rw [h1, catStrs, catStrs, ih, joinLines, String.append_assoc]

theorem eventChunk_file (p : String) : ∀ (cs : List String),
    ((cs.map (WriteEvent.file p)).map eventChunk) = cs := by
  intro cs
  induction cs with
  | nil => rfl
  | cons c rest ih => simp [eventChunk] at ih ⊢; exact ih

theorem eventChunk_stdout (cs : List String) :
    ((cs.map WriteEvent.stdout).map eventChunk) = cs := by
  induction cs with
  | nil => rfl
  | cons c rest ih => simp [eventChunk] at ih ⊢; exact ih
/-! ### The claims -/

/-- C2: joining all lines of the streaming producer with the line separator
yields a string identical to `encode`'s single-string result, for every value
and every options record (the two also agree on validation failures, where
neither produces output). -/
theorem C2_streaming_equivalence (v : Value) (o : EncodeOptions) :
    encode v o = (encodeLines v o).map joinLines :=
  encodeLines_encode v o

/-- C7: encode is deterministic — two calls with structurally equal value and
options arguments yield byte-identical output text. -/
theorem C7_deterministic (v1 v2 : Value) (o1 o2 : EncodeOptions) (hv : v1 = v2)
    (ho : o1 = o2) : encode v1 o1 = encode v2 o2 := by
  rw [hv, ho]

/-- C7 witness at a concrete value and options. -/
theorem C7_deterministic_witness :
    encode (.obj [("a", .num 1)]) ⟨2, ',', false, none⟩ =
      encode (.obj [("a", .num 1)]) ⟨2, ',', false, none⟩ :=
  C7_deterministic (.obj [("a", .num 1)]) (.obj [("a", .num 1)])
    ⟨2, ',', false, none⟩ ⟨2, ',', false, none⟩ rfl rfl

/-- C10: `writeStreamingToon` writes exactly one newline between consecutive
lines; a file receives exactly the joined lines, stdout the joined lines
followed by one final newline. -/
theorem C10_streaming_newlines (lines : List String) (p : String) :
    catStrs ((writeStreamingToon lines (some p)).map eventChunk) = joinLines lines ∧
    catStrs ((writeStreamingToon lines none).map eventChunk) = joinLines lines ++ "\n" := by
  constructor
  · rw [writeStreamingToon, eventChunk_file, catStrs_streamChunks]
  · rw [writeStreamingToon, List.map_append, catStrs_append, eventChunk_stdout,
      catStrs_streamChunks]
    simp [eventChunk, catStrs]

/-- C6: encode fails eagerly on an out-of-set delimiter or a non-positive
indent — both the one-shot encoder and the streaming producer return the
validation error and no output at all, the delimiter being checked first. -/
theorem C6_validation (v : Value) (delim : Char) (ind : Int) (kf : Bool) (fd : Option Nat)
    (h : delim ∉ validDelims ∨ ind ≤ 0) :
    ∃ e, encode v ⟨ind, delim, kf, fd⟩ = .error e ∧
      encodeLines v ⟨ind, delim, kf, fd⟩ = .error e ∧
      (delim ∉ validDelims → e = .invalidDelimiter) ∧
      (delim ∈ validDelims → e = .invalidIndent) := by
  by_cases hd : validDelims.contains delim = true
  · have hmem : delim ∈ validDelims := by
      have := hd
      simp only [validDelims, List.contains, List.elem_eq_mem, decide_eq_true_eq] at this
      simpa [validDelims] using this
    have hind : ¬ 0 < ind := by
      rcases h with h1 | h1
      · exact absurd hmem h1
      · omega
    refine ⟨.invalidIndent, ?_, ?_, fun hn => absurd hmem hn, fun _ => rfl⟩
    · rw [encode]
      simp [validateOptions, hd, hind, hmem]
    · rw [encodeLines]
      simp [validateOptions, hd, hind, hmem]
  · have hnm : delim ∉ validDelims := by
      intro hmem
      apply hd
      simp only [validDelims, List.contains, List.elem_eq_mem, decide_eq_true_eq]
      simpa [validDelims] using hmem
    refine ⟨.invalidDelimiter, ?_, ?_, fun _ => rfl, fun hmem => absurd hmem hnm⟩
    · rw [encode]
      simp [validateOptions, hd, hnm]
    · rw [encodeLines]
      simp [validateOptions, hd, hnm]

/-- C6 witness: a semicolon delimiter and a zero indent are both rejected. -/
theorem C6_validation_witness :
    ∃ e, encode (.num 1) ⟨2, ';', false, none⟩ = .error e ∧
      encodeLines (.num 1) ⟨2, ';', false, none⟩ = .error e ∧
      (';' ∉ validDelims → e = .invalidDelimiter) ∧
      (';' ∈ validDelims → e = .invalidIndent) :=
  C6_validation (.num 1) ';' 2 false none (Or.inl (by decide))

/-- C9: the CLI wraps an input-JSON parse failure and a TOON decode failure
with their fixed prefixes and, in either case, returns the error without
having written any output. -/
theorem C9_error_wrapping (msg : String) (o : EncodeOptions) (out1 : Option String)
    (t : String) (od : DecodeOptions) (render : Value → String) (out2 : Option String)
    (e : DecErr) (hd : decode t od = .error e) :
    encodeToToon (.error msg) o out1 = .error ("Failed to parse JSON: " ++ msg) ∧
    decodeToJson t od render out2 = .error ("Failed to decode TOON: " ++ decErrMsg e) := by
  constructor
  · rfl
  · rw [decodeToJson, hd]

/-- C9 witness: a lone double quote fails to decode and the wrapped message
carries the fixed prefix. -/
theorem C9_error_wrapping_witness :
    encodeToToon (.error "bad") ⟨2, ',', false, none⟩ none =
      .error ("Failed to parse JSON: " ++ "bad") ∧
    decodeToJson "\"" ⟨2, true, false⟩ (fun _ => "") none =
      .error ("Failed to decode TOON: " ++ decErrMsg .unterminatedString) :=
  C9_error_wrapping "bad" ⟨2, ',', false, none⟩ none "\"" ⟨2, true, false⟩
    (fun _ => "") none .unterminatedString (by decide)

/-- C8: key folding and path expansion are exact inverses on every
singleton-object chain of dot-free keys over a scalar leaf whose fold count
stays within the configured flattenDepth. -/
theorem C8_fold_expand_chain (k : String) (ks : List String) (leaf : Value) (d : Nat)
    (hk : keyDotFree k = true) (hks : ∀ k2 ∈ ks, keyDotFree k2 = true)
    (hleaf : isScalar leaf = true) (hd : ks.length ≤ d) :
    expandValue (foldValue (some d) (.obj [(k, chainOf ks leaf)])) =
      .ok (.obj [(k, chainOf ks leaf)]) := by
  have hwfc : ∀ (ks2 : List String), wfV (chainOf ks2 leaf) = true := by
    intro ks2
    induction ks2 with
    | nil =>
      cases leaf with
      | null => rfl
      | bool b => rfl
      | num n => rfl
      | str s => rfl
      | arr es => simp [isScalar] at hleaf
      | obj es => simp [isScalar] at hleaf
    | cons k2 ks2 ih => simp [chainOf, wfV, wfE, nodupKeys, lookupV, ih]
  have hdfc : ∀ (ks2 : List String), (∀ k2 ∈ ks2, keyDotFree k2 = true) →
      dfV (chainOf ks2 leaf) = true := by
    intro ks2
    induction ks2 with
    | nil =>
      intro _
      cases leaf with
      | null => rfl
      | bool b => rfl
      | num n => rfl
      | str s => rfl
      | arr es => simp [isScalar] at hleaf
      | obj es => simp [isScalar] at hleaf
    | cons k2 ks2 ih =>
      intro hall
      simp only [chainOf, dfV, dfE, Bool.and_eq_true]
      exact ⟨⟨hall k2 (by simp), ih (fun k3 h3 => hall k3 (by simp [h3]))⟩, trivial⟩
  have hwf : wfV (.obj [(k, chainOf ks leaf)]) = true := by
    simp [wfV, wfE, nodupKeys, lookupV, hwfc ks]
  have hdf : dfV (.obj [(k, chainOf ks leaf)]) = true := by
    simp only [dfV, dfE, Bool.and_eq_true]
    exact ⟨⟨hk, hdfc ks hks⟩, trivial⟩
  exact expand_fold (some d) (sizeOf (Value.obj [(k, chainOf ks leaf)]))
    (.obj [(k, chainOf ks leaf)]) le_rfl hwf hdf

/-- C8 witness: the claim's own example `{a:{b:{c:1}}}` with flattenDepth 2. -/
theorem C8_fold_expand_chain_witness :
    expandValue (foldValue (some 2) (.obj [("a", chainOf ["b", "c"] (.num 1))])) =
      .ok (.obj [("a", chainOf ["b", "c"] (.num 1))]) :=
  C8_fold_expand_chain "a" ["b", "c"] (.num 1) 2 (by decide)
    (by decide) (by decide) (by decide)
theorem tabularCols_not_allScalars {es : List Value} {cols : List String}
    (h : tabularCols es = some cols) : allScalars es = false := by
  cases es with
  | nil => simp [tabularCols] at h
  | cons v0 rest =>
    cases v0 with
    | obj e0 => simp [allScalars, isScalar]
    | null => simp [tabularCols] at h
    | bool b => simp [tabularCols] at h
    | num n => simp [tabularCols] at h
    | str s => simp [tabularCols] at h
    | arr xs => simp [tabularCols] at h

/-- C3 counterexample: `[{"a": []}]` is a non-empty array of Objects with an
identical ordered key set, yet the encoded text is the list form and contains
no `{`, so no tabular header with count and columns is emitted — a non-scalar
element value rejects the tabular layout. -/
theorem C3_tabular_counterexample :
    entryKeys [(("a" : String), Value.arr ([] : List Value))] = ["a"] ∧
    (encode (.arr [.obj [("a", .arr [])]]) ⟨2, ',', false, none⟩).toOption =
      some "[1]:\n  -\n    a[0]:" ∧
    ∀ c ∈ ("[1]:\n  -\n    a[0]:".data), c ≠ '{' := by
  refine ⟨rfl, by decide, by decide⟩

/-- C3 (amended): a non-empty array of Objects sharing one ordered key set
all of whose values are scalars encodes to the single tabular header with the
element count and the shared columns followed by one data row per element,
and strict decoding of that text reproduces the array exactly. -/
theorem C3_tabular_roundtrip (i : Nat) (hi : 1 ≤ i) (delim : Char)
    (hdv : delim ∈ validDelims) (es : List Value) (cols : List String)
    (htc : tabularCols es = some cols) (hwf : wfL es = true) :
    encTop i delim (.arr es) =
      tabLine i delim 0 none cols es.length :: encRows i delim 1 es ∧
    decodeCore true i (joinNl (encTop i delim (.arr es))) = .ok (.arr es) := by
  have hsc : ¬ allScalars es = true := by
    rw [tabularCols_not_allScalars htc]
    simp
  constructor
  · rw [show encTop i delim (.arr es) =
      arrBlock i delim 0 none es (encItems i delim 1 es) from rfl, arrBlock,
      if_neg hsc, htc]
  · exact decodeCore_encTop true i hi hdv (.arr es) (by simpa [wfV] using hwf)

/-- C3 witness: the claim's example `[{id:1,name:"a"},{id:2,name:"b"}]`
becomes `[2]{id,name}:` plus two rows and strict-decodes back. -/
theorem C3_tabular_roundtrip_witness :
    encTop 2 ',' (.arr [.obj [("id", .num 1), ("name", .str "a")],
        .obj [("id", .num 2), ("name", .str "b")]]) =
      tabLine 2 ',' 0 none ["id", "name"] 2 ::
        encRows 2 ',' 1 [.obj [("id", .num 1), ("name", .str "a")],
          .obj [("id", .num 2), ("name", .str "b")]] ∧
    decodeCore true 2 (joinNl (encTop 2 ',' (.arr [.obj [("id", .num 1), ("name", .str "a")],
        .obj [("id", .num 2), ("name", .str "b")]]))) =
      .ok (.arr [.obj [("id", .num 1), ("name", .str "a")],
        .obj [("id", .num 2), ("name", .str "b")]]) :=
  C3_tabular_roundtrip 2 (by decide) ',' (by decide)
    [.obj [("id", .num 1), ("name", .str "a")], .obj [("id", .num 2), ("name", .str "b")]]
    ["id", "name"] (by decide) (by decide)

/-- C4: decoding a tabular block whose header declares `n` rows but where
only the rows of `es` (fewer than `n`) follow fails with the length-mismatch
error in strict mode and returns exactly the present rows in non-strict
mode. -/
theorem C4_tabular_length (strict : Bool) (i : Nat) (hi : 1 ≤ i) (delim : Char)
    (hdv : delim ∈ validDelims) (es : List Value) (cols : List String) (n : Nat)
    (hrows : ∀ v ∈ es, rowMatches cols v = true) (hwf : ∀ v ∈ es, wfV v = true)
    (hlt : es.length < n) :
    decodeCore strict i (joinNl ((indentChars i 0 ++ tabContent delim none cols n) ::
        encRows i delim 1 es)) =
      if strict then .error .lengthMismatch else .ok (.arr es) := by
  have hnl : ∀ l ∈ (indentChars i 0 ++ tabContent delim none cols n) ::
      encRows i delim 1 es, ('\n' : Char) ∉ l := by
    intro l hl
    rcases List.mem_cons.mp hl with h1 | h1
    · rw [h1]
      intro hm
      rcases List.mem_append.mp hm with h2 | h2
      · exact nlFree_indentChars i 0 h2
      · exact nlFree_tabContent hdv none cols n h2
    · exact nlFree_encRows hdv i 1 es l h1
  have hsplit : splitNl (joinNl ((indentChars i 0 ++ tabContent delim none cols n) ::
      encRows i delim 1 es)) =
      (indentChars i 0 ++ tabContent delim none cols n) :: encRows i delim 1 es := by
    refine splitNl_joinNl _ (by simp) ?_ hnl
    intro l0 hl0
    simp only [List.head?_cons, Option.some.injEq] at hl0
    rw [← hl0]
    have hi0 : indentChars i 0 = [] := by simp [indentChars]
    rw [hi0, List.nil_append]
    exact tabContent_ne_nil delim none cols n
  rw [decodeCore, hsplit]
  have hl := lineIndent_enc i 0 (tabContent delim none cols n)
    (tabContent_head delim none cols n)
  simp only [decodeLines]
  rw [hl.1, depthOf_enc strict i 0 hi, hl.2]
  simp only [ne_self_iff_false, if_false, parseLineContent_tab hdv none cols n]
  have hrowse : parseRows strict i 1 cols
      (((indentChars i 0 ++ tabContent delim none cols n) ::
        encRows i delim 1 es).length) (encRows i delim 1 es) = .ok (es, []) := by
    have h2 := parseRows_enc strict i hi hdv es cols 1
      (((indentChars i 0 ++ tabContent delim none cols n) ::
        encRows i delim 1 es).length) [] hrows hwf
      (by simp [encRows]) trivial
    simpa using h2
  simp only [List.length_cons] at hrowse
  have hne : (es.length == n) = false := by
    simp only [beq_eq_false_iff_ne, ne_eq]
    omega
  cases strict with
  | true => simp [hrowse, hne]
  | false => simp [hrowse, hne]

/-- C4 witness: a header declaring 3 rows over 2 present rows, in both
modes. -/
theorem C4_tabular_length_witness :
    (decodeCore true 2 (joinNl ((indentChars 2 0 ++ tabContent ',' none ["id"] 3) ::
        encRows 2 ',' 1 [.obj [("id", .num 1)], .obj [("id", .num 2)]])) =
      if true then .error .lengthMismatch
      else .ok (.arr [.obj [("id", .num 1)], .obj [("id", .num 2)]])) ∧
    (decodeCore false 2 (joinNl ((indentChars 2 0 ++ tabContent ',' none ["id"] 3) ::
        encRows 2 ',' 1 [.obj [("id", .num 1)], .obj [("id", .num 2)]])) =
      if false then .error .lengthMismatch
      else .ok (.arr [.obj [("id", .num 1)], .obj [("id", .num 2)]])) :=
  ⟨C4_tabular_length true 2 (by decide) ',' (by decide)
      [.obj [("id", .num 1)], .obj [("id", .num 2)]] ["id"] 3 (by decide) (by decide)
      (by decide),
    C4_tabular_length false 2 (by decide) ',' (by decide)
      [.obj [("id", .num 1)], .obj [("id", .num 2)]] ["id"] 3 (by decide) (by decide)
      (by decide)⟩
theorem lineIndent_of_head (l : List Char) (h : l.head? ≠ some ' ') :
    lineIndent l = 0 ∧ lineContent l = l := by
  cases l with
  | nil => exact ⟨rfl, rfl⟩
  | cons c t =>
    have hc : isSpace c = false := by
      simp only [List.head?_cons, ne_eq, Option.some.injEq] at h
      simp [isSpace, h]
    constructor
    · rw [lineIndent, List.takeWhile_cons, hc]
      rfl
    · rw [lineContent, List.dropWhile_cons, hc]
      rfl

/-- C5: an unterminated quoted scalar (the spec's `key: "...` shape, with any
escape-free tail on the line) fails decode with the unterminated-string
error in strict and non-strict mode alike, with or without path expansion;
the error is never recovered. -/
theorem C5_unterminated (strict expand : Bool) (i : Nat) (hi : 1 ≤ i) (s : List Char)
    (hq : ('"' : Char) ∉ s) (hbs : ('\\' : Char) ∉ s) (hnl : ('\n' : Char) ∉ s) :
    decode (String.mk ('k' :: 'e' :: 'y' :: ':' :: ' ' :: '"' :: s)) ⟨i, strict, expand⟩ =
      .error .unterminatedString := by
  set l : List Char := 'k' :: 'e' :: 'y' :: ':' :: ' ' :: '"' :: s with hld
  have hnll : ('\n' : Char) ∉ l := by
    rw [hld]
    intro hm
    simp only [List.mem_cons] at hm
    rcases hm with h | h | h | h | h | h | h
    · exact absurd h (by decide)
    · exact absurd h (by decide)
    · exact absurd h (by decide)
    · exact absurd h (by decide)
    · exact absurd h (by decide)
    · exact absurd h (by decide)
    · exact hnl h
  have hsplit : splitNl l = [l] := by
    rw [splitNl, if_neg (by rw [hld]; simp)]
    have := splitNlGo_joinNl [l] (by simp) (by
      intro l2 hl2
      simp only [List.mem_singleton] at hl2
      rw [hl2]
      exact hnll)
    simpa [joinNl, joinDelim] using this
  have hquoted : parseQuotedBody s = .error .unterminatedString := by
    refine parseQuotedBody_unterminated s ?_
    intro c hc
    exact ⟨fun he => hq (he ▸ hc), fun he => hbs (he ▸ hc)⟩
  have hplc : parseLineContent l = .ok (.leaf (String.mk ['k', 'e', 'y']) ('"' :: s)) := by
    rw [hld]
    simp [parseLineContent, bareKeyLine, notKeyStop, parseAfterKey]
  have hps : parseScalar ('"' :: s) = .error .unterminatedString := by
    rw [parseScalar]
    simp [hquoted]
  have hlin := lineIndent_of_head l (by rw [hld]; simp)
  have hdep : depthOf strict i (lineIndent l) = .ok 0 := by
    rw [hlin.1]
    have := depthOf_enc strict i 0 hi
    rwa [Nat.zero_mul] at this
  have hpe : parseEntries strict i 0 1 [l] = .error .unterminatedString := by
    simp only [parseEntries]
    rw [hdep]
    simp only [lt_self_iff_false, if_false, hlin.2, hplc, hps]
  rw [decode]
  have hdata : (String.mk l).data = l := rfl
  rw [show decodeCore strict i (String.mk l).data = decodeLines strict i (splitNl l) from rfl,
    hsplit]
  simp only [decodeLines]
  rw [hdep]
  simp only [ne_self_iff_false, if_false, hlin.2, hplc]
  simp only [List.length_cons, List.length_nil, Nat.zero_add, hpe]

/-- C5 witness: the spec's own example line. -/
theorem C5_unterminated_witness :
    decode (String.mk ('k' :: 'e' :: 'y' :: ':' :: ' ' :: '"' ::
        ('u' :: 'n' :: 't' :: 'e' :: 'r' :: 'm' :: []))) ⟨2, true, false⟩ =
      .error .unterminatedString :=
  C5_unterminated true false 2 (by decide) ('u' :: 'n' :: 't' :: 'e' :: 'r' :: 'm' :: [])
    (by decide) (by decide) (by decide)
/-- C1 counterexample: under the claim's own proviso (keyFolding set,
expandPaths set, default indent, flattenDepth never exceeded), the value
`{"a.b": 1}` is not returned structurally equal — the dotted key expands into
a nested object. -/
theorem C1_roundtrip_counterexample :
    (encode (.obj [("a.b", .num 1)]) ⟨2, ',', true, none⟩).toOption = some "a.b: 1" ∧
    decode "a.b: 1" ⟨2, true, true⟩ = .ok (.obj [("a", .obj [("b", .num 1)])]) ∧
    Value.obj [("a", .obj [("b", .num 1)])] ≠ .obj [("a.b", .num 1)] := by
  refine ⟨by decide, by decide, by decide⟩

/-- C1 (amended): for every well-formed Value whose keys are all dot-free,
decoding the result of `encode` with an unlimited flattenDepth under decode
options sharing the encoder's indent returns a structurally equal Value, in
both strict modes, whenever expandPaths is set if and only if keyFolding
was. -/
theorem C1_roundtrip (v : Value) (hwf : wfV v = true) (hdf : dfV v = true)
    (b strict : Bool) (ind : Int) (hind : 0 < ind) (delim : Char)
    (hdv : delim ∈ validDelims) (s : String)
    (henc : encode v ⟨ind, delim, b, none⟩ = .ok s) :
    decode s ⟨ind.toNat, strict, b⟩ = .ok v := by
  have hcont : validDelims.contains delim = true := by
    simp only [validDelims, List.contains, List.elem_eq_mem, decide_eq_true_eq]
    exact hdv
  have hvo : validateOptions ⟨ind, delim, b, none⟩ = .ok (ind.toNat, delim) := by
    simp [validateOptions, hcont, hdv, hind]
  rw [encode, hvo] at henc
  have hs : s.data = joinNl (encTop ind.toNat delim
      (if b then foldValue none v else v)) := by
    injection henc with h2
    rw [← h2]
  have hi1 : 1 ≤ ind.toNat := by omega
  have hwf2 : wfV (if b then foldValue none v else v) = true := by
    cases b with
    | false => simpa using hwf
    | true => simpa using wf_fold none (sizeOf v) v le_rfl hwf hdf
  have hcore := decodeCore_encTop strict ind.toNat hi1 hdv
    (if b then foldValue none v else v) hwf2
  simp only [decode]
  rw [hs]
  simp only [hcore]
  cases b with
  | false => simp
  | true =>
    simp only [if_true]
    simpa using expand_fold none (sizeOf v) v le_rfl hwf hdf

/-- C1 witness: a one-entry object through the folding/expansion pipeline. -/
theorem C1_roundtrip_witness :
    decode "a: 1" ⟨(2 : Int).toNat, true, true⟩ = .ok (.obj [("a", .num 1)]) :=
  C1_roundtrip (.obj [("a", .num 1)]) (by decide) (by decide) true true 2 (by decide) ','
    (by decide) "a: 1" (by rfl)
end Toon
